import Mathlib

/-!
# Verification of the step-db cache core

Shallow embedding of the step-db repository (Rust) in Lean 4, together with
theorems settling the frozen claims about it.  Machine integers are modelled
as `Nat`/`Int` with explicit wrapping where the Rust code can wrap; byte
buffers are `List Nat` whose elements stand for `u8` values; fallible
reads that panic in Rust are totalised with default values at points the
doc comments flag (those points are unreachable in the runs the theorems
talk about).  Rust loops whose termination is not structural are embedded
with an explicit fuel parameter; every wrapper passes fuel that provably
exceeds the number of iterations the Rust loop performs, and unfolding
lemmas recover the natural recursion.

Sections follow the source files:
* `src/cache/entry.rs`   — value codec (`Value`, `size_varint`, uvarint)
* `src/cache/counter.rs` — Count-Min sketch (`CmRow`, `CMSketch`)
* `src/cache/bloom.rs`   — Bloom-filter doorkeeper (`BloomFilter`)
* `src/memory/lru.rs`    — Window LRU and Segmented LRU over a shared map
* `src/cache/cache.rs`   — cache facade (`set`/`get` admission and ticking)
* `src/memory/utils.rs` + `src/cache/skiplist.rs` — key comparison and the
  (sequentially executed) skiplist.
-/

namespace StepDB

/-! ## Value codec — `src/cache/entry.rs`

The Rust encoder writes sequentially into a caller-supplied buffer starting
at index 0 and returns the number of bytes written; we model it as the list
of bytes it writes (the returned count is the list's length).  The decoder
is modelled directly on the byte list. -/

/-- `MAX_VAR_INT_LEN64` from `entry.rs`. -/
def MAX_VAR_INT_LEN64 : Nat := 10

/-- `Value` from `entry.rs`: `meta: u8`, `v: Vec<u8>`, `expires_at: u64`,
`version: u64`. -/
structure Value where
  meta : Nat
  v : List Nat
  expires_at : Nat
  version : Nat
deriving Repr, DecidableEq

/-- `Value::default()` (all fields zero / empty). -/
def Value.defaultVal : Value := { meta := 0, v := [], expires_at := 0, version := 0 }

/-- The loop of `size_varint` (`n = 1; while y != 0 { n += 1; y >>= 7 }`),
with fuel; each iteration strictly shrinks `y`, so fuel `y + 1` is enough. -/
def size_varint_loop : Nat → Nat → Nat → Nat
  | 0, _, n => n
  | fuel + 1, y, n => if y = 0 then n else size_varint_loop fuel (y >>> 7) (n + 1)

/-- `size_varint` from `entry.rs` (note: starts the count at 1 *and* counts one
iteration per 7-bit group, so it over-counts by one for every `x ≥ 1`). -/
def size_varint (x : Nat) : Nat := size_varint_loop (x + 1) x 1

/-- `Value::encoded_size`: `self.v.len() + 1 + size_varint(self.expires_at)`. -/
def Value.encoded_size (self : Value) : Nat :=
  (self.v.length + 1) + size_varint self.expires_at

/-- The loop of `encode_uvarint` from `entry.rs`, with fuel, as the list of
bytes it writes into `buf[0..]`.  While `value >= 0x80` it emits
`(value as u8) | 0x80` and shifts by 7; finally it emits `value as u8`. -/
def encode_uvarint_loop : Nat → Nat → List Nat
  | 0, _ => []
  | fuel + 1, x =>
    if x < 0x80 then [x]
    else ((x % 256) ||| 0x80) :: encode_uvarint_loop fuel (x >>> 7)

/-- `encode_uvarint` as the bytes it writes (its Rust return value is this
list's length). -/
def encode_uvarint (x : Nat) : List Nat := encode_uvarint_loop (x + 1) x

/-- The indexed loop of `decode_uvarint` from `entry.rs`: state `(i, x, s)`
walks the bytes; `u64` accumulation wraps at `2^64` (Rust `u64` shifts keep
only the low 64 bits). -/
def decode_uvarint_go : List Nat → Nat → Nat → Nat → Nat × Int
  | [], _, _, _ => (0, 0)
  | b :: rest, i, x, s =>
    if i = MAX_VAR_INT_LEN64 then (0, -(Int.ofNat i + 1))
    else if b < 0x80 then
      if i = MAX_VAR_INT_LEN64 - 1 ∧ 1 < b then (0, -(Int.ofNat i + 1))
      else ((x ||| (b <<< s)) % 2 ^ 64, Int.ofNat (i + 1))
    else decode_uvarint_go rest (i + 1) ((x ||| ((b &&& 0x7f) <<< s)) % 2 ^ 64) (s + 7)

/-- `decode_uvarint(buf)` returning `(value, bytes-consumed-or-negative-sentinel)`. -/
def decode_uvarint (buf : List Nat) : Nat × Int := decode_uvarint_go buf 0 0 0

/-- `Value::encode_value` as the bytes written: `meta` at byte 0, the uvarint
of `expires_at`, then the payload.  The Rust return value (total bytes
written) is this list's length. -/
def Value.encode_value (self : Value) : List Nat :=
  self.meta :: (encode_uvarint self.expires_at ++ self.v)

/-- `Value::decode_value(&mut self, buf)`: sets `meta` from `buf[0]`, decodes
the uvarint for `expires_at`, and takes the remaining bytes as the payload.
A negative size sentinel makes Rust index out of bounds (panic); here
`Int.toNat` sends it to 0, a point no theorem below reaches. -/
def Value.decode_value (self : Value) (buf : List Nat) : Value :=
  let meta := buf.headD 0
  let p := decode_uvarint buf.tail
  { self with meta := meta, expires_at := p.1, v := buf.drop (1 + p.2.toNat) }

/-! ### Facts about the uvarint codec -/

theorem size_varint_loop_congr (x : Nat) : ∀ f g n, x < f → x < g →
    size_varint_loop f x n = size_varint_loop g x n := by
  induction x using Nat.strong_induction_on with
  | _ x ih =>
    intro f g n hf hg
    match f, g with
    | f + 1, g + 1 =>
      simp only [size_varint_loop]
      by_cases h : x = 0
      · simp [h]
      · simp only [if_neg h]
        have hlt : x >>> 7 < x := by
          simp only [Nat.shiftRight_eq_div_pow]
          exact Nat.div_lt_self (Nat.pos_of_ne_zero h) (by norm_num)
        exact ih _ hlt f g (n + 1) (by omega) (by omega)

/-- Unfolding lemma recovering the Rust loop for `size_varint`. -/
theorem size_varint_go (x n : Nat) :
    size_varint_loop (x + 1) x n =
      if x = 0 then n else size_varint_loop (x >>> 7 + 1) (x >>> 7) (n + 1) := by
  by_cases h : x = 0
  · simp [h, size_varint_loop]
  · have hlt : x >>> 7 < x := by
      simp only [Nat.shiftRight_eq_div_pow]
      exact Nat.div_lt_self (Nat.pos_of_ne_zero h) (by norm_num)
    simp only [size_varint_loop, if_neg h]
    exact size_varint_loop_congr _ _ _ _ hlt (Nat.lt_succ_self _)

theorem encode_uvarint_loop_congr (x : Nat) : ∀ f g, x < f → x < g →
    encode_uvarint_loop f x = encode_uvarint_loop g x := by
  induction x using Nat.strong_induction_on with
  | _ x ih =>
    intro f g hf hg
    match f, g with
    | f + 1, g + 1 =>
      simp only [encode_uvarint_loop]
      by_cases h : x < 0x80
      · simp [h]
      · simp only [if_neg h]
        have hlt : x >>> 7 < x := by
          simp only [Nat.shiftRight_eq_div_pow]
          exact Nat.div_lt_self (by omega) (by norm_num)
        rw [ih _ hlt f g (by omega) (by omega)]

/-- Unfolding lemma recovering the Rust loop for `encode_uvarint`. -/
theorem encode_uvarint_eq (x : Nat) :
    encode_uvarint x =
      if x < 0x80 then [x]
      else ((x % 256) ||| 0x80) :: encode_uvarint (x >>> 7) := by
  by_cases h : x < 0x80
  · simp [encode_uvarint, encode_uvarint_loop, h]
  · have hlt : x >>> 7 < x := by
      simp only [Nat.shiftRight_eq_div_pow]
      exact Nat.div_lt_self (by omega) (by norm_num)
    simp only [encode_uvarint, encode_uvarint_loop, if_neg h]
    exact congrArg _ (encode_uvarint_loop_congr _ _ _ hlt (Nat.lt_succ_self _))

theorem encode_uvarint_ne_nil (x : Nat) : encode_uvarint x ≠ [] := by
  rw [encode_uvarint_eq]
  by_cases h : x < 0x80 <;> simp [h]

/-- `size_varint` counts exactly one more than the encoder's byte count when
`x ≥ 1`, and agrees (both 1) when `x = 0`. -/
theorem size_varint_eq (x : Nat) :
    size_varint x = (encode_uvarint x).length + (if x = 0 then 0 else 1) := by
  suffices h : ∀ x, x ≠ 0 → ∀ n, size_varint_loop (x + 1) x (n + 1) =
      (encode_uvarint x).length + n + 1 by
    by_cases h0 : x = 0
    · subst h0; decide
    · have := h x h0 0
      simp only [size_varint, if_neg h0, this]
  intro x
  induction x using Nat.strong_induction_on with
  | _ x ih =>
    intro h0 n
    rw [size_varint_go, encode_uvarint_eq]
    by_cases h : x < 0x80
    · have h7 : x >>> 7 = 0 := by
        simp only [Nat.shiftRight_eq_div_pow]
        exact Nat.div_eq_of_lt (by omega)
      simp only [if_neg h0, if_pos h, h7, List.length_cons, List.length_nil]
      simp [size_varint_loop]
      omega
    · have hlt : x >>> 7 < x := by
        simp only [Nat.shiftRight_eq_div_pow]
        exact Nat.div_lt_self (by omega) (by norm_num)
      have hdiv : x >>> 7 = x / 128 := by
        simp [Nat.shiftRight_eq_div_pow]
      have h7 : x >>> 7 ≠ 0 := by omega
      simp only [if_neg h, if_neg h0, List.length_cons]
      rw [ih _ hlt h7 (n + 1)]
      omega

theorem lor_shiftLeft_eq_add {a b s : Nat} (h : a < 2 ^ s) :
    a ||| (b <<< s) = a + b * 2 ^ s := by
  calc a ||| (b <<< s) = 2 ^ s * b ||| a := by
        rw [Nat.lor_comm, Nat.shiftLeft_eq, Nat.mul_comm]
    _ = 2 ^ s * b + a := (Nat.mul_add_lt_is_or h b).symm
    _ = a + b * 2 ^ s := by ring

theorem byte_or_high_ge (y : Nat) (hy : y < 256) : 128 ≤ (y ||| 128) := by
  revert hy; revert y
  set_option maxRecDepth 4000 in decide

theorem byte_or_high_and_low (y : Nat) (hy : y < 256) : (y ||| 128) &&& 127 = y % 128 := by
  revert hy; revert y
  set_option maxRecDepth 4000 in decide

/-- Decoding inverts encoding: the generalized loop invariant.  `s = 7 * i`
tracks the shift, `acc` the bits already accumulated. -/
theorem decode_encode_uvarint_go (x : Nat) : ∀ i acc tail,
    x < 2 ^ (64 - 7 * i) → acc < 2 ^ (7 * i) → i ≤ 9 →
    decode_uvarint_go (encode_uvarint x ++ tail) i acc (7 * i) =
      (acc + x * 2 ^ (7 * i), Int.ofNat (i + (encode_uvarint x).length)) := by
  induction x using Nat.strong_induction_on with
  | _ x ih =>
    intro i acc tail hx hacc hi
    rw [encode_uvarint_eq]
    by_cases h : x < 0x80
    · simp only [if_pos h, List.cons_append, List.nil_append, List.length_cons,
        List.length_nil, decode_uvarint_go]
      have hi10 : ¬ i = MAX_VAR_INT_LEN64 := by simp [MAX_VAR_INT_LEN64]; omega
      have hbad : ¬ (i = MAX_VAR_INT_LEN64 - 1 ∧ 1 < x) := by
        simp only [MAX_VAR_INT_LEN64]
        rintro ⟨h9, hgt⟩
        rw [h9] at hx
        norm_num at hx
        omega
      have hsum : acc ||| (x <<< (7 * i)) = acc + x * 2 ^ (7 * i) :=
        lor_shiftLeft_eq_add hacc
      have hlt64 : acc + x * 2 ^ (7 * i) < 2 ^ 64 := by
        have h1 : (x + 1) * 2 ^ (7 * i) ≤ 2 ^ (64 - 7 * i) * 2 ^ (7 * i) :=
          Nat.mul_le_mul_right _ (by omega)
        have h2 : 2 ^ (64 - 7 * i) * 2 ^ (7 * i) = 2 ^ 64 := by
          rw [← Nat.pow_add]
          congr 1
          omega
        have h3 : (x + 1) * 2 ^ (7 * i) = x * 2 ^ (7 * i) + 2 ^ (7 * i) := by ring
        omega
      simp only [if_neg hi10, if_pos h, if_neg hbad, hsum, Nat.mod_eq_of_lt hlt64]
    · simp only [if_neg h, List.cons_append, List.length_cons, decode_uvarint_go]
      have hi10 : ¬ i = MAX_VAR_INT_LEN64 := by simp [MAX_VAR_INT_LEN64]; omega
      have hge : ¬ ((x % 256) ||| 0x80) < 0x80 := by
        have := byte_or_high_ge (x % 256) (Nat.mod_lt _ (by norm_num))
        omega
      have hi8 : i ≤ 8 := by
        by_contra hc
        have h9 : i = 9 := by omega
        rw [h9] at hx
        norm_num at hx
        omega
      have hdiv : x >>> 7 = x / 128 := by simp [Nat.shiftRight_eq_div_pow]
      have hmask : ((x % 256) ||| 0x80) &&& 0x7f = x % 128 := by
        rw [byte_or_high_and_low (x % 256) (Nat.mod_lt _ (by norm_num))]
        exact Nat.mod_mod_of_dvd x (by norm_num)
      have haccs : acc + (x % 128) * 2 ^ (7 * i) < 2 ^ (7 * (i + 1)) := by
        have h1 : (x % 128) * 2 ^ (7 * i) ≤ 127 * 2 ^ (7 * i) :=
          Nat.mul_le_mul_right _ (by omega)
        have h2 : 2 ^ (7 * (i + 1)) = 128 * 2 ^ (7 * i) := by
          rw [Nat.mul_add, Nat.pow_add]
          ring
        omega
      have hacc64 : acc + (x % 128) * 2 ^ (7 * i) < 2 ^ 64 := by
        calc acc + (x % 128) * 2 ^ (7 * i) < 2 ^ (7 * (i + 1)) := haccs
        _ ≤ 2 ^ 64 := Nat.pow_le_pow_right (by norm_num) (by omega)
      have hsum : acc ||| ((x % 128) <<< (7 * i)) = acc + (x % 128) * 2 ^ (7 * i) :=
        lor_shiftLeft_eq_add hacc
      have hxdiv : x / 128 < 2 ^ (64 - 7 * (i + 1)) := by
        have h2 : 2 ^ (64 - 7 * i) = 2 ^ (64 - 7 * (i + 1)) * 128 := by
          have h128 : (128 : Nat) = 2 ^ 7 := by norm_num
          rw [h128, ← Nat.pow_add]
          congr 1
          omega
        rw [h2] at hx
        exact Nat.div_lt_of_lt_mul (by omega)
      have hrec := ih (x / 128) (by omega) (i + 1) (acc + (x % 128) * 2 ^ (7 * i))
        tail hxdiv haccs (by omega)
      have h7i : 7 * i + 7 = 7 * (i + 1) := by omega
      simp only [if_neg hi10, if_neg hge, hmask]
      rw [hdiv, hsum, Nat.mod_eq_of_lt hacc64, h7i, hrec]
      have harith : acc + (x % 128) * 2 ^ (7 * i) + x / 128 * 2 ^ (7 * (i + 1)) =
          acc + x * 2 ^ (7 * i) := by
        have h2 : 2 ^ (7 * (i + 1)) = 2 ^ (7 * i) * 128 := by
          rw [Nat.mul_add, Nat.pow_add]
        rw [h2]
        nlinarith [Nat.div_add_mod x 128]
      rw [harith]
      have hlen : i + 1 + (encode_uvarint (x / 128)).length =
          i + ((encode_uvarint (x / 128)).length + 1) := by omega
      rw [hlen]

/-- Decoding an encoded `u64` from the front of any buffer returns the value
and the number of bytes the encoder wrote. -/
theorem decode_encode_uvarint (x : Nat) (tail : List Nat) (hx : x < 2 ^ 64) :
    decode_uvarint (encode_uvarint x ++ tail) =
      (x, Int.ofNat (encode_uvarint x).length) := by
  have := decode_encode_uvarint_go x 0 0 tail (by simpa using hx) (by norm_num)
    (by norm_num)
  simpa [decode_uvarint] using this

/-- C5: the claim says `encoded_size(v)` equals the number of bytes
`encode_value` writes — `1 + (minimal LEB128 length of expires_at) + payload
length` — and that `size_varint(x)` equals the encoder's byte count for every
`x`.  The code refutes this: `size_varint` starts its count at 1 *and* adds 1
per 7-bit digit, so at `x = 1` it answers 2 while `encode_uvarint` writes one
byte, and `encoded_size` of `{meta: 0, v: [], expires_at: 1}` is 3 while
`encode_value` writes 2 bytes.  (`size_varint 0 = 1` does hold.) -/
theorem size_varint_overcounts :
    size_varint 0 = 1 ∧
    size_varint 1 = 2 ∧ (encode_uvarint 1).length = 1 ∧
    Value.encoded_size { meta := 0, v := [], expires_at := 1, version := 0 } = 3 ∧
    (Value.encode_value
      { meta := 0, v := [], expires_at := 1, version := 0 }).length = 2 := by
  decide

/-- C6: round-trip of the value codec.  For every `Value` `v` (with `u64`
`expires_at`), decoding exactly the bytes that `encode_value` wrote
reconstructs `meta`, `expires_at` and the payload verbatim; `version` is not
serialised and is exempt (the decoder leaves its receiver's `version`). -/
theorem value_codec_roundtrip (v w : Value) (hexp : v.expires_at < 2 ^ 64) :
    (w.decode_value v.encode_value).meta = v.meta ∧
    (w.decode_value v.encode_value).expires_at = v.expires_at ∧
    (w.decode_value v.encode_value).v = v.v := by
  have hdec := decode_encode_uvarint v.expires_at v.v hexp
  simp only [Value.decode_value, Value.encode_value, List.headD_cons,
    List.tail_cons, hdec]
  refine ⟨trivial, trivial, ?_⟩
  have h1 : 1 + ((Int.ofNat (encode_uvarint v.expires_at).length)).toNat =
      (encode_uvarint v.expires_at).length + 1 := by
    simp [Int.toNat_ofNat]
    omega
  rw [h1, List.drop_succ_cons, List.drop_left]

/-- A sample value exercising the codec round-trip. -/
def sampleValue : Value :=
  { meta := 7, v := [1, 2, 3], expires_at := 2000000, version := 5 }

/-- Witness for C6 at a concrete value. -/
theorem value_codec_roundtrip_witness :
    (sampleValue.expires_at : Nat) < 2 ^ 64 ∧
    ((Value.defaultVal.decode_value sampleValue.encode_value).meta =
        sampleValue.meta ∧
     (Value.defaultVal.decode_value sampleValue.encode_value).expires_at =
        sampleValue.expires_at ∧
     (Value.defaultVal.decode_value sampleValue.encode_value).v =
        sampleValue.v) :=
  ⟨by norm_num [sampleValue],
   value_codec_roundtrip sampleValue Value.defaultVal
     (by norm_num [sampleValue])⟩

/-! ## Count-Min sketch — `src/cache/counter.rs`

Counters are 4-bit nibbles packed two per byte; `rows` has `CM_DEPTH = 4`
rows by construction.  Seeds are drawn once from an RNG at construction; the
model takes them as parameters. -/

/-- `CM_DEPTH` from `counter.rs`. -/
def CM_DEPTH : Nat := 4

/-- `CmRow` from `counter.rs`: `data: Vec<u8>`. -/
structure CmRow where
  data : List Nat
deriving Repr, DecidableEq

/-- `new_row(num_counters)`: `num_counters / 2` zero bytes. -/
def new_row (num_counters : Nat) : CmRow :=
  { data := List.replicate (num_counters / 2) 0 }

/-- `CmRow::get(n)`: `(data[n/2] >> ((n & 1) * 4)) & 0x0f`.  The Rust index
panics out of range; `getD 0` totalises (in-range in every run below). -/
def CmRow.get (self : CmRow) (n : Nat) : Nat :=
  ((self.data.getD (n / 2) 0) >>> ((n &&& 1) * 4)) &&& 0x0f

/-- `CmRow::increment(n)`: add `1 << s` to the byte holding the nibble when
the nibble is below 15 (saturation); `u8` addition wraps at 256. -/
def CmRow.increment (self : CmRow) (n : Nat) : CmRow :=
  let i := n / 2
  let s := (n &&& 1) * 4
  let v := ((self.data.getD i 0) >>> s) &&& 0x0f
  if v < 15 then
    { data := self.data.set i (((self.data.getD i 0) + (1 <<< s)) % 256) }
  else self

/-- `CmRow::reset()`: every byte becomes `(b >> 1) & 0x77`, halving both
nibbles in place. -/
def CmRow.reset (self : CmRow) : CmRow :=
  { data := self.data.map fun b => (b >>> 1) &&& 0x77 }

/-- `CmRow::clear()`: zero all bytes. -/
def CmRow.clear (self : CmRow) : CmRow :=
  { data := self.data.map fun _ => 0 }

/-- `CMSketch` from `counter.rs`: four rows, per-row seed, index mask. -/
structure CMSketch where
  rows : List CmRow
  seed : List Nat
  mask : Nat
deriving Repr, DecidableEq

/-- `CMSketch::increment(hashed)`: bump row `i` at `(hashed ^ seed[i]) & mask`. -/
def CMSketch.increment (self : CMSketch) (hashed : Nat) : CMSketch :=
  { self with
    rows := (self.rows.zip self.seed).map
      fun p => p.1.increment ((hashed ^^^ p.2) &&& self.mask) }

/-- `CMSketch::estimate(hashed)`: minimum over the four rows, starting from
255, returned as `i64`. -/
def CMSketch.estimate (self : CMSketch) (hashed : Nat) : Int :=
  Int.ofNat ((self.rows.zip self.seed).foldl
    (fun m p => min m (p.1.get ((hashed ^^^ p.2) &&& self.mask))) 255)

/-- `CMSketch::reset()` in `counter.rs` builds
`self.rows.iter_mut().map(|x| x.reset())` and binds it to `_` without ever
consuming it; Rust iterator adapters are lazy, so no row is touched and the
sketch is returned unchanged. -/
def CMSketch.reset (self : CMSketch) : CMSketch :=
  self

/-- `CMSketch::clear()` has the same discarded-lazy-iterator shape as
`reset` and likewise leaves the sketch unchanged. -/
def CMSketch.clear (self : CMSketch) : CMSketch :=
  self

/-- `CmRow::reset` itself does halve: each nibble of each byte ends up shifted
right by one bit (the halving the spec asks of the sketch-level `reset`).
Stated for byte values in `u8` range, which `data` always holds. -/
theorem cmRow_reset_halves (row : CmRow) (n : Nat)
    (hb : ∀ b ∈ row.data, b < 256) (hn : n / 2 < row.data.length) :
    (CmRow.reset row).get n = row.get n >>> 1 := by
  have hmem : row.data.getD (n / 2) 0 ∈ row.data := by
    have := List.getD_eq_getElem row.data 0 hn
    rw [this]
    exact List.getElem_mem _
  have hlt : row.data.getD (n / 2) 0 < 256 := hb _ hmem
  have hget : (CmRow.reset row).data.getD (n / 2) 0 =
      ((row.data.getD (n / 2) 0) >>> 1) &&& 0x77 := by
    simp only [CmRow.reset]
    rw [List.getD_eq_getElem _ 0 (by simpa using hn),
      List.getD_eq_getElem _ 0 hn, List.getElem_map]
  simp only [CmRow.get, hget]
  have hand : n &&& 1 = n % 2 := Nat.and_one_is_mod n
  rcases Nat.mod_two_eq_zero_or_one n with h1 | h1 <;>
    · rw [hand, h1]
      revert hlt
      generalize row.data.getD (n / 2) 0 = b
      revert b
      set_option maxRecDepth 2000 in decide

/-- A concrete 4-row sketch (width 2, mask 1, zero seeds, all counters 0) used
as the aging counterexample. -/
def cmsSample : CMSketch :=
  { rows := List.replicate 4 (new_row 2), seed := [0, 0, 0, 0], mask := 1 }

/-- C2: the claim says `CMSketch::reset` halves every nibble (value after =
value before shifted right by one bit) and in particular is not a no-op on a
sketch with nonzero counters.  The code refutes this: `reset` discards the
lazy `.map` iterator, so after one `increment` the estimate is still 1 where
halving would give `1 >> 1 = 0`; `reset` returns the sketch unchanged. -/
theorem cmsketch_reset_is_noop :
    CMSketch.reset (cmsSample.increment 0) = cmsSample.increment 0 ∧
    (CMSketch.reset (cmsSample.increment 0)).estimate 0 = 1 ∧
    ((cmsSample.increment 0).rows.headD (new_row 2)).get 0 = 1 ∧
    ((1 : Nat) >>> 1 = 0) := by
  decide

/-! ## Bloom-filter doorkeeper — `src/cache/bloom.rs`

`bitmap` is the byte vector (its last byte stores `k`, written by
`init_filter`); `k` is the probe count.  `init_filter`'s sizing uses `f64`
logarithms and is irrelevant to the claims, so filters are built directly
from `bitmap`/`k` here.  Hashes are `u32` values; wrapping addition is
`% 2^32`. -/

/-- `BloomFilter` from `bloom.rs`. -/
structure BloomFilter where
  bitmap : List Nat
  k : Nat
deriving Repr, DecidableEq

/-- The double-hashing increment `delta = (h >> 17) | (h << 15)` on `u32`. -/
def bloom_delta (h : Nat) : Nat :=
  ((h >>> 17) ||| ((h <<< 15) % 2 ^ 32)) % 2 ^ 32

/-- The probe loop of `BloomFilter::insert`: `k` times, set bit `h % bits`
and step `h` by `delta` (wrapping `u32` add).  `bits = 0` would be a Rust
division-by-zero panic; no run below reaches it. -/
def bloom_insert_bits : Nat → Nat → Nat → Nat → List Nat → List Nat
  | 0, _, _, _, bm => bm
  | c + 1, h, delta, bits, bm =>
    let bit_pos := h % bits
    bloom_insert_bits c ((h + delta) % 2 ^ 32) delta bits
      (bm.set (bit_pos / 8)
        ((bm.getD (bit_pos / 8) 0) ||| ((1 <<< (bit_pos % 8)) % 256)))

/-- The probe loop of `BloomFilter::may_exist`: any clear bit returns
`false`, otherwise `true` after `k` probes. -/
def bloom_may_exist_bits : Nat → Nat → Nat → Nat → List Nat → Bool
  | 0, _, _, _, _ => true
  | c + 1, h, delta, bits, bm =>
    let bit_pos := h % bits
    if (bm.getD (bit_pos / 8) 0) &&& (1 <<< (bit_pos % 8)) = 0 then false
    else bloom_may_exist_bits c ((h + delta) % 2 ^ 32) delta bits bm

/-- `BloomFilter::may_exist(h)`: `false` for a bitmap shorter than 2 bytes,
else the `k`-probe test over `bits = 8 * (bitmap.len() - 1)`. -/
def BloomFilter.may_exist (self : BloomFilter) (h : Nat) : Bool :=
  if self.bitmap.length < 2 then false
  else bloom_may_exist_bits self.k h (bloom_delta h)
    (8 * (self.bitmap.length - 1)) self.bitmap

/-- `BloomFilter::insert(h)`: returns `true` for `k > 30` (degraded filter)
and `true` after setting the `k` probe bits — i.e. it returns `true` on
every path. -/
def BloomFilter.insert (self : BloomFilter) (h : Nat) : BloomFilter × Bool :=
  if 30 < self.k then (self, true)
  else
    ({ self with
        bitmap := bloom_insert_bits self.k h (bloom_delta h)
          (8 * (self.bitmap.length - 1)) self.bitmap }, true)

/-- `BloomFilter::allow(h)`: `let already = may_exist(h); if !already
{ return insert(h) } already`. -/
def BloomFilter.allow (self : BloomFilter) (h : Nat) : BloomFilter × Bool :=
  let already := self.may_exist h
  if !already then self.insert h
  else (self, already)

/-- `BloomFilter::reset()`: zero the whole bitmap. -/
def BloomFilter.reset (self : BloomFilter) : BloomFilter :=
  { self with bitmap := self.bitmap.map fun _ => 0 }

/-- C3: the claim says `allow(h)` reports "already seen" when `may_exist(h)`
holds and a distinct "newly admitted" value otherwise, so that `Cache::set`
drops never-seen window victims.  The code refutes the distinctness:
`insert` returns `true` unconditionally, hence `allow` returns `true` for
every filter state and hash — also for a hash the filter has never seen
(witnessed by the fresh two-byte filter, where `may_exist 0 = false` yet
`allow` still answers `true`).  The `!allow(...)` one-hit-wonder drop in
`Cache::set` is therefore dead code. -/
theorem bloom_allow_never_distinguishes :
    (∀ (bf : BloomFilter) (h : Nat), (bf.allow h).2 = true) ∧
    BloomFilter.may_exist { bitmap := [0, 0], k := 1 } 0 = false ∧
    (BloomFilter.allow { bitmap := [0, 0], k := 1 } 0).2 = true := by
  refine ⟨?_, by decide, by decide⟩
  intro bf h
  simp only [BloomFilter.allow, BloomFilter.insert]
  by_cases hex : bf.may_exist h = true
  · simp [hex]
  · simp only [Bool.not_eq_true] at hex
    by_cases hk : 30 < bf.k <;> simp [hex, hk]

/-! ## Window LRU and Segmented LRU — `src/memory/lru.rs`

`Rc<RefCell<StoreItem>>` cells are modelled by a heap (`heap : List
(StoreItem V)`) addressed by item ids; the lists and the shared map hold ids,
so a mutation through one reference is visible through every other — exactly
the Rust sharing.  The shared `Map` (`HashMap<u64, Item>`) is an association
list keyed by the `u64` key hash.  `src/cache/lru.rs` contains an older copy
of this file whose `add`/`victim` are line-identical; the facade's calls
match the signatures of this version (`WindowLRU::get(key: u64)`,
`SegmentedLRU::get(item: Item<T>)`), which is the one embedded. -/

/-- `StoreItem` from `lru.rs`: `stage: u8`, `key: u64`, `conflict: u64`. -/
structure StoreItem (V : Type) where
  stage : Nat
  key : Nat
  conflict : Nat
  value : V
deriving Repr, DecidableEq

/-- The combined state of a `WindowLRU` and `SegmentedLRU` sharing one map,
as built by `new_lru`/`new_slru` over the same `Rc<RefCell<HashMap>>`. -/
structure LruState (V : Type) where
  heap : List (StoreItem V)
  data : List (Nat × Nat)
  lruList : List Nat
  lruCap : Nat
  stage_one : List Nat
  stage_two : List Nat
  stage_one_cap : Nat
  stage_two_cap : Nat
deriving Repr, DecidableEq

variable {V : Type} [Inhabited V]

/-- Dereference an item id (`Rc` handles are always valid in Rust; the
default is never hit in the runs below). -/
def heapGet (st : LruState V) (id : Nat) : StoreItem V :=
  st.heap.getD id { stage := 0, key := 0, conflict := 0, value := default }

/-- `item.borrow_mut().stage = s` through the shared cell. -/
def heapSetStage (st : LruState V) (id s : Nat) : LruState V :=
  { st with heap := st.heap.set id { heapGet st id with stage := s } }

/-- `HashMap::insert(k, id)` (replace any existing binding). -/
def mapInsert (k id : Nat) (m : List (Nat × Nat)) : List (Nat × Nat) :=
  (k, id) :: m.filter fun p => p.1 ≠ k

/-- `HashMap::remove(k)`. -/
def mapRemove (k : Nat) (m : List (Nat × Nat)) : List (Nat × Nat) :=
  m.filter fun p => p.1 ≠ k

/-- `HashMap::get(&k)` (the bound item id, if any). -/
def mapGet (k : Nat) (m : List (Nat × Nat)) : Option Nat :=
  (m.find? fun p => p.1 == k).map Prod.snd

/-- `LinkedList::pop_back()`. -/
def popBack (l : List Nat) : Option (Nat × List Nat) :=
  match l.getLast? with
  | none => none
  | some x => some (x, l.dropLast)

/-- The `position`/`split_off`/`pop_front`/`append` removal helper used by
`remove_item_in_list` and `remove_item_in_stage_one`: removes the first
element satisfying `p`, returning it and the remaining list. -/
def removeFirst (p : Nat → Bool) : List Nat → Option Nat × List Nat
  | [] => (none, [])
  | x :: xs =>
    if p x then (some x, xs)
    else
      let r := removeFirst p xs
      (r.1, x :: r.2)

/-- `stage_one.len() + stage_two.len()` (`SegmentedLRU::len`). -/
def slruLen (st : LruState V) : Nat :=
  st.stage_one.length + st.stage_two.length

/-- `WindowLRU::add(new_item)`: allocate the `Rc` cell; if the window has
room push front and insert into the map, else pop the back, remove it from
the map, push the new item front, insert it, and return the victim.  The
`unwrap` on an empty full window (only possible with `cap = 0`) is a Rust
panic, modelled as a no-evict fallthrough that no covered run reaches. -/
def windowAdd (st : LruState V) (new_item : StoreItem V) :
    LruState V × Option Nat :=
  let itemId := st.heap.length
  let st := { st with heap := st.heap ++ [new_item] }
  if st.lruList.length < st.lruCap then
    ({ st with lruList := itemId :: st.lruList,
               data := mapInsert new_item.key itemId st.data }, none)
  else
    match popBack st.lruList with
    | none => (st, none)
    | some (evict, rest) =>
      ({ st with
          lruList := itemId :: rest,
          data := mapInsert new_item.key itemId
            (mapRemove (heapGet st evict).key st.data) }, some evict)

/-- `WindowLRU::get(key)` (`src/memory/lru.rs`): move the first item with
this key to the front, if present. -/
def windowGet (st : LruState V) (key : Nat) : LruState V :=
  let r := removeFirst (fun id => (heapGet st id).key == key) st.lruList
  match r.1 with
  | some item => { st with lruList := item :: r.2 }
  | none => st

/-- `SegmentedLRU::add(item)`: force `stage := 1`; push to `stage_one` front
(with map insert) when `stage_one` has room *or* the total is below the
combined capacity; otherwise evict `stage_one`'s back (map remove) first.
The eviction `unwrap` is reachable only with `stage_one_cap = 0`. -/
def slruAdd (st : LruState V) (id : Nat) : LruState V :=
  let st := heapSetStage st id 1
  if st.stage_one.length < st.stage_one_cap ∨
      slruLen st < st.stage_one_cap + st.stage_two_cap then
    { st with stage_one := id :: st.stage_one,
              data := mapInsert (heapGet st id).key id st.data }
  else
    match popBack st.stage_one with
    | none => st
    | some (evicted, rest) =>
      { st with stage_one := id :: rest,
                data := mapInsert (heapGet st id).key id
                  (mapRemove (heapGet st evicted).key st.data) }

/-- `SegmentedLRU::get(new_item)` (`src/memory/lru.rs`, lines 120–153).
When the item's stage is 2 the back of `stage_two` is rotated to the front —
and then, with no early return, control *falls through* into the promotion
path: if `stage_two` has room the item is pushed onto `stage_two`'s front
(after removing its key from `stage_one`), else the back of `stage_two` is
demoted into `stage_one` (evicting `stage_one`'s back if needed) and the
item pushed front with map updates.  The body is split here into the
stage-2 rotation and `slruGetPromote` (the promotion path the code falls
through into); their composition is the whole Rust function. -/
def slruGetPromote (st : LruState V) (id : Nat) : LruState V :=
  if st.stage_two.length < st.stage_two_cap then
    let st := { st with
      stage_one := (removeFirst
        (fun j => (heapGet st j).key == (heapGet st id).key) st.stage_one).2 }
    let st := heapSetStage st id 2
    { st with stage_two := id :: st.stage_two }
  else
    match popBack st.stage_two with
    | none => st
    | some (old, rest) =>
      let st := heapSetStage st id 2
      let st := { st with stage_two := id :: rest }
      let st := { st with data := mapInsert (heapGet st id).key id st.data }
      let st := heapSetStage st old 1
      let st :=
        if st.stage_one_cap ≤ st.stage_one.length then
          match popBack st.stage_one with
          | none => st
          | some (ev, r1) =>
            { st with stage_one := r1, data := mapRemove (heapGet st ev).key st.data }
        else st
      { st with stage_one := old :: st.stage_one
                data := mapInsert (heapGet st old).key old st.data }

def slruGet (st : LruState V) (id : Nat) : LruState V :=
  let st :=
    if (heapGet st id).stage = 2 then
      match popBack st.stage_two with
      | some (v, rest) => { st with stage_two := v :: rest }
      | none => st
    else st
  slruGetPromote st id

/-- `SegmentedLRU::victim()`: `None` below combined capacity, else the back
of `stage_one`. -/
def slruVictim (st : LruState V) : Option Nat :=
  if slruLen st < st.stage_one_cap + st.stage_two_cap then none
  else st.stage_one.getLast?

/-- The state built by `new_lru(lruCap, data)` and
`new_slru(s1cap, s2cap, data)` over a shared fresh map. -/
def initLru (V : Type) (lruCap s1cap s2cap : Nat) : LruState V :=
  { heap := [], data := [], lruList := [], lruCap := lruCap,
    stage_one := [], stage_two := [], stage_one_cap := s1cap,
    stage_two_cap := s2cap }

/-- One public operation on the two LRUs (the argument of a
`WindowLRU::add`/`get` or `SegmentedLRU::add`/`get` call; `slruAddFresh`
adds a caller-allocated cell, `slruAddId` re-adds an existing cell such as a
window victim). -/
inductive LruOp (V : Type) where
  | winAdd (it : StoreItem V)
  | winGet (key : Nat)
  | slruAddFresh (it : StoreItem V)
  | slruAddId (id : Nat)
  | slruGetId (id : Nat)

/-- Apply one operation. -/
def applyOp (st : LruState V) : LruOp V → LruState V
  | .winAdd it => (windowAdd st it).1
  | .winGet k => windowGet st k
  | .slruAddFresh it =>
    let id := st.heap.length
    slruAdd { st with heap := st.heap ++ [it] } id
  | .slruAddId id => slruAdd st id
  | .slruGetId id => slruGet st id

/-! ### Length lemmas for the list helpers -/

theorem popBack_some_length {l : List Nat} {x : Nat} {r : List Nat}
    (h : popBack l = some (x, r)) : r.length + 1 = l.length := by
  unfold popBack at h
  match hl : l.getLast? with
  | none => rw [hl] at h; cases h
  | some y =>
    rw [hl] at h
    cases h
    have hne : l ≠ [] := by
      intro he
      rw [he] at hl
      simp at hl
    have hpos : 0 < l.length := List.length_pos.mpr hne
    rw [List.length_dropLast]
    omega

theorem popBack_none {l : List Nat} (h : popBack l = none) : l = [] := by
  unfold popBack at h
  match hl : l.getLast? with
  | none => exact List.getLast?_eq_none_iff.mp hl
  | some y => rw [hl] at h; cases h

theorem removeFirst_some_length (p : Nat → Bool) :
    ∀ (l : List Nat) (x : Nat) (r : List Nat),
      removeFirst p l = (some x, r) → r.length + 1 = l.length := by
  intro l
  induction l with
  | nil =>
    intro x r h
    simp [removeFirst] at h
  | cons a as ih =>
    intro x r h
    by_cases hp : p a
    · simp only [removeFirst, if_pos hp, Prod.mk.injEq] at h
      obtain ⟨h1, h2⟩ := h
      rw [← h2]
      rfl
    · simp only [removeFirst, if_neg hp, Prod.mk.injEq] at h
      obtain ⟨h1, h2⟩ := h
      have := ih x (removeFirst p as).2 (by rw [← h1])
      rw [← h2]
      simp only [List.length_cons]
      omega

theorem removeFirst_none (p : Nat → Bool) :
    ∀ (l : List Nat) (r : List Nat),
      removeFirst p l = (none, r) → r = l := by
  intro l
  induction l with
  | nil =>
    intro r h
    simp only [removeFirst, Prod.mk.injEq] at h
    exact h.2.symm
  | cons a as ih =>
    intro r h
    by_cases hp : p a
    · simp only [removeFirst, if_pos hp, Prod.mk.injEq] at h
      cases h.1
    · simp only [removeFirst, if_neg hp, Prod.mk.injEq] at h
      obtain ⟨h1, h2⟩ := h
      have := ih (removeFirst p as).2 (by rw [← h1])
      rw [← h2, this]

/-! ### Capacity facts (claims C7 and C8) -/

theorem removeFirst_length_le (p : Nat → Bool) (l : List Nat) :
    (removeFirst p l).2.length ≤ l.length := by
  match h : removeFirst p l with
  | (none, r) =>
    have := removeFirst_none p l r h
    simp [h, this]
  | (some x, r) =>
    have := removeFirst_some_length p l x r h
    simp [h]
    omega

/-- The three capacity bounds that do hold (C8, amended): window within
`lruCap`, protected stage within `stage_two_cap`, probationary stage within
the *combined* SLRU capacity. -/
def capOk (st : LruState V) : Prop :=
  st.lruList.length ≤ st.lruCap ∧
  st.stage_two.length ≤ st.stage_two_cap ∧
  st.stage_one.length ≤ st.stage_one_cap + st.stage_two_cap

/-- No operation changes the capacities. -/
theorem applyOp_caps (st : LruState V) (op : LruOp V) :
    (applyOp st op).lruCap = st.lruCap ∧
    (applyOp st op).stage_one_cap = st.stage_one_cap ∧
    (applyOp st op).stage_two_cap = st.stage_two_cap := by
  cases op <;>
    simp only [applyOp, windowAdd, windowGet, slruAdd, slruGet, slruGetPromote,
      heapSetStage] <;>
    (repeat' split) <;>
    exact ⟨rfl, rfl, rfl⟩

theorem windowAdd_capOk {st : LruState V} (it : StoreItem V)
    (h : capOk st) : capOk (windowAdd st it).1 := by
  obtain ⟨hl, h2, h1⟩ := h
  unfold windowAdd capOk
  dsimp only
  split
  · rename_i hroom
    refine ⟨?_, h2, h1⟩
    simp only [List.length_cons]
    omega
  · match hpop : popBack st.lruList with
    | none => simp only [hpop]; exact ⟨hl, h2, h1⟩
    | some (evict, rest) =>
      have hlen := popBack_some_length hpop
      simp only [hpop, List.length_cons]
      exact ⟨by omega, h2, h1⟩

theorem windowGet_capOk {st : LruState V} (k : Nat)
    (h : capOk st) : capOk (windowGet st k) := by
  obtain ⟨hl, h2, h1⟩ := h
  unfold windowGet capOk
  match hr : removeFirst (fun id => (heapGet st id).key == k) st.lruList with
  | (none, r2) =>
    simp only [hr]
    exact ⟨hl, h2, h1⟩
  | (some item, r2) =>
    have := removeFirst_some_length _ st.lruList item r2 hr
    simp only [hr, List.length_cons]
    exact ⟨by omega, h2, h1⟩

theorem slruAdd_capOk {st : LruState V} (id : Nat)
    (h : capOk st) : capOk (slruAdd st id) := by
  obtain ⟨hl, h2, h1⟩ := h
  unfold slruAdd slruLen heapSetStage capOk
  dsimp only
  split
  · rename_i hcond
    refine ⟨hl, h2, ?_⟩
    simp only [List.length_cons, List.length_set]
    omega
  · rename_i hcond
    match hpop : popBack st.stage_one with
    | none => simp only [hpop]; exact ⟨hl, h2, h1⟩
    | some (evicted, rest) =>
      have hlen := popBack_some_length hpop
      simp only [hpop, List.length_cons]
      exact ⟨hl, h2, by omega⟩

theorem slruGetPromote_capOk {st : LruState V} (id : Nat)
    (h : capOk st) : capOk (slruGetPromote st id) := by
  obtain ⟨hl, h2, h1⟩ := h
  unfold slruGetPromote capOk
  by_cases hroom : st.stage_two.length < st.stage_two_cap
  · simp only [if_pos hroom, heapSetStage, List.length_cons]
    refine ⟨hl, by omega, ?_⟩
    have := removeFirst_length_le
      (fun j => (heapGet st j).key == (heapGet st id).key) st.stage_one
    omega
  · simp only [if_neg hroom]
    match hpop : popBack st.stage_two with
    | none => simp only [hpop]; exact ⟨hl, h2, h1⟩
    | some (old, rest) =>
      have hlen2 := popBack_some_length hpop
      simp only [hpop, heapSetStage]
      by_cases hfull : st.stage_one_cap ≤ st.stage_one.length
      · simp only [if_pos hfull]
        match hpop1 : popBack st.stage_one with
        | none =>
          have hempty := popBack_none hpop1
          have hlen0 : st.stage_one.length = 0 := by rw [hempty]; rfl
          simp only [hpop1, List.length_cons]
          exact ⟨hl, by omega, by omega⟩
        | some (ev, r1) =>
          have := popBack_some_length hpop1
          simp only [hpop1, List.length_cons]
          exact ⟨hl, by omega, by omega⟩
      · simp only [if_neg hfull, List.length_cons]
        exact ⟨hl, by omega, by omega⟩

theorem slruGet_capOk {st : LruState V} (id : Nat)
    (h : capOk st) : capOk (slruGet st id) := by
  obtain ⟨hl, h2, h1⟩ := h
  unfold slruGet
  by_cases hstage : (heapGet st id).stage = 2
  · simp only [if_pos hstage]
    match hpop : popBack st.stage_two with
    | none =>
      simp only [hpop]
      exact slruGetPromote_capOk id ⟨hl, h2, h1⟩
    | some (v, rest) =>
      have := popBack_some_length hpop
      simp only [hpop]
      refine slruGetPromote_capOk id ⟨hl, ?_, h1⟩
      simp only [List.length_cons]
      omega
  · simp only [if_neg hstage]
    exact slruGetPromote_capOk id ⟨hl, h2, h1⟩

theorem applyOp_capOk {st : LruState V} (op : LruOp V) (h : capOk st) :
    capOk (applyOp st op) := by
  cases op with
  | winAdd it => exact windowAdd_capOk it h
  | winGet k => exact windowGet_capOk k h
  | slruAddFresh it => exact slruAdd_capOk _ h
  | slruAddId id => exact slruAdd_capOk id h
  | slruGetId id => exact slruGet_capOk id h

theorem foldl_capOk (ops : List (LruOp V)) :
    ∀ st : LruState V, capOk st → capOk (ops.foldl applyOp st) := by
  induction ops with
  | nil => intro st h; exact h
  | cons op rest ih =>
    intro st h
    exact ih _ (applyOp_capOk op h)

theorem foldl_caps (ops : List (LruOp V)) : ∀ st : LruState V,
    (ops.foldl applyOp st).lruCap = st.lruCap ∧
    (ops.foldl applyOp st).stage_one_cap = st.stage_one_cap ∧
    (ops.foldl applyOp st).stage_two_cap = st.stage_two_cap := by
  induction ops with
  | nil => intro st; exact ⟨rfl, rfl, rfl⟩
  | cons op rest ih =>
    intro st
    obtain ⟨c1, c2, c3⟩ := ih (applyOp st op)
    obtain ⟨d1, d2, d3⟩ := applyOp_caps st op
    exact ⟨c1.trans d1, c2.trans d2, c3.trans d3⟩

/-- C8 (amended): after any sequence of `WindowLRU::add`/`get` and
`SegmentedLRU::add`/`get` operations with capacities at least 1, the window
list stays within `cap` and `stage_two` within `stage_two_cap`; `stage_one`,
however, is bounded only by the *combined* capacity
`stage_one_cap + stage_two_cap` (while the SLRU total is below combined
capacity, `add` pushes into `stage_one` past `stage_one_cap`). -/
theorem lru_capacity_bounds (ops : List (LruOp V)) (wcap s1cap s2cap : Nat)
    (hw : 1 ≤ wcap) (h1 : 1 ≤ s1cap) (h2 : 1 ≤ s2cap) :
    (ops.foldl applyOp (initLru V wcap s1cap s2cap)).lruList.length ≤ wcap ∧
    (ops.foldl applyOp (initLru V wcap s1cap s2cap)).stage_two.length ≤ s2cap ∧
    (ops.foldl applyOp (initLru V wcap s1cap s2cap)).stage_one.length ≤
      s1cap + s2cap := by
  have hinit : capOk (initLru V wcap s1cap s2cap) := by
    refine ⟨?_, ?_, ?_⟩ <;> simp [initLru]
  have hfin := foldl_capOk ops _ hinit
  obtain ⟨c1, c2, c3⟩ := foldl_caps ops (initLru V wcap s1cap s2cap)
  obtain ⟨k1, k2, k3⟩ := hfin
  rw [c1] at k1
  rw [c3] at k2
  rw [c2, c3] at k3
  exact ⟨k1, k2, k3⟩

/-- Witness for the amended C8 at a concrete one-op run. -/
theorem lru_capacity_bounds_witness :
    (1 : Nat) ≤ 1 ∧
    (([LruOp.winAdd { stage := 0, key := 3, conflict := 4, value := (7 : Nat) }
      ].foldl applyOp (initLru Nat 1 1 1)).lruList.length ≤ 1 ∧
     ([LruOp.winAdd { stage := 0, key := 3, conflict := 4, value := (7 : Nat) }
      ].foldl applyOp (initLru Nat 1 1 1)).stage_two.length ≤ 1 ∧
     ([LruOp.winAdd { stage := 0, key := 3, conflict := 4, value := (7 : Nat) }
      ].foldl applyOp (initLru Nat 1 1 1)).stage_one.length ≤ 1 + 1) :=
  ⟨le_refl 1,
   lru_capacity_bounds _ 1 1 1 (le_refl 1) (le_refl 1) (le_refl 1)⟩

/-- C8 as stated is false: with all three capacities 1, two direct
`SegmentedLRU::add` calls (of fresh cells with distinct keys) leave
`stage_one` with 2 entries, exceeding `stage_one_cap = 1` — `add`'s guard
admits past `stage_one_cap` whenever the SLRU total is still below the
combined capacity. -/
theorem slru_stage_one_exceeds_cap :
    ([LruOp.slruAddFresh { stage := 0, key := 1, conflict := 0, value := (0 : Nat) },
      LruOp.slruAddFresh { stage := 0, key := 2, conflict := 0, value := (0 : Nat) }
     ].foldl applyOp (initLru Nat 1 1 1)).stage_one.length = 2 ∧
    (initLru Nat 1 1 1).stage_one_cap = 1 := by
  decide

/-- An SLRU holding one protected (stage-2) item `B` (heap id 0, key 5) at
the front of `stage_two`, with room to spare (`stage_two_cap = 2`). -/
def slruProtectedSample : LruState Nat :=
  { heap := [{ stage := 2, key := 5, conflict := 0, value := 0 }],
    data := [(5, 0)], lruList := [], lruCap := 1,
    stage_one := [], stage_two := [0], stage_one_cap := 1, stage_two_cap := 2 }

/-- C7: the claim says `SegmentedLRU::get` on a stage-2 item only moves that
item to the front of `stage_two`, inserting nothing, evicting nothing and
leaving the shared map unchanged.  The code refutes it: after rotating the
tail it falls through (no early return) into the promotion branch and pushes
a *second* reference to the item onto `stage_two` — here `stage_two` grows
from `[0]` to `[0, 0]`. -/
theorem slru_get_protected_duplicates :
    slruProtectedSample.stage_two = [0] ∧
    (slruGet slruProtectedSample 0).stage_two = [0, 0] ∧
    (slruGet slruProtectedSample 0).stage_one = [] ∧
    (slruGet slruProtectedSample 0).data = slruProtectedSample.data := by
  decide

/-! ## Cache facade — `src/cache/cache.rs`

`key_to_hash` (DefaultHasher + XXH3) is opaque hashing; `set`/`get` are
modelled from the hash pair on.  The facade's `RwLock` only serialises the
calls, which the sequential model already does.  `Cache::new`'s `f64`
percentage sizing and the RNG-seeded sketch are taken as parameters.  The
ghost field `resets` counts executions of the tick-boundary aging branch
(`c.reset(); watch_dog.reset(); t = 0`), which the Rust code does not
otherwise expose. -/

/-- The facade state: the two LRUs over the shared map, the Bloom watchdog,
the CM-sketch, and the `i32` tick counter and threshold. -/
structure FCache (V : Type) where
  lru : LruState V
  watch_dog : BloomFilter
  c : CMSketch
  t : Int
  threshold : Int
  resets : Nat
deriving Repr, DecidableEq

/-- `Cache::new(size)`: fresh empty structures, `t = 0`, `threshold = 0`
(`Default::default()` for the lock; sizes and the watchdog/sketch are the
computed parameters). -/
def cacheNew (V : Type) (lruSz slruOne slruTwo : Nat)
    (wd : BloomFilter) (cms : CMSketch) : FCache V :=
  { lru := initLru V lruSz slruOne slruTwo, watch_dog := wd, c := cms,
    t := 0, threshold := 0, resets := 0 }

/-- Two's-complement wrap of an `i32` value (release-mode Rust `+=`). -/
def i32_wrap (x : Int) : Int := (x + 2 ^ 31) % 2 ^ 32 - 2 ^ 31

/-- `Cache::set` (from the hash pair on), `cache.rs` lines 57–96.  The new
item enters the window (`stage = 0`); a window victim is checked against the
SLRU victim: no SLRU victim ⇒ `slru.add(victim)`, return `true`; watchdog
veto ⇒ return `true`; `estimate(lv) < estimate(sv)` ⇒ return `true`; and on
the remaining path (`estimate(lv) ≥ estimate(sv)`) the function falls to its
final expression and returns `false` without calling `slru.add`. -/
def cacheSet (c : FCache V) (key_hash conflict_hash : Nat) (value : V) :
    FCache V × Bool :=
  let item : StoreItem V :=
    { stage := 0, key := key_hash, conflict := conflict_hash, value := value }
  match windowAdd c.lru item with
  | (lru1, some lru_victim) =>
    let c := { c with lru := lru1 }
    match slruVictim c.lru with
    | some slru_victim =>
      let ar := c.watch_dog.allow ((heapGet c.lru lru_victim).key % 2 ^ 32)
      let c := { c with watch_dog := ar.1 }
      if !ar.2 then (c, true)
      else
        let lru_count := c.c.estimate (heapGet c.lru lru_victim).key
        let slru_count := c.c.estimate (heapGet c.lru slru_victim).key
        if lru_count < slru_count then (c, true)
        else (c, false)
    | none => ({ c with lru := slruAdd c.lru lru_victim }, true)
  | (lru1, none) => ({ c with lru := lru1 }, true)

/-- `Cache::get` (from the hash pair on), `cache.rs` lines 112–140:
`t += 1`; when `t == threshold`, reset sketch and watchdog and zero `t`
(counted by the ghost `resets`); then map lookup, conflict check, watchdog
and sketch bumps, stage-routed LRU promotion, and the cloned value. -/
def cacheGet (c : FCache V) (key_hash conflict_hash : Nat) :
    FCache V × Option V :=
  let c := { c with t := i32_wrap (c.t + 1) }
  let c :=
    if c.t = c.threshold then
      { c with c := c.c.reset, watch_dog := c.watch_dog.reset, t := 0,
               resets := c.resets + 1 }
    else c
  match mapGet key_hash c.lru.data with
  | none => (c, none)
  | some id =>
    let item := heapGet c.lru id
    if item.conflict ≠ conflict_hash then (c, none)
    else
      let ar := c.watch_dog.allow (key_hash % 2 ^ 32)
      let c := { c with watch_dog := ar.1 }
      let c := { c with c := c.c.increment key_hash }
      let c :=
        if item.stage = 0 then { c with lru := windowGet c.lru item.key }
        else { c with lru := slruGet c.lru id }
      (c, some item.value)

/-- One `get` with `threshold = 0` and `0 ≤ t < 2^31 - 1` leaves `resets`
unchanged, keeps `threshold = 0`, and increments `t`. -/
theorem cacheGet_step (c : FCache V) (kh ch : Nat) (hth : c.threshold = 0)
    (ht : 0 ≤ c.t) (hlt : c.t + 1 < 2 ^ 31) :
    (cacheGet c kh ch).1.resets = c.resets ∧
    (cacheGet c kh ch).1.threshold = 0 ∧
    (cacheGet c kh ch).1.t = c.t + 1 := by
  unfold cacheGet
  have hwrap : i32_wrap (c.t + 1) = c.t + 1 := by
    unfold i32_wrap
    omega
  have hne : ¬ (i32_wrap (c.t + 1) = c.threshold) := by
    rw [hwrap, hth]
    omega
  simp only [if_neg hne]
  match hm : mapGet kh c.lru.data with
  | none => simp [hm, hth, hwrap]
  | some id =>
    by_cases hc : (heapGet c.lru id).conflict ≠ ch
    · simp [hm, hc, hth, hwrap]
    · by_cases hs : (heapGet c.lru id).stage = 0 <;>
        simp [hm, hc, hs, hth, hwrap]

/-- Folding `get`s under the same conditions leaves `resets` unchanged. -/
theorem cacheGet_fold_resets (gets : List (Nat × Nat)) :
    ∀ c : FCache V, c.threshold = 0 → 0 ≤ c.t →
      c.t + gets.length < 2 ^ 31 →
      (gets.foldl (fun c kv => (cacheGet c kv.1 kv.2).1) c).resets =
        c.resets := by
  induction gets with
  | nil => intro c _ _ _; rfl
  | cons kv rest ih =>
    intro c hth ht hlt
    simp only [List.length_cons] at hlt
    obtain ⟨hr, hth1, ht1⟩ :=
      cacheGet_step c kv.1 kv.2 hth ht (by omega)
    simp only [List.foldl_cons]
    rw [ih _ hth1 (by omega) (by omega), hr]

/-- C10: `Cache::new` initialises `t = 0` and `threshold = 0`, and `get`
increments `t` before testing `t == threshold`; hence from a fresh cache no
sequence of fewer than `2^31` `get` calls ever reaches the tick-boundary
aging — `c.reset()` / `watch_dog.reset()` are never invoked (ghost `resets`
stays 0). -/
theorem cache_tick_never_fires (V : Type) [Inhabited V]
    (lruSz s1 s2 : Nat) (wd : BloomFilter) (cms : CMSketch)
    (gets : List (Nat × Nat)) (hlen : gets.length < 2 ^ 31) :
    (cacheNew V lruSz s1 s2 wd cms).t = 0 ∧
    (cacheNew V lruSz s1 s2 wd cms).threshold = 0 ∧
    (gets.foldl (fun c kv => (cacheGet c kv.1 kv.2).1)
        (cacheNew V lruSz s1 s2 wd cms)).resets = 0 := by
  refine ⟨rfl, rfl, ?_⟩
  have := cacheGet_fold_resets gets (cacheNew V lruSz s1 s2 wd cms) rfl
    (by simp [cacheNew]) (by simpa [cacheNew] using hlen)
  simpa [cacheNew] using this

/-- Witness for C10: three gets on a tiny fresh cache. -/
theorem cache_tick_never_fires_witness :
    ([(1, 1), (2, 2), (1, 1)] : List (Nat × Nat)).length < 2 ^ 31 ∧
    ((cacheNew Nat 1 1 1 { bitmap := [0, 0], k := 1 } cmsSample).t = 0 ∧
     (cacheNew Nat 1 1 1 { bitmap := [0, 0], k := 1 } cmsSample).threshold = 0 ∧
     (([(1, 1), (2, 2), (1, 1)] : List (Nat × Nat)).foldl
        (fun c kv => (cacheGet c kv.1 kv.2).1)
        (cacheNew Nat 1 1 1 { bitmap := [0, 0], k := 1 } cmsSample)).resets = 0) :=
  ⟨by norm_num,
   cache_tick_never_fires Nat 1 1 1 { bitmap := [0, 0], k := 1 } cmsSample
     [(1, 1), (2, 2), (1, 1)] (by norm_num)⟩

/-- A fresh 100%-concrete cache: window cap 1, SLRU caps (1, 1), two-byte
watchdog, the zero-seeded width-2 sketch. -/
def c1cache0 : FCache Nat :=
  cacheNew Nat 1 1 1 { bitmap := [0, 0], k := 1 } cmsSample

/-- Three sets fill the window (key 4… pending) and the SLRU: after them the
window holds key 3, stage_one holds keys 2 and 1, and the SLRU is at
capacity. -/
def c1cache3 : FCache Nat :=
  (cacheSet ((cacheSet ((cacheSet c1cache0 1 11 100).1) 2 12 200).1) 3 13 300).1

/-- C1: on the admission path where the window evicts a victim (key 3), the
SLRU reports a victim (the stage_one tail, key 1), the watchdog `allow`
reports `true` ("already seen"), and the CM-sketch estimates tie
(`estimate(lv) = estimate(sv) = 0`, so `lv ≥ sv`), the claim says
`slru.add(lv)` runs — admitting the window victim and evicting the SLRU
victim — and `set` returns `true`.  The code instead falls to the function's
final expression: it returns `false` and leaves both SLRU stages untouched
(the window victim is silently dropped). -/
theorem cache_set_tie_returns_false :
    slruVictim c1cache3.lru = some 0 ∧
    (c1cache3.watch_dog.allow (3 % 2 ^ 32)).2 = true ∧
    c1cache3.c.estimate 3 = c1cache3.c.estimate 1 ∧
    (cacheSet c1cache3 4 14 400).2 = false ∧
    (cacheSet c1cache3 4 14 400).1.lru.stage_one = c1cache3.lru.stage_one ∧
    (cacheSet c1cache3 4 14 400).1.lru.stage_two = c1cache3.lru.stage_two := by
  decide

/-! ## Key comparison — `src/memory/utils.rs` -/

/-- Rust slice `Ord` on byte slices: elementwise lexicographic comparison, a
strict prefix sorting first; returned as −1/0/1 like `Ordering as i32`. -/
def lexCompare : List Nat → List Nat → Int
  | [], [] => 0
  | [], _ :: _ => -1
  | _ :: _, [] => 1
  | a :: as, b :: bs =>
    if a < b then -1 else if b < a then 1 else lexCompare as bs

/-- `compare_keys(key1, key2)` from `utils.rs`: compare the user-key prefixes
(all but the trailing 8 bytes); only on a tie compare the 8-byte suffixes.
The Rust `assert!` demands both keys longer than 8 bytes — theorems carry
that bound; the Lean function is total. -/
def compare_keys (key1 key2 : List Nat) : Int :=
  let cmp := lexCompare (key1.take (key1.length - 8))
    (key2.take (key2.length - 8))
  if cmp ≠ 0 then cmp
  else lexCompare (key1.drop (key1.length - 8)) (key2.drop (key2.length - 8))

/-! ## Skiplist — `src/cache/skiplist.rs` (sequential executions)

The arena is modelled at the granularity the skiplist reads it: nodes live
in `nodes` (node id = index + 1; id 0 is the null offset, id 1 the head
sentinel), a key is stored with its node, and a value allocation is the byte
slice that `get_value(offset, encoded_size)` will later decode —
`encode_value`'s bytes padded with the arena's zero bytes up to
`encoded_size` (the bump allocator reserves `encoded_size` zero-initialised,
never-reused bytes while `encode_value` writes possibly fewer; see
`size_varint_overcounts`).  Atomic loads/stores and CAS become plain reads
and writes: claims C4 and C9 quantify over sequential interleavings, where
every CAS succeeds and the retry paths never run.  `random_height` returns
1..=MAX_HEIGHT and is an oracle parameter of `add`.  Rust walks that are
loops over pointers take fuel that provably exceeds their iteration count. -/

/-- `MAX_HEIGHT` from `skiplist.rs`. -/
def MAX_HEIGHT : Nat := 20

/-- The byte slice addressed by a value handle `(offset, encoded_size)`
after `put_value`: the encoder's bytes plus the arena's zero padding. -/
def putValueSlice (v : Value) : List Nat :=
  v.encode_value ++ List.replicate (v.encoded_size - v.encode_value.length) 0

/-- A skiplist `Node`: key, value-handle slice, height, tower of
`MAX_HEIGHT` forward offsets (0 = no successor; the arena truncates the
unused tail, which is never read). -/
structure SNode where
  key : List Nat
  valSlice : List Nat
  height : Nat
  tower : List Nat
deriving Repr, DecidableEq

/-- `SkipList`: the arena's nodes and the atomic list height. -/
structure SkipList where
  nodes : List SNode
  height : Nat
deriving Repr, DecidableEq

/-- `Area::get_node(offset)`: `None` for offset 0. -/
def getNode (sl : SkipList) (id : Nat) : Option SNode :=
  if id = 0 then none else sl.nodes.get? (id - 1)

/-- The key bytes of node `id` (`get_key(key_offset, key_size)`). -/
def keyOf (sl : SkipList) (id : Nat) : List Nat :=
  ((getNode sl id).map SNode.key).getD []

/-- `get_next_offset(h)` of node `id`: `tower[h]`. -/
def towerOf (sl : SkipList) (id L : Nat) : Nat :=
  (((getNode sl id).map SNode.tower).getD []).getD L 0

/-- The height of node `id`. -/
def heightOf (sl : SkipList) (id : Nat) : Nat :=
  ((getNode sl id).map SNode.height).getD 0

/-- The value slice of node `id` (what `get_value` will decode). -/
def valSliceOf (sl : SkipList) (id : Nat) : List Nat :=
  ((getNode sl id).map SNode.valSlice).getD []

/-- Store `succ` into `tower[L]` of node `id` (a CAS that succeeds). -/
def setTower (sl : SkipList) (id L succ : Nat) : SkipList :=
  if id = 0 then sl
  else
    match sl.nodes.get? (id - 1) with
    | none => sl
    | some n =>
      { sl with nodes := sl.nodes.set (id - 1) ({ n with tower := n.tower.set L succ }) }

/-- `set_value`: replace node `id`'s value handle (pointing at a fresh
arena slice). -/
def setValSlice (sl : SkipList) (id : Nat) (slice : List Nat) : SkipList :=
  if id = 0 then sl
  else
    match sl.nodes.get? (id - 1) with
    | none => sl
    | some n =>
      { sl with nodes := sl.nodes.set (id - 1) ({ n with valSlice := slice }) }

/-- The head sentinel written by `new_skip_list`: empty key, default value,
full `MAX_HEIGHT`, all-zero tower. -/
def headNode : SNode :=
  { key := [], valSlice := putValueSlice Value.defaultVal,
    height := MAX_HEIGHT, tower := List.replicate MAX_HEIGHT 0 }

/-- `new_skip_list`: the head sentinel at id 1, list height 1. -/
def newSkipList : SkipList := { nodes := [headNode], height := 1 }

/-- The walk of `find_splice_for_level(key, before, level)`, with fuel: read
`before.tower[level]`; a null successor yields `(before, 0)`; an equal key
yields `(next, next)`; a larger key yields `(before, next)`; else move
right. -/
def findSpliceGo (sl : SkipList) (key : List Nat) (level : Nat) :
    Nat → Nat → Nat × Nat
  | 0, before => (before, 0)
  | fuel + 1, before =>
    let next := towerOf sl before level
    match getNode sl next with
    | none => (before, next)
    | some next_node =>
      let cmp := compare_keys key next_node.key
      if cmp = 0 then (next, next)
      else if cmp < 0 then (before, next)
      else findSpliceGo sl key level fuel next

/-- `find_splice_for_level` (the walk visits strictly ascending keys, so
`nodes.length + 1` fuel always suffices). -/
def find_splice_for_level (sl : SkipList) (key : List Nat)
    (before : Nat) (level : Nat) : Nat × Nat :=
  findSpliceGo sl key level (sl.nodes.length + 1) before

/-- The descent loop of `add` over levels `list_height - 1` down to `0`:
level `i`'s splice starts from `prev[i+1]` (the head at the top); an exact
key match (`prev[i] == next[i]`) returns that node at once, else the splice
list for levels `0..i` is produced (index = level). -/
def descendLoop (sl : SkipList) (key : List Nat) :
    Nat → Nat → Sum Nat (List (Nat × Nat))
  | 0, _ => Sum.inr []
  | i + 1, prevUp =>
    let pn := find_splice_for_level sl key prevUp i
    if pn.1 = pn.2 then Sum.inl pn.1
    else
      match descendLoop sl key i pn.1 with
      | Sum.inl found => Sum.inl found
      | Sum.inr rest => Sum.inr (rest ++ [pn])

/-- `new_node`: allocate node, key and value in the arena; the new offset is
`nodes.length + 1`. -/
def addNode (sl : SkipList) (key : List Nat) (v : Value) (height : Nat) :
    SkipList × Nat :=
  ({ sl with nodes := sl.nodes ++
      [{ key := key, valSlice := putValueSlice v, height := height,
         tower := List.replicate MAX_HEIGHT 0 }] },
   sl.nodes.length + 1)

/-- The linking loop of `add` over levels `0..height`: at level `i` the
splice is `prev[i]/next[i]` from the descent when `i < list_height`,
`(head, 0)` when `i = list_height` (the arrays were initialised with
`prev[list_height] = head_offset` and `next` all zero), and is recomputed
from the head when `i > list_height` (`prev[i]` is 0 there).  Each level
writes `new.tower[i] = next[i]` and then CASes `prev[i].tower[i]` to the new
node (sequentially the CAS succeeds and the retry path is dead). -/
def linkLevels (key : List Nat) (newId lh : Nat)
    (splices : List (Nat × Nat)) : Nat → Nat → SkipList → SkipList
  | 0, _, sl => sl
  | remaining + 1, i, sl =>
    let pn :=
      if i < lh then splices.getD i (0, 0)
      else if i = lh then (1, 0)
      else find_splice_for_level sl key 1 i
    let sl := setTower sl newId i pn.2
    let sl := setTower sl pn.1 i newId
    linkLevels key newId lh splices remaining (i + 1) sl

/-- `Entry` (the fields `SkipList::add` reads). -/
structure Entry where
  key : List Nat
  value : List Nat
  expires_at : Nat
  meta : Nat
  version : Nat
deriving Repr, DecidableEq

/-- `SkipList::add(entry)` with the height oracle `hRand` (what
`random_height()` returned): descend recording splices; an exact match
replaces that node's value handle; otherwise allocate the node, raise the
list height to `max(height, hRand)` (the CAS loop), and link every level
`0..hRand`. -/
def SkipList.add (sl : SkipList) (e : Entry) (hRand : Nat) : SkipList :=
  let key := e.key
  let v : Value := { meta := e.meta, v := e.value,
                     expires_at := e.expires_at, version := e.version }
  let list_height := sl.height
  match descendLoop sl key list_height 1 with
  | Sum.inl found => setValSlice sl found (putValueSlice v)
  | Sum.inr splices =>
    let height := hRand
    let an := addNode sl key v height
    let sl := an.1
    let newId := an.2
    let sl := { sl with height := max sl.height height }
    linkLevels key newId list_height splices height 0 sl

/-- Fold a sequence of `add`s (entry with its height oracle). -/
def addEntries (sl : SkipList) (ops : List (Entry × Nat)) : SkipList :=
  ops.foldl (fun sl p => sl.add p.1 p.2) sl

/-- The loop of `find_near(key, less, allow_equal)`, with fuel; `x = 1`
plays the Rust `key_offset` comparison against the head sentinel. -/
def findNearGo (sl : SkipList) (key : List Nat) (less allow_equal : Bool) :
    Nat → Nat → Nat → Option Nat × Bool
  | 0, _, _ => (none, false)
  | fuel + 1, x, level =>
    let next := towerOf sl x level
    match getNode sl next with
    | none =>
      if 0 < level then findNearGo sl key less allow_equal fuel x (level - 1)
      else if !less then (none, false)
      else if x = 1 then (none, false)
      else (some x, false)
    | some next_node =>
      let cmp := compare_keys key next_node.key
      if 0 < cmp then findNearGo sl key less allow_equal fuel next level
      else if cmp = 0 then
        if allow_equal then (some next, true)
        else if !less then
          match getNode sl (towerOf sl next 0) with
          | none => (none, false)
          | some _ => (some (towerOf sl next 0), false)
        else if 0 < level then
          findNearGo sl key less allow_equal fuel x (level - 1)
        else if x = 1 then (none, false)
        else (some x, false)
      else
        if 0 < level then findNearGo sl key less allow_equal fuel x (level - 1)
        else if !less then (some next, false)
        else if x = 1 then (none, false)
        else (some x, false)

/-- `find_near` (each step either descends a level or advances along a
strictly ascending chain, so the fuel below always suffices). -/
def SkipList.find_near (sl : SkipList) (key : List Nat)
    (less allow_equal : Bool) : Option Nat × Bool :=
  findNearGo sl key less allow_equal
    ((sl.nodes.length + 1) * (MAX_HEIGHT + 1)) 1 (sl.height - 1)

/-- `parse_key`: strip the 8-byte timestamp suffix (short keys unchanged). -/
def parse_key (key : List Nat) : List Nat :=
  if key.length < 8 then key else key.take (key.length - 8)

/-- `same_key`: equal length and equal user key ignoring the suffix. -/
def same_key (src dst : List Nat) : Bool :=
  if src.length ≠ dst.length then false else parse_key src == parse_key dst

/-- `SkipList::search(key)`: `find_near(key, false, true)`, then the
`same_key` check, then decode the value slice into a `Value::default()`. -/
def SkipList.search (sl : SkipList) (key : List Nat) : Value :=
  match sl.find_near key false true with
  | (none, _) => Value.defaultVal
  | (some n, _) =>
    if !(same_key key (keyOf sl n)) then Value.defaultVal
    else Value.defaultVal.decode_value (valSliceOf sl n)

/-- A skiplist holding exactly one entry: key `"a"` with timestamp-suffix
byte 1, payload `[7]`. -/
def c4sl : SkipList :=
  SkipList.add newSkipList
    { key := [97, 0, 0, 0, 0, 0, 0, 0, 1], value := [7], expires_at := 0,
      meta := 0, version := 0 } 1

/-- C4 as stated is false: the key `[97,0,…,0,0]` was never added (the only
add used suffix byte 1), yet `search` returns payload `[7]`, not a default
`Value` — `search` only compares keys through `same_key`, which ignores the
8-byte suffix, so the greater-or-equal node for a never-added key can
satisfy it. -/
theorem search_hits_never_added_key :
    ([97, 0, 0, 0, 0, 0, 0, 0, 0] : List Nat) ≠ [97, 0, 0, 0, 0, 0, 0, 0, 1] ∧
    (c4sl.search [97, 0, 0, 0, 0, 0, 0, 0, 0]).v = [7] ∧
    Value.defaultVal.v = [] := by
  decide

/-! ### Order facts about `lexCompare` and `compare_keys` -/

theorem lexCompare_refl (a : List Nat) : lexCompare a a = 0 := by
  induction a with
  | nil => rfl
  | cons x xs ih => simp [lexCompare, ih]

theorem lexCompare_cases (a b : List Nat) :
    lexCompare a b = -1 ∨ lexCompare a b = 0 ∨ lexCompare a b = 1 := by
  induction a generalizing b with
  | nil => cases b <;> simp [lexCompare]
  | cons x xs ih =>
    cases b with
    | nil => simp [lexCompare]
    | cons y ys =>
      by_cases h1 : x < y
      · simp [lexCompare, h1]
      · by_cases h2 : y < x
        · simp [lexCompare, h1, h2]
        · simpa [lexCompare, h1, h2] using ih ys

theorem lexCompare_eq_zero_iff (a b : List Nat) :
    lexCompare a b = 0 ↔ a = b := by
  induction a generalizing b with
  | nil => cases b <;> simp [lexCompare]
  | cons x xs ih =>
    cases b with
    | nil => simp [lexCompare]
    | cons y ys =>
      by_cases h1 : x < y
      · simp [lexCompare, h1]
        omega
      · by_cases h2 : y < x
        · simp [lexCompare, h1, h2]
          omega
        · have hxy : x = y := by omega
          simp [lexCompare, h1, h2, hxy, ih]

theorem lexCompare_swap (a b : List Nat) : lexCompare a b = -lexCompare b a := by
  induction a generalizing b with
  | nil => cases b <;> simp [lexCompare]
  | cons x xs ih =>
    cases b with
    | nil => simp [lexCompare]
    | cons y ys =>
      by_cases h1 : x < y
      · have h2 : ¬ y < x := by omega
        simp [lexCompare, h1, h2]
      · by_cases h2 : y < x
        · simp [lexCompare, h1, h2]
        · simp [lexCompare, h1, h2, ih]

theorem lexCompare_trans_lt {a b c : List Nat}
    (hab : lexCompare a b < 0) (hbc : lexCompare b c < 0) :
    lexCompare a c < 0 := by
  induction a generalizing b c with
  | nil =>
    cases b with
    | nil => simpa [lexCompare] using hbc
    | cons y ys =>
      cases c with
      | nil => simp [lexCompare] at hbc
      | cons z zs => simp [lexCompare]
  | cons x xs ih =>
    cases b with
    | nil => simp [lexCompare] at hab
    | cons y ys =>
      cases c with
      | nil => simp [lexCompare] at hbc
      | cons z zs =>
        simp only [lexCompare] at hab hbc ⊢
        by_cases hxy : x < y
        · by_cases hyz : y < z
          · have hxz : x < z := by omega
            simp [hxz]
          · by_cases hzy : z < y
            · simp [hxy] at hab
              rcases lexCompare_cases ys zs with h | h | h <;>
                simp [hyz, hzy, h] at hbc
            · have hyz2 : y = z := by omega
              have hxz : x < z := by omega
              simp [hxz]
        · by_cases hyx : y < x
          · rcases lexCompare_cases xs ys with h | h | h <;>
              simp [hxy, hyx, h] at hab
          · have hxy2 : x = y := by omega
            subst hxy2
            by_cases hyz : x < z
            · simp [hyz]
            · by_cases hzy : z < x
              · rcases lexCompare_cases ys zs with h | h | h <;>
                  simp [hyz, hzy, h] at hbc
              · simp only [hxy, hyx, if_neg, reduceIte] at hab
                simp only [hyz, hzy, if_neg, reduceIte] at hbc ⊢
                exact ih hab hbc

theorem compare_keys_refl (a : List Nat) : compare_keys a a = 0 := by
  simp [compare_keys, lexCompare_refl]

theorem compare_keys_cases (a b : List Nat) :
    compare_keys a b = -1 ∨ compare_keys a b = 0 ∨ compare_keys a b = 1 := by
  unfold compare_keys
  by_cases h : lexCompare (a.take (a.length - 8)) (b.take (b.length - 8)) ≠ 0
  · simp only [if_pos h]
    exact lexCompare_cases _ _
  · simp only [if_neg h]
    exact lexCompare_cases _ _

theorem compare_keys_swap (a b : List Nat) :
    compare_keys a b = -compare_keys b a := by
  unfold compare_keys
  rw [lexCompare_swap (a.take (a.length - 8)) (b.take (b.length - 8)),
    lexCompare_swap (a.drop (a.length - 8)) (b.drop (b.length - 8))]
  by_cases h : lexCompare (b.take (b.length - 8)) (a.take (a.length - 8)) = 0
  · simp [h]
  · have : ¬ -lexCompare (b.take (b.length - 8)) (a.take (a.length - 8)) = 0 := by
      omega
    simp [h, this]

theorem compare_keys_eq_zero_iff {a b : List Nat}
    (ha : 8 < a.length) (hb : 8 < b.length) :
    compare_keys a b = 0 ↔ a = b := by
  unfold compare_keys
  constructor
  · intro h
    by_cases hp : lexCompare (a.take (a.length - 8)) (b.take (b.length - 8)) ≠ 0
    · simp only [if_pos hp] at h
      exact absurd h hp
    · simp only [if_neg hp] at h
      push_neg at hp
      have hpre := (lexCompare_eq_zero_iff _ _).mp hp
      have hsuf := (lexCompare_eq_zero_iff _ _).mp h
      have hlen : a.length = b.length := by
        have h1 : (a.take (a.length - 8)).length = (b.take (b.length - 8)).length := by
          rw [hpre]
        simp only [List.length_take] at h1
        have h2 : (a.drop (a.length - 8)).length = (b.drop (b.length - 8)).length := by
          rw [hsuf]
        simp only [List.length_drop] at h2
        omega
      calc a = a.take (a.length - 8) ++ a.drop (a.length - 8) :=
            (List.take_append_drop _ _).symm
        _ = b.take (b.length - 8) ++ b.drop (b.length - 8) := by rw [hpre, hsuf]
        _ = b := List.take_append_drop _ _
  · intro h
    subst h
    simp [lexCompare_refl]

theorem compare_keys_trans_lt {a b c : List Nat}
    (hab : compare_keys a b < 0) (hbc : compare_keys b c < 0) :
    compare_keys a c < 0 := by
  unfold compare_keys at *
  by_cases h1 : lexCompare (a.take (a.length - 8)) (b.take (b.length - 8)) ≠ 0
  · simp only [if_pos h1] at hab
    by_cases h2 : lexCompare (b.take (b.length - 8)) (c.take (c.length - 8)) ≠ 0
    · simp only [if_pos h2] at hbc
      have h3 := lexCompare_trans_lt hab hbc
      have h4 : lexCompare (a.take (a.length - 8)) (c.take (c.length - 8)) ≠ 0 := by
        omega
      simp only [if_pos h4]
      exact h3
    · push_neg at h2
      have hpre := (lexCompare_eq_zero_iff _ _).mp h2
      rw [hpre] at hab
      have h4 : lexCompare (a.take (a.length - 8)) (c.take (c.length - 8)) ≠ 0 := by
        omega
      simp only [if_pos h4]
      exact hab
  · push_neg at h1
    have hpre := (lexCompare_eq_zero_iff _ _).mp h1
    have hn1 : ¬ (lexCompare (a.take (a.length - 8)) (b.take (b.length - 8)) ≠ 0) :=
      not_not_intro h1
    simp only [if_neg hn1] at hab
    by_cases h2 : lexCompare (b.take (b.length - 8)) (c.take (c.length - 8)) ≠ 0
    · simp only [if_pos h2] at hbc
      have h4 : lexCompare (a.take (a.length - 8)) (c.take (c.length - 8)) ≠ 0 := by
        rw [hpre]
        exact h2
      simp only [if_pos h4]
      rw [hpre]
      exact hbc
    · push_neg at h2
      have hpre2 := (lexCompare_eq_zero_iff _ _).mp h2
      have hn2 : ¬ (lexCompare (b.take (b.length - 8)) (c.take (c.length - 8)) ≠ 0) :=
        not_not_intro h2
      simp only [if_neg hn2] at hbc
      have hac : lexCompare (a.take (a.length - 8)) (c.take (c.length - 8)) = 0 := by
        rw [hpre, hpre2]
        exact lexCompare_refl _
      have hnac : ¬ (lexCompare (a.take (a.length - 8)) (c.take (c.length - 8)) ≠ 0) :=
        not_not_intro hac
      simp only [if_neg hnac]
      exact lexCompare_trans_lt hab hbc

/-- For the head sentinel: the empty key sorts before every real key. -/
theorem compare_keys_nil_lt {k : List Nat} (hk : 8 < k.length) :
    compare_keys [] k < 0 := by
  unfold compare_keys
  match hc : k.take (k.length - 8) with
  | [] =>
    exfalso
    have := congrArg List.length hc
    simp only [List.length_take, List.length_nil] at this
    omega
  | x :: xs =>
    simp only [List.length_nil, List.take_nil, hc, lexCompare]
    norm_num

/-! ### The sequential skiplist invariant

`m` is the id list of all non-head nodes in strictly ascending key order;
the level-`L` chain is exactly the sublist of `m` whose nodes have height
greater than `L`. -/

/-- Strict key order between two nodes. -/
def keyLt (sl : SkipList) (a b : Nat) : Prop :=
  compare_keys (keyOf sl a) (keyOf sl b) < 0

/-- The length of a node's tower array. -/
def towerLen (sl : SkipList) (id : Nat) : Nat :=
  (((getNode sl id).map SNode.tower).getD []).length

/-- The level-`L` chain hanging off node `start` spells exactly `s`. -/
def SubChain (sl : SkipList) (L start : Nat) (s : List Nat) : Prop :=
  towerOf sl start L = s.headD 0 ∧
  ∀ k a, s.get? k = some a → towerOf sl a L = (s.get? (k + 1)).getD 0

/-- The ids of `m` whose node height exceeds `L`. -/
def levelList (sl : SkipList) (m : List Nat) (L : Nat) : List Nat :=
  m.filter fun id => decide (L < heightOf sl id)

/-- Invariant of sequentially built skiplists. -/
structure Inv (sl : SkipList) (m : List Nat) : Prop where
  head_len : 1 ≤ sl.nodes.length
  head_key : keyOf sl 1 = []
  mem : ∀ id, id ∈ m ↔ (2 ≤ id ∧ id ≤ sl.nodes.length)
  mlen : m.length + 1 = sl.nodes.length
  tlen : ∀ id, 1 ≤ id → id ≤ sl.nodes.length → towerLen sl id = MAX_HEIGHT
  klen : ∀ id ∈ m, 8 < (keyOf sl id).length
  hbound : ∀ id ∈ m, 1 ≤ heightOf sl id ∧ heightOf sl id ≤ sl.height
  lh_bound : 1 ≤ sl.height ∧ sl.height ≤ MAX_HEIGHT
  sorted : List.Pairwise (keyLt sl) m
  chains : ∀ L, L < MAX_HEIGHT → SubChain sl L 1 (levelList sl m L)

theorem getD_zero_eq_headD (s : List Nat) : (s.get? 0).getD 0 = s.headD 0 := by
  cases s <;> rfl

theorem SubChain_cons {sl : SkipList} {L start a : Nat} {s : List Nat}
    (h : SubChain sl L start (a :: s)) : SubChain sl L a s := by
  obtain ⟨h1, h2⟩ := h
  constructor
  · have := h2 0 a rfl
    rw [this]
    exact getD_zero_eq_headD s
  · intro k x hk
    exact h2 (k + 1) x hk

theorem getNode_isSome {sl : SkipList} {id : Nat}
    (h1 : 1 ≤ id) (h2 : id ≤ sl.nodes.length) : (getNode sl id).isSome := by
  unfold getNode
  rw [if_neg (by omega)]
  rw [List.get?_eq_getElem?]
  simp only [List.getElem?_eq_getElem (by omega : id - 1 < sl.nodes.length)]
  rfl

/-- Members of `s` strictly below the search key. -/
def lowPart (sl : SkipList) (K : List Nat) (s : List Nat) : List Nat :=
  s.takeWhile fun a => decide (0 < compare_keys K (keyOf sl a))

/-- Members of `s` at or above the search key. -/
def highPart (sl : SkipList) (K : List Nat) (s : List Nat) : List Nat :=
  s.dropWhile fun a => decide (0 < compare_keys K (keyOf sl a))

/-- What the `find_splice_for_level` walk computes along a chain `s` hanging
off `before`: the node with an equal key when one is in `s`, else the pair
(last id of `s` below the key — or `before`, first id of `s` above — or 0). -/
theorem findSpliceGo_spec (sl : SkipList) (K : List Nat) (L : Nat) :
    ∀ (s : List Nat) (before fuel : Nat),
      s.length < fuel →
      SubChain sl L before s →
      (∀ a ∈ s, a ≠ 0 ∧ (getNode sl a).isSome) →
      List.Pairwise (keyLt sl) s →
      (∃ x ∈ s, compare_keys K (keyOf sl x) = 0 ∧
          findSpliceGo sl K L fuel before = (x, x)) ∨
      ((∀ x ∈ s, compare_keys K (keyOf sl x) ≠ 0) ∧
        findSpliceGo sl K L fuel before =
          ((lowPart sl K s).getLastD before, (highPart sl K s).headD 0)) := by
  intro s
  induction s with
  | nil =>
    intro before fuel hfuel hsub hval hpair
    match fuel with
    | f + 1 =>
      right
      refine ⟨by simp, ?_⟩
      have h0 : towerOf sl before L = 0 := hsub.1
      simp [findSpliceGo, h0, getNode, lowPart, highPart]
  | cons a s ih =>
    intro before fuel hfuel hsub hval hpair
    match fuel with
    | f + 1 =>
      have hnext : towerOf sl before L = a := hsub.1
      obtain ⟨ha0, hasome⟩ := hval a (List.mem_cons_self a s)
      obtain ⟨nn, hnn⟩ := Option.isSome_iff_exists.mp hasome
      have hkey : keyOf sl a = nn.key := by
        unfold keyOf
        rw [hnn]
        rfl
      have hstep : findSpliceGo sl K L (f + 1) before =
          (if compare_keys K nn.key = 0 then (a, a)
           else if compare_keys K nn.key < 0 then (before, a)
           else findSpliceGo sl K L f a) := by
        simp only [findSpliceGo, hnext, hnn]
      rcases compare_keys_cases K (keyOf sl a) with hc | hc | hc
      · -- K < key a: stop here
        have hc1 : ¬ compare_keys K nn.key = 0 := by rw [← hkey]; omega
        have hc2 : compare_keys K nn.key < 0 := by rw [← hkey]; omega
        rw [hstep, if_neg hc1, if_pos hc2]
        right
        refine ⟨?_, ?_⟩
        · intro x hx
          rcases List.mem_cons.mp hx with hx | hx
          · rw [hx]; omega
          · have hax : keyLt sl a x := (List.pairwise_cons.mp hpair).1 x hx
            unfold keyLt at hax
            have := compare_keys_trans_lt (show compare_keys K (keyOf sl a) < 0
              by omega) hax
            omega
        · have hcond : (fun a => decide (0 < compare_keys K (keyOf sl a))) a
              = false := by
            simp only [decide_eq_false_iff_not]
            omega
          simp only [lowPart, highPart, List.takeWhile_cons, hcond,
            List.dropWhile_cons, if_false, List.getLastD_nil, List.headD_cons]
          rfl
      · -- equal key at the front
        left
        have hc1 : compare_keys K nn.key = 0 := by rw [← hkey]; exact hc
        exact ⟨a, List.mem_cons_self a s, hc, by rw [hstep, if_pos hc1]⟩
      · -- K > key a: move right
        have hc1 : ¬ compare_keys K nn.key = 0 := by rw [← hkey]; omega
        have hc2 : ¬ compare_keys K nn.key < 0 := by rw [← hkey]; omega
        rw [hstep, if_neg hc1, if_neg hc2]
        have hsub2 := SubChain_cons hsub
        have hval2 : ∀ x ∈ s, x ≠ 0 ∧ (getNode sl x).isSome := fun x hx =>
          hval x (List.mem_cons_of_mem a hx)
        rcases ih a f (by simpa using Nat.lt_of_succ_lt_succ hfuel) hsub2 hval2
            hpair.of_cons with ⟨x, hxmem, hxeq, hres⟩ | ⟨hnone, hres⟩
        · exact Or.inl ⟨x, List.mem_cons_of_mem a hxmem, hxeq, hres⟩
        · right
          refine ⟨?_, ?_⟩
          · intro x hx
            rcases List.mem_cons.mp hx with hx | hx
            · rw [hx]; omega
            · exact hnone x hx
          · rw [hres]
            have hcond : (fun a => decide (0 < compare_keys K (keyOf sl a))) a
                = true := by
              simp only [decide_eq_true_eq]
              omega
            simp only [lowPart, highPart, List.takeWhile_cons, hcond,
              List.dropWhile_cons, if_true, List.getLastD_cons]

/-! ### Descent correctness -/

theorem mem_takeWhile_pred {p : Nat → Bool} :
    ∀ {l : List Nat} {x : Nat}, x ∈ l.takeWhile p → p x = true := by
  intro l
  induction l with
  | nil => intro x h; simp [List.takeWhile_nil] at h
  | cons a t ih =>
    intro x h
    rw [List.takeWhile_cons] at h
    by_cases hp : p a
    · rw [if_pos hp] at h
      rcases List.mem_cons.mp h with h | h
      · rw [h]; exact hp
      · exact ih h
    · rw [if_neg hp] at h
      simp at h

theorem dropWhile_head_false {p : Nat → Bool} :
    ∀ {l : List Nat} {b : Nat} {t : List Nat},
      l.dropWhile p = b :: t → p b = false := by
  intro l
  induction l with
  | nil => intro b t h; simp [List.dropWhile_nil] at h
  | cons a t2 ih =>
    intro b t h
    rw [List.dropWhile_cons] at h
    by_cases hp : p a
    · rw [if_pos hp] at h
      exact ih h
    · rw [if_neg hp] at h
      cases h
      simpa using hp

theorem takeWhile_mem_sub {p : Nat → Bool} :
    ∀ {l : List Nat} {x : Nat}, x ∈ l.takeWhile p → x ∈ l := by
  intro l
  induction l with
  | nil => intro x h; simpa using h
  | cons a t ih =>
    intro x h
    rw [List.takeWhile_cons] at h
    by_cases hp : p a
    · rw [if_pos hp] at h
      rcases List.mem_cons.mp h with h | h
      · rw [h]; exact List.mem_cons_self a t
      · exact List.mem_cons_of_mem a (ih h)
    · rw [if_neg hp] at h
      simp at h

theorem getLastD_cons_eq (a : Nat) (l : List Nat) (d : Nat) :
    (a :: l).getLastD d = l.getLastD a := by
  cases l with
  | nil => simp
  | cons b t =>
    have hs : (b :: t).getLast?.isSome := List.getLast?_isSome.mpr (by simp)
    obtain ⟨y, hy⟩ := Option.isSome_iff_exists.mp hs
    simp [List.getLast?_cons_cons, hy]

theorem getLastD_append_cons (l1 : List Nat) (x : Nat) (l2 : List Nat) (d : Nat) :
    (l1 ++ x :: l2).getLastD d = l2.getLastD x := by
  induction l1 generalizing d with
  | nil =>
    simp only [List.nil_append]
    exact getLastD_cons_eq x l2 d
  | cons a t ih => simp only [List.cons_append, getLastD_cons_eq, ih]

theorem takeWhile_append_cons_pos {p : Nat → Bool} (l1 : List Nat) (x : Nat)
    (l2 : List Nat) (h1 : ∀ y ∈ l1, p y = true) (hx : p x = true) :
    (l1 ++ x :: l2).takeWhile p = l1 ++ x :: l2.takeWhile p := by
  induction l1 with
  | nil => simp [List.takeWhile_cons, hx]
  | cons a t ih =>
    have ha : p a = true := h1 a (List.mem_cons_self a t)
    simp only [List.cons_append, List.takeWhile_cons, ha, if_true]
    rw [ih (fun y hy => h1 y (List.mem_cons_of_mem a hy))]

theorem dropWhile_append_cons_pos {p : Nat → Bool} (l1 : List Nat) (x : Nat)
    (l2 : List Nat) (h1 : ∀ y ∈ l1, p y = true) (hx : p x = true) :
    (l1 ++ x :: l2).dropWhile p = l2.dropWhile p := by
  induction l1 with
  | nil => simp [List.dropWhile_cons, hx]
  | cons a t ih =>
    have ha : p a = true := h1 a (List.mem_cons_self a t)
    simp only [List.cons_append, List.dropWhile_cons, ha, if_true]
    exact ih (fun y hy => h1 y (List.mem_cons_of_mem a hy))

theorem pairwise_append_split {R : Nat → Nat → Prop} {l : List Nat} {x : Nat}
    (hs : List.Pairwise R l) (hx : x ∈ l) :
    ∃ l1 l2, l = l1 ++ x :: l2 ∧ (∀ y ∈ l1, R y x) ∧ (∀ y ∈ l2, R x y) := by
  obtain ⟨l1, l2, rfl⟩ := List.append_of_mem hx
  refine ⟨l1, l2, rfl, ?_, ?_⟩
  · intro y hy
    have := (List.pairwise_append.mp hs).2.2 y hy x (List.mem_cons_self x l2)
    exact this
  · intro y hy
    have := List.pairwise_cons.mp (List.pairwise_append.mp hs).2.1
    exact this.1 y hy

theorem SubChain_drop {sl : SkipList} {L start : Nat} :
    ∀ {s : List Nat} {k x : Nat}, SubChain sl L start s → s.get? k = some x →
      SubChain sl L x (s.drop (k + 1)) := by
  intro s
  induction s generalizing start with
  | nil => intro k x _ hk; simp at hk
  | cons a t ih =>
    intro k x hsub hk
    match k with
    | 0 =>
      cases hk
      simpa using SubChain_cons hsub
    | k + 1 =>
      have := ih (SubChain_cons hsub) hk
      simpa using this

theorem levelList_mem {sl : SkipList} {m : List Nat} {L x : Nat} :
    x ∈ levelList sl m L ↔ x ∈ m ∧ L < heightOf sl x := by
  unfold levelList
  rw [List.mem_filter]
  simp

theorem levelList_mono {sl : SkipList} {m : List Nat} {L L' x : Nat}
    (hLL : L ≤ L') (hx : x ∈ levelList sl m L') : x ∈ levelList sl m L := by
  rw [levelList_mem] at *
  exact ⟨hx.1, by omega⟩

theorem levelList_pairwise {sl : SkipList} {m : List Nat}
    (hs : List.Pairwise (keyLt sl) m) (L : Nat) :
    List.Pairwise (keyLt sl) (levelList sl m L) :=
  hs.filter _

theorem levelList_length_le {sl : SkipList} {m : List Nat} (L : Nat) :
    (levelList sl m L).length ≤ m.length :=
  List.length_filter_le _ _

/-- The splice for a level over the whole level list: last id below the
key (head as default) and first id at-or-above (0 as default). -/
def prevAt (sl : SkipList) (m : List Nat) (K : List Nat) (L : Nat) : Nat :=
  (lowPart sl K (levelList sl m L)).getLastD 1

def nextAt (sl : SkipList) (m : List Nat) (K : List Nat) (L : Nat) : Nat :=
  (highPart sl K (levelList sl m L)).headD 0

/-- What `find_splice_for_level` at level `L` computes under the invariant,
starting from the head or from any chain member strictly below the key. -/
theorem find_splice_level_result {sl : SkipList} {m : List Nat}
    (inv : Inv sl m) {K : List Nat} (L : Nat) (hL : L < MAX_HEIGHT) (p : Nat)
    (hp : p = 1 ∨ (p ∈ levelList sl m L ∧ 0 < compare_keys K (keyOf sl p))) :
    (∃ x ∈ levelList sl m L, compare_keys K (keyOf sl x) = 0 ∧
        find_splice_for_level sl K p L = (x, x)) ∨
    ((∀ x ∈ levelList sl m L, compare_keys K (keyOf sl x) ≠ 0) ∧
      find_splice_for_level sl K p L = (prevAt sl m K L, nextAt sl m K L)) := by
  have hval : ∀ a ∈ levelList sl m L, a ≠ 0 ∧ (getNode sl a).isSome := by
    intro a ha
    have := (inv.mem a).mp (levelList_mem.mp ha).1
    exact ⟨by omega, getNode_isSome (by omega) this.2⟩
  have hpairL := levelList_pairwise inv.sorted L
  have hlenle : (levelList sl m L).length < sl.nodes.length + 1 := by
    have h1 : (levelList sl m L).length ≤ m.length := levelList_length_le L
    have h2 := inv.mlen
    omega
  rcases hp with hp | ⟨hpmem, hplt⟩
  · subst hp
    have hsub := inv.chains L hL
    rcases findSpliceGo_spec sl K L (levelList sl m L) 1 (sl.nodes.length + 1)
        hlenle hsub hval hpairL with ⟨x, hx, hxe, hres⟩ | ⟨hnone, hres⟩
    · exact Or.inl ⟨x, hx, hxe, hres⟩
    · right
      exact ⟨hnone, hres⟩
  · obtain ⟨l1, l2, hsplit, hbelow, habove⟩ :=
      pairwise_append_split hpairL hpmem
    have hget : (levelList sl m L).get? l1.length = some p := by
      rw [hsplit]
      rw [List.get?_eq_getElem?, List.getElem?_append_right (le_refl _)]
      simp
    have hdrop : (levelList sl m L).drop (l1.length + 1) = l2 := by
      rw [hsplit]
      rw [List.drop_append_eq_append_drop]
      simp
    have hsub2 : SubChain sl L p l2 := by
      have := SubChain_drop (inv.chains L hL) hget
      rwa [hdrop] at this
    have hval2 : ∀ a ∈ l2, a ≠ 0 ∧ (getNode sl a).isSome := by
      intro a ha
      exact hval a (by rw [hsplit]; simp [ha])
    have hpair2 : List.Pairwise (keyLt sl) l2 := by
      rw [hsplit] at hpairL
      exact (List.pairwise_cons.mp (List.pairwise_append.mp hpairL).2.1).2
    have hlen2 : l2.length < sl.nodes.length + 1 := by
      have : l2.length ≤ (levelList sl m L).length := by
        rw [hsplit]
        simp
        omega
      omega
    have hprefix_pos : ∀ y ∈ l1, (fun a =>
        decide (0 < compare_keys K (keyOf sl a))) y = true := by
      intro y hy
      simp only [decide_eq_true_eq]
      have h1 : keyLt sl y p := hbelow y hy
      unfold keyLt at h1
      have h2 : compare_keys (keyOf sl p) K < 0 := by
        have := compare_keys_swap (keyOf sl p) K
        omega
      have := compare_keys_trans_lt h1 h2
      have hsw := compare_keys_swap K (keyOf sl y)
      omega
    have hp_pos : (fun a => decide (0 < compare_keys K (keyOf sl a))) p
        = true := by
      simp only [decide_eq_true_eq]
      exact hplt
    rcases findSpliceGo_spec sl K L l2 p (sl.nodes.length + 1) hlen2 hsub2
        hval2 hpair2 with ⟨x, hx, hxe, hres⟩ | ⟨hnone, hres⟩
    · left
      exact ⟨x, by rw [hsplit]; simp [hx], hxe, hres⟩
    · right
      constructor
      · intro x hx
        rw [hsplit] at hx
        rcases List.mem_append.mp hx with hx | hx
        · have := hprefix_pos x hx
          simp only [decide_eq_true_eq] at this
          omega
        · rcases List.mem_cons.mp hx with hx | hx
          · rw [hx]; omega
          · exact hnone x hx
      · unfold find_splice_for_level
        rw [hres]
        unfold prevAt nextAt lowPart highPart
        rw [hsplit, takeWhile_append_cons_pos l1 p l2 hprefix_pos hp_pos,
          dropWhile_append_cons_pos l1 p l2 hprefix_pos hp_pos,
          getLastD_append_cons]

/-- The splice pairs for levels `0..i`, indexed by level. -/
def spliceList (sl : SkipList) (m : List Nat) (K : List Nat) : Nat → List (Nat × Nat)
  | 0 => []
  | i + 1 => spliceList sl m K i ++ [(prevAt sl m K i, nextAt sl m K i)]

theorem spliceList_length (sl : SkipList) (m : List Nat) (K : List Nat) :
    ∀ i, (spliceList sl m K i).length = i := by
  intro i
  induction i with
  | zero => rfl
  | succ i ih => simp [spliceList, ih]

theorem spliceList_getD (sl : SkipList) (m : List Nat) (K : List Nat) :
    ∀ i L, L < i →
      (spliceList sl m K i).getD L (0, 0) = (prevAt sl m K L, nextAt sl m K L) := by
  intro i
  induction i with
  | zero => intro L hL; omega
  | succ i ih =>
    intro L hL
    by_cases hLi : L < i
    · unfold spliceList
      rw [List.getD_eq_getElem?_getD, List.getElem?_append_left
        (by rw [spliceList_length]; omega), ← List.getD_eq_getElem?_getD]
      exact ih L hLi
    · have hLe : L = i := by omega
      subst hLe
      unfold spliceList
      rw [List.getD_eq_getElem?_getD, List.getElem?_append_right
        (by rw [spliceList_length]), spliceList_length]
      simp

/-- Either the prev id at `L` is the head or it belongs to the level list
with key strictly below `K`. -/
theorem getLastD_mem {l : List Nat} (h : l ≠ []) (d : Nat) : l.getLastD d ∈ l := by
  rw [List.getLastD_eq_getLast?, List.getLast?_eq_getLast _ h, Option.getD_some]
  exact List.getLast_mem h

theorem prevAt_inv {sl : SkipList} {m : List Nat} {K : List Nat} {L : Nat} :
    prevAt sl m K L = 1 ∨ (prevAt sl m K L ∈ levelList sl m L ∧
      0 < compare_keys K (keyOf sl (prevAt sl m K L))) := by
  unfold prevAt lowPart
  by_cases hlp : (levelList sl m L).takeWhile
      (fun a => decide (0 < compare_keys K (keyOf sl a))) = []
  · left
    rw [hlp]
    rfl
  · right
    have hmem := getLastD_mem hlp 1
    constructor
    · exact takeWhile_mem_sub hmem
    · have := mem_takeWhile_pred hmem
      simpa using this

/-- `prevAt` and `nextAt` never coincide (so the splice never looks like an
exact-key hit). -/
theorem prevAt_ne_nextAt {sl : SkipList} {m : List Nat}
    (inv : Inv sl m) {K : List Nat} {L : Nat} :
    prevAt sl m K L ≠ nextAt sl m K L := by
  unfold nextAt
  match hhp : highPart sl K (levelList sl m L) with
  | [] =>
    have hpi : prevAt sl m K L = 1 ∨ (prevAt sl m K L ∈ levelList sl m L ∧
        0 < compare_keys K (keyOf sl (prevAt sl m K L))) := prevAt_inv
    rcases hpi with h | ⟨hmem, _⟩
    · rw [h]; simp
    · have := (inv.mem _).mp (levelList_mem.mp hmem).1
      simp only [List.headD_nil]
      omega
  | b :: t =>
    have hbfalse : (fun a => decide (0 < compare_keys K (keyOf sl a))) b
        = false := dropWhile_head_false hhp
    simp only [decide_eq_false_iff_not] at hbfalse
    have hpi : prevAt sl m K L = 1 ∨ (prevAt sl m K L ∈ levelList sl m L ∧
        0 < compare_keys K (keyOf sl (prevAt sl m K L))) := prevAt_inv
    rcases hpi with h | ⟨hmem, hlt⟩
    · rw [h]
      have hbmem : b ∈ levelList sl m L := by
        have : b ∈ highPart sl K (levelList sl m L) := by rw [hhp]; simp
        exact List.dropWhile_sublist _ |>.subset this
      have := (inv.mem _).mp (levelList_mem.mp hbmem).1
      simp only [List.headD_cons]
      omega
    · intro hc
      simp only [List.headD_cons] at hc
      rw [hc] at hlt
      exact hbfalse hlt

/-- Correctness of the descent loop: under the invariant it either finds the
(unique) node with an equal key, or returns exactly the splice list, with no
equal key anywhere in the levels it scanned. -/
theorem descendLoop_spec {sl : SkipList} {m : List Nat} (inv : Inv sl m)
    {K : List Nat} :
    ∀ (i p : Nat), i ≤ sl.height →
      (p = 1 ∨ (p ∈ levelList sl m i ∧ 0 < compare_keys K (keyOf sl p))) →
      (∃ x ∈ m, compare_keys K (keyOf sl x) = 0 ∧
          descendLoop sl K i p = Sum.inl x) ∨
      ((∀ L, L < i → ∀ x ∈ levelList sl m L,
          compare_keys K (keyOf sl x) ≠ 0) ∧
        descendLoop sl K i p = Sum.inr (spliceList sl m K i)) := by
  intro i
  induction i with
  | zero =>
    intro p _ _
    right
    exact ⟨by omega, rfl⟩
  | succ i ih =>
    intro p hle hp
    have hLMAX : i < MAX_HEIGHT := by
      have := inv.lh_bound.2
      omega
    have hp' : p = 1 ∨ (p ∈ levelList sl m i ∧
        0 < compare_keys K (keyOf sl p)) := by
      rcases hp with hp | ⟨hmem, hlt⟩
      · exact Or.inl hp
      · exact Or.inr ⟨levelList_mono (by omega) hmem, hlt⟩
    rcases find_splice_level_result inv i hLMAX p hp' with
        ⟨x, hxmem, hxeq, hres⟩ | ⟨hnone, hres⟩
    · left
      refine ⟨x, (levelList_mem.mp hxmem).1, hxeq, ?_⟩
      simp [descendLoop, hres]
    · have hne := prevAt_ne_nextAt inv (K := K) (L := i)
      rcases ih (prevAt sl m K i) (by omega) prevAt_inv with
          ⟨x, hxmem, hxeq, hres2⟩ | ⟨hnone2, hres2⟩
      · left
        refine ⟨x, hxmem, hxeq, ?_⟩
        simp only [descendLoop, hres, if_neg hne, hres2]
      · right
        refine ⟨?_, ?_⟩
        · intro L hL x hx
          by_cases hLi : L < i
          · exact hnone2 L hLi x hx
          · have hLe : L = i := by omega
            subst hLe
            exact hnone x hx
        · simp only [descendLoop, hres, if_neg hne, hres2, spliceList]

/-! ### Frame lemmas for tower writes and node allocation -/

theorem setTower_out_of_range {sl : SkipList} {id L succ : Nat}
    (h : id = 0 ∨ sl.nodes.length < id) : setTower sl id L succ = sl := by
  unfold setTower
  rcases h with h | h
  · rw [if_pos h]
  · rw [if_neg (by omega)]
    have : sl.nodes.get? (id - 1) = none := by
      rw [List.get?_eq_getElem?, List.getElem?_eq_none_iff]
      omega
    rw [this]

theorem getNode_setTower_ne {sl : SkipList} {id L succ x : Nat}
    (hx : x ≠ id) : getNode (setTower sl id L succ) x = getNode sl x := by
  unfold setTower
  split
  · rfl
  · split
    · rfl
    · unfold getNode
      by_cases hx0 : x = 0
      · simp [hx0]
      · simp only [if_neg hx0]
        rw [List.get?_eq_getElem?, List.get?_eq_getElem?, List.getElem?_set_ne]
        omega

theorem getNode_setTower_self {sl : SkipList} {id : Nat} (L succ : Nat)
    (h1 : 1 ≤ id) (h2 : id ≤ sl.nodes.length) :
    ∃ n, getNode sl id = some n ∧
      getNode (setTower sl id L succ) id =
        some { n with tower := n.tower.set L succ } := by
  have hlt : id - 1 < sl.nodes.length := by omega
  have hget : sl.nodes.get? (id - 1) = some (sl.nodes.get ⟨id - 1, hlt⟩) :=
    List.get?_eq_get hlt
  refine ⟨sl.nodes.get ⟨id - 1, hlt⟩, ?_, ?_⟩
  · unfold getNode
    rw [if_neg (by omega), hget]
  · unfold setTower
    rw [if_neg (by omega), hget]
    unfold getNode
    rw [if_neg (by omega)]
    simp only [List.get?_eq_getElem?]
    rw [List.getElem?_set_self (by simpa using hlt)]

theorem keyOf_setTower {sl : SkipList} {id L succ x : Nat} :
    keyOf (setTower sl id L succ) x = keyOf sl x := by
  by_cases hx : x = id
  · subst hx
    by_cases hr : 1 ≤ x ∧ x ≤ sl.nodes.length
    · obtain ⟨n, hn1, hn2⟩ := getNode_setTower_self L succ hr.1 hr.2
      unfold keyOf
      rw [hn1, hn2]
      rfl
    · rw [setTower_out_of_range (by omega)]
  · unfold keyOf
    rw [getNode_setTower_ne hx]

theorem heightOf_setTower {sl : SkipList} {id L succ x : Nat} :
    heightOf (setTower sl id L succ) x = heightOf sl x := by
  by_cases hx : x = id
  · subst hx
    by_cases hr : 1 ≤ x ∧ x ≤ sl.nodes.length
    · obtain ⟨n, hn1, hn2⟩ := getNode_setTower_self L succ hr.1 hr.2
      unfold heightOf
      rw [hn1, hn2]
      rfl
    · rw [setTower_out_of_range (by omega)]
  · unfold heightOf
    rw [getNode_setTower_ne hx]

theorem valSliceOf_setTower {sl : SkipList} {id L succ x : Nat} :
    valSliceOf (setTower sl id L succ) x = valSliceOf sl x := by
  by_cases hx : x = id
  · subst hx
    by_cases hr : 1 ≤ x ∧ x ≤ sl.nodes.length
    · obtain ⟨n, hn1, hn2⟩ := getNode_setTower_self L succ hr.1 hr.2
      unfold valSliceOf
      rw [hn1, hn2]
      rfl
    · rw [setTower_out_of_range (by omega)]
  · unfold valSliceOf
    rw [getNode_setTower_ne hx]

theorem towerLen_setTower {sl : SkipList} {id L succ x : Nat} :
    towerLen (setTower sl id L succ) x = towerLen sl x := by
  by_cases hx : x = id
  · subst hx
    by_cases hr : 1 ≤ x ∧ x ≤ sl.nodes.length
    · obtain ⟨n, hn1, hn2⟩ := getNode_setTower_self L succ hr.1 hr.2
      unfold towerLen
      rw [hn1, hn2]
      simp [List.length_set]
    · rw [setTower_out_of_range (by omega)]
  · unfold towerLen
    rw [getNode_setTower_ne hx]

theorem nodesLength_setTower {sl : SkipList} {id L succ : Nat} :
    (setTower sl id L succ).nodes.length = sl.nodes.length := by
  unfold setTower
  split
  · rfl
  · split
    · rfl
    · simp [List.length_set]

theorem height_setTower {sl : SkipList} {id L succ : Nat} :
    (setTower sl id L succ).height = sl.height := by
  unfold setTower
  split
  · rfl
  · split <;> rfl

theorem towerOf_setTower_self {sl : SkipList} {id L succ : Nat}
    (h1 : 1 ≤ id) (h2 : id ≤ sl.nodes.length) (hL : L < towerLen sl id) :
    towerOf (setTower sl id L succ) id L = succ := by
  obtain ⟨n, hn1, hn2⟩ := getNode_setTower_self L succ h1 h2
  unfold towerOf
  rw [hn2]
  simp only [Option.map_some', Option.getD_some]
  unfold towerLen at hL
  rw [hn1] at hL
  simp only [Option.map_some', Option.getD_some] at hL
  rw [List.getD_eq_getElem?_getD, List.getElem?_set_self (by simpa using hL)]
  rfl

theorem towerOf_setTower_ne {sl : SkipList} {id L succ x M : Nat}
    (h : x ≠ id ∨ M ≠ L) :
    towerOf (setTower sl id L succ) x M = towerOf sl x M := by
  rcases h with h | h
  · unfold towerOf
    rw [getNode_setTower_ne h]
  · by_cases hx : x = id
    · subst hx
      by_cases hr : 1 ≤ x ∧ x ≤ sl.nodes.length
      · obtain ⟨n, hn1, hn2⟩ := getNode_setTower_self L succ hr.1 hr.2
        unfold towerOf
        rw [hn1, hn2]
        simp only [Option.map_some', Option.getD_some]
        rw [List.getD_eq_getElem?_getD, List.getD_eq_getElem?_getD,
          List.getElem?_set_ne (by omega)]
      · rw [setTower_out_of_range (by omega)]
    · unfold towerOf
      rw [getNode_setTower_ne hx]

/-! ### Frame lemmas for `setValSlice` and `addNode` -/

theorem setValSlice_out_of_range {sl : SkipList} {id : Nat} {slice : List Nat}
    (h : id = 0 ∨ sl.nodes.length < id) : setValSlice sl id slice = sl := by
  unfold setValSlice
  rcases h with h | h
  · rw [if_pos h]
  · rw [if_neg (by omega)]
    have : sl.nodes.get? (id - 1) = none := by
      rw [List.get?_eq_getElem?, List.getElem?_eq_none_iff]
      omega
    rw [this]

theorem getNode_setValSlice_ne {sl : SkipList} {id x : Nat} {slice : List Nat}
    (hx : x ≠ id) : getNode (setValSlice sl id slice) x = getNode sl x := by
  unfold setValSlice
  split
  · rfl
  · split
    · rfl
    · unfold getNode
      by_cases hx0 : x = 0
      · simp [hx0]
      · simp only [if_neg hx0]
        rw [List.get?_eq_getElem?, List.get?_eq_getElem?, List.getElem?_set_ne]
        omega

theorem getNode_setValSlice_self {sl : SkipList} {id : Nat} (slice : List Nat)
    (h1 : 1 ≤ id) (h2 : id ≤ sl.nodes.length) :
    ∃ n, getNode sl id = some n ∧
      getNode (setValSlice sl id slice) id = some { n with valSlice := slice } := by
  have hlt : id - 1 < sl.nodes.length := by omega
  have hget : sl.nodes.get? (id - 1) = some (sl.nodes.get ⟨id - 1, hlt⟩) :=
    List.get?_eq_get hlt
  refine ⟨sl.nodes.get ⟨id - 1, hlt⟩, ?_, ?_⟩
  · unfold getNode
    rw [if_neg (by omega), hget]
  · unfold setValSlice
    rw [if_neg (by omega), hget]
    unfold getNode
    rw [if_neg (by omega)]
    simp only [List.get?_eq_getElem?]
    rw [List.getElem?_set_self (by simpa using hlt)]

theorem keyOf_setValSlice {sl : SkipList} {id x : Nat} {slice : List Nat} :
    keyOf (setValSlice sl id slice) x = keyOf sl x := by
  by_cases hx : x = id
  · subst hx
    by_cases hr : 1 ≤ x ∧ x ≤ sl.nodes.length
    · obtain ⟨n, hn1, hn2⟩ := getNode_setValSlice_self slice hr.1 hr.2
      unfold keyOf
      rw [hn1, hn2]
      rfl
    · rw [setValSlice_out_of_range (by omega)]
  · unfold keyOf
    rw [getNode_setValSlice_ne hx]

theorem heightOf_setValSlice {sl : SkipList} {id x : Nat} {slice : List Nat} :
    heightOf (setValSlice sl id slice) x = heightOf sl x := by
  by_cases hx : x = id
  · subst hx
    by_cases hr : 1 ≤ x ∧ x ≤ sl.nodes.length
    · obtain ⟨n, hn1, hn2⟩ := getNode_setValSlice_self slice hr.1 hr.2
      unfold heightOf
      rw [hn1, hn2]
      rfl
    · rw [setValSlice_out_of_range (by omega)]
  · unfold heightOf
    rw [getNode_setValSlice_ne hx]

theorem towerOf_setValSlice {sl : SkipList} {id x L : Nat} {slice : List Nat} :
    towerOf (setValSlice sl id slice) x L = towerOf sl x L := by
  by_cases hx : x = id
  · subst hx
    by_cases hr : 1 ≤ x ∧ x ≤ sl.nodes.length
    · obtain ⟨n, hn1, hn2⟩ := getNode_setValSlice_self slice hr.1 hr.2
      unfold towerOf
      rw [hn1, hn2]
      rfl
    · rw [setValSlice_out_of_range (by omega)]
  · unfold towerOf
    rw [getNode_setValSlice_ne hx]

theorem towerLen_setValSlice {sl : SkipList} {id x : Nat} {slice : List Nat} :
    towerLen (setValSlice sl id slice) x = towerLen sl x := by
  by_cases hx : x = id
  · subst hx
    by_cases hr : 1 ≤ x ∧ x ≤ sl.nodes.length
    · obtain ⟨n, hn1, hn2⟩ := getNode_setValSlice_self slice hr.1 hr.2
      unfold towerLen
      rw [hn1, hn2]
      rfl
    · rw [setValSlice_out_of_range (by omega)]
  · unfold towerLen
    rw [getNode_setValSlice_ne hx]

theorem valSliceOf_setValSlice_self {sl : SkipList} {id : Nat} {slice : List Nat}
    (h1 : 1 ≤ id) (h2 : id ≤ sl.nodes.length) :
    valSliceOf (setValSlice sl id slice) id = slice := by
  obtain ⟨n, hn1, hn2⟩ := getNode_setValSlice_self slice h1 h2
  unfold valSliceOf
  rw [hn2]
  rfl

theorem valSliceOf_setValSlice_ne {sl : SkipList} {id x : Nat} {slice : List Nat}
    (hx : x ≠ id) : valSliceOf (setValSlice sl id slice) x = valSliceOf sl x := by
  unfold valSliceOf
  rw [getNode_setValSlice_ne hx]

theorem nodesLength_setValSlice {sl : SkipList} {id : Nat} {slice : List Nat} :
    (setValSlice sl id slice).nodes.length = sl.nodes.length := by
  unfold setValSlice
  split
  · rfl
  · split
    · rfl
    · simp [List.length_set]

theorem height_setValSlice {sl : SkipList} {id : Nat} {slice : List Nat} :
    (setValSlice sl id slice).height = sl.height := by
  unfold setValSlice
  split
  · rfl
  · split <;> rfl

theorem addNode_nodes_length {sl : SkipList} {key : List Nat} {v : Value}
    {h : Nat} : (addNode sl key v h).1.nodes.length = sl.nodes.length + 1 := by
  simp [addNode]

theorem addNode_snd {sl : SkipList} {key : List Nat} {v : Value} {h : Nat} :
    (addNode sl key v h).2 = sl.nodes.length + 1 := rfl

theorem addNode_height {sl : SkipList} {key : List Nat} {v : Value} {h : Nat} :
    (addNode sl key v h).1.height = sl.height := rfl

theorem getNode_addNode_old {sl : SkipList} {key : List Nat} {v : Value}
    {h x : Nat} (hx : x ≤ sl.nodes.length) :
    getNode (addNode sl key v h).1 x = getNode sl x := by
  unfold getNode addNode
  by_cases hx0 : x = 0
  · simp [hx0]
  · simp only [if_neg hx0]
    rw [List.get?_eq_getElem?, List.get?_eq_getElem?,
      List.getElem?_append_left (by omega)]

theorem getNode_addNode_new {sl : SkipList} {key : List Nat} {v : Value}
    {h : Nat} :
    getNode (addNode sl key v h).1 (sl.nodes.length + 1) =
      some { key := key, valSlice := putValueSlice v, height := h,
             tower := List.replicate MAX_HEIGHT 0 } := by
  unfold getNode addNode
  rw [if_neg (by omega)]
  simp only [List.get?_eq_getElem?, Nat.add_sub_cancel]
  rw [List.getElem?_append_right (le_refl _)]
  simp

theorem keyOf_addNode_old {sl : SkipList} {key : List Nat} {v : Value}
    {h x : Nat} (hx : x ≤ sl.nodes.length) :
    keyOf (addNode sl key v h).1 x = keyOf sl x := by
  unfold keyOf
  rw [getNode_addNode_old hx]

theorem keyOf_addNode_new {sl : SkipList} {key : List Nat} {v : Value}
    {h : Nat} : keyOf (addNode sl key v h).1 (sl.nodes.length + 1) = key := by
  unfold keyOf
  rw [getNode_addNode_new]
  rfl

theorem heightOf_addNode_old {sl : SkipList} {key : List Nat} {v : Value}
    {h x : Nat} (hx : x ≤ sl.nodes.length) :
    heightOf (addNode sl key v h).1 x = heightOf sl x := by
  unfold heightOf
  rw [getNode_addNode_old hx]

theorem heightOf_addNode_new {sl : SkipList} {key : List Nat} {v : Value}
    {h : Nat} : heightOf (addNode sl key v h).1 (sl.nodes.length + 1) = h := by
  unfold heightOf
  rw [getNode_addNode_new]
  rfl

theorem towerOf_addNode_old {sl : SkipList} {key : List Nat} {v : Value}
    {h x L : Nat} (hx : x ≤ sl.nodes.length) :
    towerOf (addNode sl key v h).1 x L = towerOf sl x L := by
  unfold towerOf
  rw [getNode_addNode_old hx]

theorem towerOf_addNode_new {sl : SkipList} {key : List Nat} {v : Value}
    {h L : Nat} : towerOf (addNode sl key v h).1 (sl.nodes.length + 1) L = 0 := by
  unfold towerOf
  rw [getNode_addNode_new]
  simp only [Option.map_some', Option.getD_some]
  rw [List.getD_eq_getElem?_getD]
  rcases Nat.lt_or_ge L MAX_HEIGHT with hL | hL
  · rw [List.getElem?_eq_getElem (by simpa using hL)]
    simp
  · rw [List.getElem?_eq_none_iff.mpr (by simpa using hL)]
    rfl

theorem towerLen_addNode_old {sl : SkipList} {key : List Nat} {v : Value}
    {h x : Nat} (hx : x ≤ sl.nodes.length) :
    towerLen (addNode sl key v h).1 x = towerLen sl x := by
  unfold towerLen
  rw [getNode_addNode_old hx]

theorem towerLen_addNode_new {sl : SkipList} {key : List Nat} {v : Value}
    {h : Nat} :
    towerLen (addNode sl key v h).1 (sl.nodes.length + 1) = MAX_HEIGHT := by
  unfold towerLen
  rw [getNode_addNode_new]
  simp

theorem valSliceOf_addNode_old {sl : SkipList} {key : List Nat} {v : Value}
    {h x : Nat} (hx : x ≤ sl.nodes.length) :
    valSliceOf (addNode sl key v h).1 x = valSliceOf sl x := by
  unfold valSliceOf
  rw [getNode_addNode_old hx]

theorem valSliceOf_addNode_new {sl : SkipList} {key : List Nat} {v : Value}
    {h : Nat} :
    valSliceOf (addNode sl key v h).1 (sl.nodes.length + 1) =
      putValueSlice v := by
  unfold valSliceOf
  rw [getNode_addNode_new]
  rfl

/-! ### A recursive spelling of chains, and chain surgery -/

/-- `IsChain sl L start s`: starting at `start`, the level-`L` forward
pointers spell exactly `s` and then null. -/
def IsChain (sl : SkipList) (L : Nat) : Nat → List Nat → Prop
  | start, [] => towerOf sl start L = 0
  | start, a :: s => towerOf sl start L = a ∧ IsChain sl L a s

theorem IsChain_congr {sl sl' : SkipList} {L : Nat} :
    ∀ {s : List Nat} {start : Nat},
      (∀ x ∈ start :: s, towerOf sl' x L = towerOf sl x L) →
      IsChain sl L start s → IsChain sl' L start s := by
  intro s
  induction s with
  | nil =>
    intro start hframe hch
    unfold IsChain at hch ⊢
    rw [hframe start (by simp)]
    exact hch
  | cons a s ih =>
    intro start hframe hch
    obtain ⟨h1, h2⟩ := hch
    refine ⟨by rw [hframe start (by simp)]; exact h1, ?_⟩
    exact ih (fun x hx => hframe x (by
      rcases List.mem_cons.mp hx with hx | hx
      · simp [hx]
      · simp [List.mem_cons_of_mem, hx])) h2

theorem SubChain_nil_iff {sl : SkipList} {L start : Nat} :
    SubChain sl L start [] ↔ towerOf sl start L = 0 := by
  constructor
  · intro h
    exact h.1
  · intro h
    exact ⟨h, by intro k a hk; simp at hk⟩

theorem SubChain_cons_intro {sl : SkipList} {L start a : Nat} {s : List Nat}
    (h1 : towerOf sl start L = a) (h2 : SubChain sl L a s) :
    SubChain sl L start (a :: s) := by
  refine ⟨by simpa using h1, ?_⟩
  intro k x hk
  match k with
  | 0 =>
    simp only [List.get?_cons_zero, Option.some.injEq] at hk
    subst hk
    rw [h2.1]
    simp only [List.get?_cons_succ]
    exact (getD_zero_eq_headD s).symm
  | k + 1 =>
    simp only [List.get?_cons_succ] at hk ⊢
    exact h2.2 k x hk

theorem SubChain_iff_IsChain {sl : SkipList} {L : Nat} :
    ∀ {s : List Nat} {start : Nat},
      SubChain sl L start s ↔ IsChain sl L start s := by
  intro s
  induction s with
  | nil =>
    intro start
    rw [SubChain_nil_iff]
    exact Iff.rfl
  | cons a s ih =>
    intro start
    constructor
    · intro h
      exact ⟨by simpa using h.1, ih.mp (SubChain_cons h)⟩
    · intro h
      exact SubChain_cons_intro h.1 (ih.mpr h.2)

/-- Splicing a fresh node into a chain: write `next` into the new node's
level-`L` pointer, then point the predecessor (the last chain member below
the cut, or `start`) at the new node. -/
theorem IsChain_splice {sl : SkipList} {L newId : Nat} (K : List Nat) :
    ∀ (low : List Nat) (high : List Nat) (start : Nat),
      IsChain sl L start (low ++ high) →
      (start :: (low ++ high)).Nodup →
      newId ∉ start :: (low ++ high) →
      1 ≤ newId → newId ≤ sl.nodes.length → L < towerLen sl newId →
      1 ≤ low.getLastD start → low.getLastD start ≤ sl.nodes.length →
      L < towerLen sl (low.getLastD start) →
      IsChain
        (setTower (setTower sl newId L (high.headD 0)) (low.getLastD start) L newId)
        L start (low ++ newId :: high) := by
  intro low
  induction low with
  | nil =>
    intro high start hch hnd hnew h1 h2 h3 h4 h5 h6
    simp only [List.nil_append, List.getLastD_nil] at *
    have hne_start : newId ≠ start := by
      intro hc
      exact hnew (by simp [hc])
    have htl1 : towerLen (setTower sl newId L (high.headD 0)) start
        = towerLen sl start := towerLen_setTower
    refine ⟨?_, ?_⟩
    · exact towerOf_setTower_self h4 (by rwa [nodesLength_setTower]) (by rwa [htl1])
    · have hframe : ∀ x ∈ newId :: high,
          towerOf (setTower (setTower sl newId L (high.headD 0)) start L newId) x L
            = towerOf (setTower sl newId L (high.headD 0)) x L := by
        intro x hx
        rcases List.mem_cons.mp hx with hx | hx
        · exact towerOf_setTower_ne (Or.inl (by rw [hx]; exact hne_start))
        · refine towerOf_setTower_ne (Or.inl ?_)
          intro hc
          exact (List.nodup_cons.mp hnd).1 (hc ▸ hx)
      apply IsChain_congr hframe
      match high, hch with
      | [], hch =>
        exact towerOf_setTower_self h1 h2 h3
      | b :: t, hch =>
        refine ⟨towerOf_setTower_self h1 h2 h3, ?_⟩
        have hframe2 : ∀ x ∈ b :: t,
            towerOf (setTower sl newId L ((b :: t).headD 0)) x L
              = towerOf sl x L := by
          intro x hx
          refine towerOf_setTower_ne (Or.inl ?_)
          intro hc
          exact hnew (by rw [← hc]; simp [hx])
        exact IsChain_congr (by
          intro x hx
          rcases List.mem_cons.mp hx with hx | hx
          · rw [hx]
            exact hframe2 b (by simp)
          · exact hframe2 x (by simp [hx])) hch.2
  | cons a low' ih =>
    intro high start hch hnd hnew h1 h2 h3 h4 h5 h6
    have hglast : (a :: low').getLastD start = low'.getLastD a :=
      getLastD_cons_eq a low' start
    rw [hglast] at h4 h5 h6
    rw [List.cons_append, hglast]
    obtain ⟨hhd, htl⟩ := hch
    have hstart_notin : start ∉ (a :: low') ++ high := by
      have := List.nodup_cons.mp hnd
      exact this.1
    have hne1 : start ≠ newId := by
      intro hc
      exact hnew (by simp [hc])
    have hne2 : start ≠ low'.getLastD a := by
      intro hc
      have hmem : low'.getLastD a ∈ a :: low' := by
        match low' with
        | [] => simp
        | c :: t =>
          exact List.mem_cons_of_mem a (getLastD_mem (by simp) c)
      exact hstart_notin (by rw [hc]; exact List.mem_append_left high hmem)
    refine ⟨?_, ?_⟩
    · rw [towerOf_setTower_ne (Or.inl hne2),
        towerOf_setTower_ne (Or.inl hne1)]
      simpa using hhd
    · rw [List.cons_append] at hnd hnew
      exact ih high a htl (List.nodup_cons.mp hnd).2
        (fun hc => hnew (List.mem_cons_of_mem _ hc)) h1 h2 h3 h4 h5 h6

/-! ### takeWhile and dropWhile on sorted lists -/

theorem keyLt_irrefl (sl : SkipList) (a : Nat) : ¬ keyLt sl a a := by
  unfold keyLt
  rw [compare_keys_refl]
  omega

theorem nodup_of_sorted {sl : SkipList} {m : List Nat}
    (h : List.Pairwise (keyLt sl) m) : m.Nodup := by
  refine h.imp ?_
  intro a b hab heq
  subst heq
  exact keyLt_irrefl sl a hab

theorem takeWhile_eq_filter_pairwise {R : Nat → Nat → Prop} {p : Nat → Bool} :
    ∀ {l : List Nat}, List.Pairwise R l →
      (∀ a b, R a b → p b = true → p a = true) →
      l.takeWhile p = l.filter p := by
  intro l
  induction l with
  | nil => intro _ _; rfl
  | cons a l ih =>
    intro hp hdc
    by_cases hpa : p a = true
    · rw [List.takeWhile_cons, List.filter_cons, if_pos hpa, if_pos hpa,
        ih hp.of_cons hdc]
    · rw [List.takeWhile_cons, List.filter_cons, if_neg hpa, if_neg hpa]
      have hall : ∀ b ∈ l, p b = false := by
        intro b hb
        by_contra hc
        have hbt : p b = true := by revert hc; cases p b <;> simp
        exact hpa (hdc a b ((List.pairwise_cons.mp hp).1 b hb) hbt)
      exact (List.filter_eq_nil_iff.mpr (fun b hb => by simp [hall b hb])).symm

theorem dropWhile_eq_filter_pairwise {R : Nat → Nat → Prop} {p : Nat → Bool} :
    ∀ {l : List Nat}, List.Pairwise R l →
      (∀ a b, R a b → p b = true → p a = true) →
      l.dropWhile p = l.filter (fun a => ! p a) := by
  intro l
  induction l with
  | nil => intro _ _; rfl
  | cons a l ih =>
    intro hp hdc
    by_cases hpa : p a = true
    · rw [List.dropWhile_cons, List.filter_cons, if_pos hpa,
        if_neg (by simp [hpa])]
      exact ih hp.of_cons hdc
    · have hpa2 : p a = false := by revert hpa; cases p a <;> simp
      rw [List.dropWhile_cons, List.filter_cons, if_neg hpa,
        if_pos (by simp [hpa2])]
      have hall : ∀ b ∈ l, p b = false := by
        intro b hb
        by_contra hc
        have hbt : p b = true := by revert hc; cases p b <;> simp
        exact hpa (hdc a b ((List.pairwise_cons.mp hp).1 b hb) hbt)
      rw [List.filter_eq_self.mpr (fun b hb => by simp [hall b hb])]

/-- The predicate "strictly below the search key" is downward closed along
`keyLt`. -/
theorem key_pred_down_closed (sl : SkipList) (K : List Nat) :
    ∀ a b, keyLt sl a b →
      decide (0 < compare_keys K (keyOf sl b)) = true →
      decide (0 < compare_keys K (keyOf sl a)) = true := by
  intro a b hab hb
  simp only [decide_eq_true_eq] at hb ⊢
  unfold keyLt at hab
  have h1 : compare_keys (keyOf sl b) K < 0 := by
    have := compare_keys_swap (keyOf sl b) K
    omega
  have h2 := compare_keys_trans_lt hab h1
  have := compare_keys_swap K (keyOf sl a)
  omega

/-- Members of `m` strictly below the key, in order. -/
def lowMaster (sl : SkipList) (K : List Nat) (m : List Nat) : List Nat :=
  m.takeWhile fun a => decide (0 < compare_keys K (keyOf sl a))

/-- Members of `m` at or above the key, in order. -/
def highMaster (sl : SkipList) (K : List Nat) (m : List Nat) : List Nat :=
  m.dropWhile fun a => decide (0 < compare_keys K (keyOf sl a))

theorem lowMaster_append_highMaster (sl : SkipList) (K : List Nat)
    (m : List Nat) : lowMaster sl K m ++ highMaster sl K m = m := by
  unfold lowMaster highMaster
  exact List.takeWhile_append_dropWhile _ _

theorem lowPart_levelList {sl : SkipList} {m : List Nat} {K : List Nat}
    (hs : List.Pairwise (keyLt sl) m) (L : Nat) :
    lowPart sl K (levelList sl m L) = levelList sl (lowMaster sl K m) L := by
  unfold lowPart levelList lowMaster
  rw [takeWhile_eq_filter_pairwise (hs.filter _) (key_pred_down_closed sl K),
    takeWhile_eq_filter_pairwise hs (key_pred_down_closed sl K),
    List.filter_filter, List.filter_filter]
  apply List.filter_congr
  intro x _
  rw [Bool.and_comm]

theorem highPart_levelList {sl : SkipList} {m : List Nat} {K : List Nat}
    (hs : List.Pairwise (keyLt sl) m) (L : Nat) :
    highPart sl K (levelList sl m L) = levelList sl (highMaster sl K m) L := by
  unfold highPart levelList highMaster
  rw [dropWhile_eq_filter_pairwise (hs.filter _) (key_pred_down_closed sl K),
    dropWhile_eq_filter_pairwise hs (key_pred_down_closed sl K),
    List.filter_filter, List.filter_filter]
  apply List.filter_congr
  intro x _
  rw [Bool.and_comm]

theorem lowMaster_all_gt {sl : SkipList} {m : List Nat} {K : List Nat} :
    ∀ x ∈ lowMaster sl K m, 0 < compare_keys K (keyOf sl x) := by
  intro x hx
  have := mem_takeWhile_pred hx
  simpa using this

theorem highMaster_all_lt {sl : SkipList} {m : List Nat} {K : List Nat}
    (hs : List.Pairwise (keyLt sl) m)
    (hnone : ∀ x ∈ m, compare_keys K (keyOf sl x) ≠ 0) :
    ∀ x ∈ highMaster sl K m, compare_keys K (keyOf sl x) < 0 := by
  have hsub : ∀ x ∈ highMaster sl K m, x ∈ m := by
    intro x hx
    exact (List.dropWhile_sublist _).subset hx
  match hh : highMaster sl K m with
  | [] => intro x hx; simp at hx
  | h :: t =>
    have hhpred : ¬ (0 < compare_keys K (keyOf sl h)) := by
      have := dropWhile_head_false (p := fun a =>
        decide (0 < compare_keys K (keyOf sl a))) hh
      simpa using this
    have hhm : h ∈ m := hsub h (by rw [hh]; simp)
    have hhlt : compare_keys K (keyOf sl h) < 0 := by
      have := hnone h hhm
      omega
    intro x hx
    rcases List.mem_cons.mp hx with hx | hx
    · rw [hx]; exact hhlt
    · have hpair : List.Pairwise (keyLt sl) (h :: t) := by
        rw [← hh]
        exact hs.sublist (List.dropWhile_sublist _)
      have hlt : keyLt sl h x := (List.pairwise_cons.mp hpair).1 x hx
      unfold keyLt at hlt
      exact compare_keys_trans_lt hhlt hlt

/-! ### Decoding the arena value slice -/

/-- What `get_value` decodes from a freshly `put_value`d slice: the payload
comes back with one spurious trailing zero byte whenever `expires_at ≥ 1`,
because `size_varint` over-counts by one and the arena zero-fills the
over-allocated byte, which `decode_value` folds into the payload. -/
theorem decode_putValueSlice (v w : Value) (hexp : v.expires_at < 2 ^ 64) :
    w.decode_value (putValueSlice v) =
      { meta := v.meta,
        v := v.v ++ List.replicate (if v.expires_at = 0 then 0 else 1) 0,
        expires_at := v.expires_at, version := w.version } := by
  have hpad : v.encoded_size - (Value.encode_value v).length =
      (if v.expires_at = 0 then 0 else 1) := by
    unfold Value.encoded_size Value.encode_value
    rw [size_varint_eq]
    simp only [List.length_cons, List.length_append]
    by_cases h : v.expires_at = 0 <;> simp only [h, if_true, if_false] <;> omega
  have hshape : putValueSlice v =
      v.meta :: (encode_uvarint v.expires_at ++
        (v.v ++ List.replicate (if v.expires_at = 0 then 0 else 1) 0)) := by
    unfold putValueSlice
    rw [hpad]
    unfold Value.encode_value
    simp [List.append_assoc]
  rw [hshape]
  have hdec := decode_encode_uvarint v.expires_at
    (v.v ++ List.replicate (if v.expires_at = 0 then 0 else 1) 0) hexp
  simp only [Value.decode_value, List.headD_cons, List.tail_cons, hdec]
  have h1 : (1 + ((Int.ofNat (encode_uvarint v.expires_at).length)).toNat) =
      (encode_uvarint v.expires_at).length + 1 :=
    Nat.add_comm 1 _
  rw [h1, List.drop_succ_cons, List.drop_left]

/-! ### The linking loop -/

theorem linkLevels_succ (key : List Nat) (newId lh : Nat)
    (splices : List (Nat × Nat)) (rem i : Nat) (cur : SkipList) :
    linkLevels key newId lh splices (rem + 1) i cur =
      linkLevels key newId lh splices rem (i + 1)
        (setTower
          (setTower cur newId i
            (if i < lh then splices.getD i (0, 0)
             else if i = lh then (1, 0)
             else find_splice_for_level cur key 1 i).2)
          (if i < lh then splices.getD i (0, 0)
           else if i = lh then (1, 0)
           else find_splice_for_level cur key 1 i).1
          i newId) := rfl

theorem find_splice_of_null {sl : SkipList} {K : List Nat} {before L : Nat}
    (h : towerOf sl before L = 0) :
    find_splice_for_level sl K before L = (before, 0) := by
  show findSpliceGo sl K L (sl.nodes.length + 1) before = (before, 0)
  simp [findSpliceGo, h, getNode]

theorem linkLevels_frame (key : List Nat) (newId lh : Nat)
    (splices : List (Nat × Nat)) :
    ∀ (rem i : Nat) (cur : SkipList),
      (∀ x, keyOf (linkLevels key newId lh splices rem i cur) x = keyOf cur x) ∧
      (∀ x, heightOf (linkLevels key newId lh splices rem i cur) x
          = heightOf cur x) ∧
      (∀ x, valSliceOf (linkLevels key newId lh splices rem i cur) x
          = valSliceOf cur x) ∧
      (∀ x, towerLen (linkLevels key newId lh splices rem i cur) x
          = towerLen cur x) ∧
      (linkLevels key newId lh splices rem i cur).nodes.length
          = cur.nodes.length ∧
      (linkLevels key newId lh splices rem i cur).height = cur.height := by
  intro rem
  induction rem with
  | zero =>
    intro i cur
    exact ⟨fun x => rfl, fun x => rfl, fun x => rfl, fun x => rfl, rfl, rfl⟩
  | succ rem ih =>
    intro i cur
    rw [linkLevels_succ]
    refine ⟨fun x => ?_, fun x => ?_, fun x => ?_, fun x => ?_, ?_, ?_⟩
    · rw [(ih (i + 1) _).1 x, keyOf_setTower, keyOf_setTower]
    · rw [(ih (i + 1) _).2.1 x, heightOf_setTower, heightOf_setTower]
    · rw [(ih (i + 1) _).2.2.1 x, valSliceOf_setTower, valSliceOf_setTower]
    · rw [(ih (i + 1) _).2.2.2.1 x, towerLen_setTower, towerLen_setTower]
    · rw [(ih (i + 1) _).2.2.2.2.1, nodesLength_setTower, nodesLength_setTower]
    · rw [(ih (i + 1) _).2.2.2.2.2, height_setTower, height_setTower]

/-- The level-`L` chain after splicing the new node in. -/
def splicedLevel (sl : SkipList) (m : List Nat) (K : List Nat)
    (newId L : Nat) : List Nat :=
  lowPart sl K (levelList sl m L) ++ newId :: highPart sl K (levelList sl m L)

/-- Running the linking loop from level `i` with `rem = hR - i` levels to go
keeps every already-linked level's spliced chain, splices every remaining
level below `hR`, and leaves the chains at `hR` and above untouched. -/
theorem linkLevels_spec {sl : SkipList} {m : List Nat} (inv : Inv sl m)
    {K : List Nat} (hR : Nat) (hRM : hR ≤ MAX_HEIGHT) :
    ∀ (rem i : Nat) (cur : SkipList),
      i + rem = hR →
      cur.nodes.length = sl.nodes.length + 1 →
      (∀ x, 1 ≤ x → x ≤ sl.nodes.length + 1 → towerLen cur x = MAX_HEIGHT) →
      (∀ L, L < i →
        IsChain cur L 1 (splicedLevel sl m K (sl.nodes.length + 1) L)) →
      (∀ L, i ≤ L → L < MAX_HEIGHT → IsChain cur L 1 (levelList sl m L)) →
      (∀ L, i ≤ L → L < MAX_HEIGHT →
        towerOf cur (sl.nodes.length + 1) L = 0) →
      (∀ L, L < hR →
        IsChain
          (linkLevels K (sl.nodes.length + 1) sl.height
            (spliceList sl m K sl.height) rem i cur)
          L 1 (splicedLevel sl m K (sl.nodes.length + 1) L)) ∧
      (∀ L, hR ≤ L → L < MAX_HEIGHT →
        IsChain
          (linkLevels K (sl.nodes.length + 1) sl.height
            (spliceList sl m K sl.height) rem i cur)
          L 1 (levelList sl m L)) := by
  intro rem
  induction rem with
  | zero =>
    intro i cur h_ir hlen htl hnewc holdc hnewt
    constructor
    · intro L hL
      exact hnewc L (by omega)
    · intro L hL1 hL2
      exact holdc L (by omega) hL2
  | succ rem ih =>
    intro i cur h_ir hlen htl hnewc holdc hnewt
    have hiR : i < hR := by omega
    have hiM : i < MAX_HEIGHT := by
      unfold MAX_HEIGHT at hRM ⊢
      omega
    have hn1 : 1 ≤ sl.nodes.length := inv.head_len
    have hpn : (if i < sl.height then (spliceList sl m K sl.height).getD i (0, 0)
        else if i = sl.height then ((1 : Nat), (0 : Nat))
        else find_splice_for_level cur K 1 i)
        = (prevAt sl m K i, nextAt sl m K i) := by
      by_cases hilh : i < sl.height
      · rw [if_pos hilh]
        exact spliceList_getD sl m K sl.height i hilh
      · have hempty : levelList sl m i = [] := by
          apply List.filter_eq_nil_iff.mpr
          intro x hx
          have := (inv.hbound x hx).2
          simp only [decide_eq_true_eq]
          omega
        have hPi : prevAt sl m K i = 1 := by
          unfold prevAt lowPart
          rw [hempty]
          rfl
        have hNi : nextAt sl m K i = 0 := by
          unfold nextAt highPart
          rw [hempty]
          rfl
        rw [if_neg hilh]
        by_cases heq : i = sl.height
        · rw [if_pos heq, hPi, hNi]
        · rw [if_neg heq]
          have hch := holdc i (le_refl i) hiM
          rw [hempty] at hch
          have h0 : towerOf cur 1 i = 0 := hch
          rw [hPi, hNi]
          exact find_splice_of_null h0
    rw [linkLevels_succ, hpn]
    have hnewId_nm : ∀ x ∈ levelList sl m i, x ≠ sl.nodes.length + 1 := by
      intro x hx
      have := ((inv.mem x).mp (levelList_mem.mp hx).1).2
      omega
    have hP_cases : prevAt sl m K i = 1 ∨ (prevAt sl m K i ∈ levelList sl m i ∧
        0 < compare_keys K (keyOf sl (prevAt sl m K i))) := prevAt_inv
    have hP1 : 1 ≤ prevAt sl m K i := by
      rcases hP_cases with h | ⟨hmem, _⟩
      · omega
      · have := ((inv.mem _).mp (levelList_mem.mp hmem).1).1
        omega
    have hP2 : prevAt sl m K i ≤ sl.nodes.length := by
      rcases hP_cases with h | ⟨hmem, _⟩
      · omega
      · exact ((inv.mem _).mp (levelList_mem.mp hmem).1).2
    have hPneN : prevAt sl m K i ≠ sl.nodes.length + 1 := by omega
    have hframe2 : ∀ {L : Nat}, L ≠ i → ∀ (x : Nat),
        towerOf (setTower (setTower cur (sl.nodes.length + 1) i
            (nextAt sl m K i)) (prevAt sl m K i) i (sl.nodes.length + 1)) x L
          = towerOf cur x L := by
      intro L hne x
      rw [towerOf_setTower_ne (Or.inr hne), towerOf_setTower_ne (Or.inr hne)]
    refine ih (i + 1) _ (by omega) ?_ ?_ ?_ ?_ ?_
    · rw [nodesLength_setTower, nodesLength_setTower]
      exact hlen
    · intro x hx1 hx2
      rw [towerLen_setTower, towerLen_setTower]
      exact htl x hx1 hx2
    · intro L hL
      by_cases hLi : L < i
      · exact IsChain_congr (fun x _ => hframe2 (by omega) x) (hnewc L hLi)
      · have hLe : L = i := by omega
        subst hLe
        have hlowhigh : lowPart sl K (levelList sl m L) ++
            highPart sl K (levelList sl m L) = levelList sl m L := by
          unfold lowPart highPart
          exact List.takeWhile_append_dropWhile _ _
        have hch : IsChain cur L 1 (lowPart sl K (levelList sl m L) ++
            highPart sl K (levelList sl m L)) := by
          rw [hlowhigh]
          exact holdc L (le_refl L) hiM
        have hnd : (1 :: (lowPart sl K (levelList sl m L) ++
            highPart sl K (levelList sl m L))).Nodup := by
          rw [hlowhigh]
          refine List.nodup_cons.mpr ⟨?_, ?_⟩
          · intro hmem
            have := ((inv.mem 1).mp (levelList_mem.mp hmem).1).1
            omega
          · exact nodup_of_sorted (levelList_pairwise inv.sorted L)
        have hnotin : sl.nodes.length + 1 ∉
            1 :: (lowPart sl K (levelList sl m L) ++
              highPart sl K (levelList sl m L)) := by
          rw [hlowhigh]
          intro hmem
          rcases List.mem_cons.mp hmem with h | h
          · omega
          · exact hnewId_nm _ h rfl
        have hPg : (lowPart sl K (levelList sl m L)).getLastD 1
            = prevAt sl m K L := rfl
        exact IsChain_splice K (lowPart sl K (levelList sl m L))
          (highPart sl K (levelList sl m L)) 1 hch hnd hnotin
          (by omega) (by omega) (by rw [htl _ (by omega) (by omega)]; omega)
          (by rw [hPg]; omega) (by rw [hPg]; omega)
          (by rw [hPg, htl _ hP1 (by omega)]; omega)
    · intro L hL1 hL2
      exact IsChain_congr (fun x _ => hframe2 (by omega) x)
        (holdc L (by omega) hL2)
    · intro L hL1 hL2
      rw [hframe2 (by omega)]
      exact hnewt L (by omega) hL2

/-! ### Invariant: congruence, base case -/

theorem levelList_congr {sl sl' : SkipList} {m : List Nat} (L : Nat)
    (hh : ∀ x ∈ m, heightOf sl' x = heightOf sl x) :
    levelList sl' m L = levelList sl m L := by
  unfold levelList
  apply List.filter_congr
  intro x hx
  rw [hh x hx]

theorem Inv_congr {sl sl' : SkipList} {m : List Nat} (inv : Inv sl m)
    (hk : ∀ x, keyOf sl' x = keyOf sl x)
    (hh : ∀ x, heightOf sl' x = heightOf sl x)
    (ht : ∀ x L, towerOf sl' x L = towerOf sl x L)
    (htl : ∀ x, towerLen sl' x = towerLen sl x)
    (hlen : sl'.nodes.length = sl.nodes.length)
    (hht : sl'.height = sl.height) : Inv sl' m := by
  have hLL : ∀ L, levelList sl' m L = levelList sl m L := fun L =>
    levelList_congr L (fun x _ => hh x)
  refine ⟨?_, ?_, ?_, ?_, ?_, ?_, ?_, ?_, ?_, ?_⟩
  · rw [hlen]; exact inv.head_len
  · rw [hk]; exact inv.head_key
  · intro id
    rw [hlen]
    exact inv.mem id
  · rw [hlen]; exact inv.mlen
  · intro id hid1 hid2
    rw [htl]
    exact inv.tlen id hid1 (by omega)
  · intro id hid
    rw [hk]
    exact inv.klen id hid
  · intro id hid
    rw [hh, hht]
    exact inv.hbound id hid
  · rw [hht]; exact inv.lh_bound
  · exact inv.sorted.imp (fun {a b} hab => by
      unfold keyLt at hab ⊢
      rw [hk, hk]
      exact hab)
  · intro L hL
    rw [hLL]
    rw [SubChain_iff_IsChain]
    exact IsChain_congr (fun x _ => ht x L)
      (SubChain_iff_IsChain.mp (inv.chains L hL))

theorem newSkipList_inv : Inv newSkipList [] := by
  refine ⟨?_, ?_, ?_, ?_, ?_, ?_, ?_, ?_, ?_, ?_⟩
  · decide
  · decide
  · intro id
    constructor
    · intro h; cases h
    · intro ⟨h1, h2⟩
      simp only [newSkipList, List.length_cons, List.length_nil] at h2
      omega
  · decide
  · intro id h1 h2
    simp only [newSkipList, List.length_cons, List.length_nil] at h2
    have : id = 1 := by omega
    subst this
    decide
  · intro id hid; cases hid
  · intro id hid; cases hid
  · decide
  · exact List.Pairwise.nil
  · intro L hL
    constructor
    · show towerOf newSkipList 1 L = 0
      unfold towerOf getNode newSkipList headNode
      simp only [if_neg (by omega : ¬ (1 : Nat) = 0)]
      simp only [List.get?_eq_getElem?]
      rw [List.getElem?_eq_getElem (by simp)]
      simp only [Option.map_some', Option.getD_some, List.getElem_cons_zero]
      rw [List.getD_eq_getElem?_getD]
      rcases Nat.lt_or_ge L MAX_HEIGHT with h | h
      · rw [List.getElem?_eq_getElem (by simpa using h)]
        simp
      · rw [List.getElem?_eq_none_iff.mpr (by simpa using h)]
        rfl
    · intro k a hk
      simp [levelList] at hk

/-- The base level of the invariant's level lists is the whole master
list. -/
theorem levelList_zero {sl : SkipList} {m : List Nat} (inv : Inv sl m) :
    levelList sl m 0 = m := by
  unfold levelList
  apply List.filter_eq_self.mpr
  intro x hx
  have := (inv.hbound x hx).1
  simpa using this

/-! ### The key/value association tracked through adds -/

/-- The (key, stored value slice) association of a skiplist, in master-list
order. -/
def mListOf (sl : SkipList) (m : List Nat) : List (List Nat × List Nat) :=
  m.map fun id => (keyOf sl id, valSliceOf sl id)

/-- The sorted-association upsert that `add` implements: replace the value
of an exactly-equal key, else insert at the ordered position. -/
def assocUpsert (K : List Nat) (s : List Nat) :
    List (List Nat × List Nat) → List (List Nat × List Nat)
  | [] => [(K, s)]
  | (k, w) :: t =>
    if 0 < compare_keys K k then (k, w) :: assocUpsert K s t
    else if compare_keys K k = 0 then (k, s) :: t
    else (K, s) :: (k, w) :: t

theorem assocUpsert_insert (K : List Nat) (s : List Nat) :
    ∀ (low high : List (List Nat × List Nat)),
      (∀ p ∈ low, 0 < compare_keys K p.1) →
      (∀ p ∈ high.head?, compare_keys K p.1 < 0) →
      assocUpsert K s (low ++ high) = low ++ (K, s) :: high := by
  intro low
  induction low with
  | nil =>
    intro high hlow hhigh
    match high with
    | [] => rfl
    | (k, w) :: t =>
      have hk : compare_keys K k < 0 := hhigh (k, w) rfl
      simp only [List.nil_append, assocUpsert]
      rw [if_neg (by omega), if_neg (by omega)]
  | cons p low ih =>
    intro high hlow hhigh
    match p with
    | (k, w) =>
      have hk : 0 < compare_keys K k := hlow (k, w) (by simp)
      simp only [List.cons_append, assocUpsert]
      rw [if_pos hk]
      exact congrArg (List.cons (k, w))
        (ih high (fun q hq => hlow q (List.mem_cons_of_mem _ hq)) hhigh)

theorem getNode_oob {sl : SkipList} {id : Nat} (h : sl.nodes.length < id) :
    getNode sl id = none := by
  unfold getNode
  rw [if_neg (by omega)]
  rw [List.get?_eq_getElem?, List.getElem?_eq_none_iff]
  omega

/-- The `Value` that `SkipList::add` builds from an entry. -/
def entryValue (e : Entry) : Value :=
  { meta := e.meta, v := e.value, expires_at := e.expires_at,
    version := e.version }

theorem mListOf_setValSlice {sl : SkipList} {K slice : List Nat} {x : Nat} :
    ∀ {m : List Nat}, List.Pairwise (keyLt sl) m →
      (∀ id ∈ m, 1 ≤ id ∧ id ≤ sl.nodes.length) →
      (∀ id ∈ m, 8 < (keyOf sl id).length) → 8 < K.length →
      x ∈ m → compare_keys K (keyOf sl x) = 0 →
      mListOf (setValSlice sl x slice) m = assocUpsert K slice (mListOf sl m) := by
  intro m
  induction m with
  | nil => intro _ _ _ _ hx _; cases hx
  | cons a t ih =>
    intro hs hb hkl hK hx heq
    have hKeq : K = keyOf sl x :=
      (compare_keys_eq_zero_iff hK (hkl x hx)).mp heq
    by_cases hax : a = x
    · subst hax
      have hne : ∀ id ∈ t, id ≠ a := by
        intro id hid hc
        subst hc
        exact keyLt_irrefl sl id ((List.pairwise_cons.mp hs).1 id hid)
      simp only [mListOf, List.map_cons, assocUpsert]
      rw [if_neg (by omega), if_pos heq]
      refine congrArg₂ _ ?_ ?_
      · rw [keyOf_setValSlice,
          valSliceOf_setValSlice_self (hb a hx).1 (hb a hx).2]
      · apply List.map_congr_left
        intro id hid
        rw [keyOf_setValSlice, valSliceOf_setValSlice_ne (hne id hid)]
    · have hx' : x ∈ t := by
        rcases List.mem_cons.mp hx with h | h
        · exact absurd h.symm hax
        · exact h
      have halt : keyLt sl a x := (List.pairwise_cons.mp hs).1 x hx'
      have hgt : 0 < compare_keys K (keyOf sl a) := by
        rw [hKeq]
        unfold keyLt at halt
        have := compare_keys_swap (keyOf sl a) (keyOf sl x)
        omega
      simp only [mListOf, List.map_cons, assocUpsert]
      rw [if_pos hgt]
      refine congrArg₂ _ ?_ ?_
      · rw [keyOf_setValSlice, valSliceOf_setValSlice_ne hax]
      · exact ih hs.of_cons (fun id hid => hb id (List.mem_cons_of_mem a hid))
          (fun id hid => hkl id (List.mem_cons_of_mem a hid)) hK hx' heq

/-- Effect of the no-equal-key branch of `add`: the final linked state
satisfies the invariant on the master list with the new id inserted at its
sorted position, and the key/value association gains exactly the upsert. -/
theorem add_insert_spec {sl : SkipList} {m : List Nat} (inv : Inv sl m)
    (e : Entry) (hkey : 8 < e.key.length)
    (hnoneM : ∀ x ∈ m, compare_keys e.key (keyOf sl x) ≠ 0)
    (hR : Nat) (hR1 : 1 ≤ hR) (hR2 : hR ≤ MAX_HEIGHT)
    (fin : SkipList)
    (hfin : fin = linkLevels e.key (sl.nodes.length + 1) sl.height
      (spliceList sl m e.key sl.height) hR 0
      { (addNode sl e.key (entryValue e) hR).1 with
          height := max (addNode sl e.key (entryValue e) hR).1.height hR }) :
    Inv fin
      (lowMaster sl e.key m ++ (sl.nodes.length + 1) :: highMaster sl e.key m) ∧
    mListOf fin
        (lowMaster sl e.key m ++ (sl.nodes.length + 1) :: highMaster sl e.key m)
      = assocUpsert e.key (putValueSlice (entryValue e)) (mListOf sl m) := by
  have hn1 : 1 ≤ sl.nodes.length := inv.head_len
  have hfr := linkLevels_frame e.key (sl.nodes.length + 1) sl.height
    (spliceList sl m e.key sl.height) hR 0
    ({ (addNode sl e.key (entryValue e) hR).1 with
        height := max (addNode sl e.key (entryValue e) hR).1.height hR })
  rw [← hfin] at hfr
  obtain ⟨hfK, hfH, hfV, hfT, hfL, hfHt⟩ := hfr
  have hKold : ∀ y, y ≤ sl.nodes.length → keyOf fin y = keyOf sl y := by
    intro y hy
    rw [hfK y]
    exact keyOf_addNode_old hy
  have hKnew : keyOf fin (sl.nodes.length + 1) = e.key := by
    rw [hfK]
    exact keyOf_addNode_new
  have hHold : ∀ y, y ≤ sl.nodes.length → heightOf fin y = heightOf sl y := by
    intro y hy
    rw [hfH y]
    exact heightOf_addNode_old hy
  have hHnew : heightOf fin (sl.nodes.length + 1) = hR := by
    rw [hfH]
    exact heightOf_addNode_new
  have hVold : ∀ y, y ≤ sl.nodes.length → valSliceOf fin y = valSliceOf sl y := by
    intro y hy
    rw [hfV y]
    exact valSliceOf_addNode_old hy
  have hVnew : valSliceOf fin (sl.nodes.length + 1)
      = putValueSlice (entryValue e) := by
    rw [hfV]
    exact valSliceOf_addNode_new
  have hTall : ∀ y, 1 ≤ y → y ≤ sl.nodes.length + 1 →
      towerLen fin y = MAX_HEIGHT := by
    intro y h1 h2
    rw [hfT y]
    show towerLen (addNode sl e.key (entryValue e) hR).1 y = MAX_HEIGHT
    by_cases hy : y = sl.nodes.length + 1
    · subst hy
      exact towerLen_addNode_new
    · rw [towerLen_addNode_old (by omega)]
      exact inv.tlen y h1 (by omega)
  have hLen : fin.nodes.length = sl.nodes.length + 1 := by
    rw [hfL]
    exact addNode_nodes_length
  have hHt : fin.height = max sl.height hR := by
    rw [hfHt]
    show max (addNode sl e.key (entryValue e) hR).1.height hR = max sl.height hR
    rw [addNode_height]
  have hspec := linkLevels_spec inv (K := e.key) hR hR2 hR 0
    ({ (addNode sl e.key (entryValue e) hR).1 with
        height := max (addNode sl e.key (entryValue e) hR).1.height hR })
    (by omega)
    (by show (addNode sl e.key (entryValue e) hR).1.nodes.length = _
        exact addNode_nodes_length)
    (by intro x h1 h2
        show towerLen (addNode sl e.key (entryValue e) hR).1 x = MAX_HEIGHT
        by_cases hx : x = sl.nodes.length + 1
        · subst hx
          exact towerLen_addNode_new
        · rw [towerLen_addNode_old (by omega)]
          exact inv.tlen x h1 (by omega))
    (fun L hL => absurd hL (by omega))
    (by intro L hL0 hLM
        refine IsChain_congr ?_ (SubChain_iff_IsChain.mp (inv.chains L hLM))
        intro x hx
        have hxn : x ≤ sl.nodes.length := by
          rcases List.mem_cons.mp hx with h | h
          · omega
          · exact ((inv.mem x).mp (levelList_mem.mp h).1).2
        exact towerOf_addNode_old hxn)
    (by intro L hL0 hLM
        exact towerOf_addNode_new)
  rw [← hfin] at hspec
  obtain ⟨hchN, hchO⟩ := hspec
  have hmem_low : ∀ a ∈ lowMaster sl e.key m, a ∈ m := fun a ha =>
    takeWhile_mem_sub ha
  have hmem_high : ∀ a ∈ highMaster sl e.key m, a ∈ m := fun a ha =>
    (List.dropWhile_sublist _).subset ha
  have hbnd : ∀ a ∈ m, 2 ≤ a ∧ a ≤ sl.nodes.length := fun a ha =>
    (inv.mem a).mp ha
  have hm_split : m = lowMaster sl e.key m ++ highMaster sl e.key m :=
    (lowMaster_append_highMaster sl e.key m).symm
  have hLLfin : ∀ L, levelList fin
      (lowMaster sl e.key m ++ (sl.nodes.length + 1) :: highMaster sl e.key m) L
      = if L < hR then splicedLevel sl m e.key (sl.nodes.length + 1) L
        else levelList sl m L := by
    intro L
    show (lowMaster sl e.key m ++
        (sl.nodes.length + 1) :: highMaster sl e.key m).filter
          (fun id => decide (L < heightOf fin id)) = _
    rw [List.filter_append]
    have h1 : (lowMaster sl e.key m).filter
        (fun id => decide (L < heightOf fin id))
        = levelList sl (lowMaster sl e.key m) L := by
      apply List.filter_congr
      intro x hx
      rw [hHold x (hbnd x (hmem_low x hx)).2]
    have h2 : (highMaster sl e.key m).filter
        (fun id => decide (L < heightOf fin id))
        = levelList sl (highMaster sl e.key m) L := by
      apply List.filter_congr
      intro x hx
      rw [hHold x (hbnd x (hmem_high x hx)).2]
    have h3 : ((sl.nodes.length + 1) :: highMaster sl e.key m).filter
        (fun id => decide (L < heightOf fin id))
        = (if L < hR then [sl.nodes.length + 1] else []) ++
          (highMaster sl e.key m).filter
            (fun id => decide (L < heightOf fin id)) := by
      rw [List.filter_cons]
      by_cases hL : L < hR
      · rw [if_pos (by simp [hHnew, hL]), if_pos hL]
        rfl
      · rw [if_neg (by simp [hHnew, hL]), if_neg hL]
        rfl
    rw [h1, h3, h2]
    by_cases hL : L < hR
    · rw [if_pos hL, if_pos hL]
      unfold splicedLevel
      rw [lowPart_levelList inv.sorted, highPart_levelList inv.sorted]
      rfl
    · rw [if_neg hL, if_neg hL]
      simp only [List.nil_append]
      unfold levelList
      rw [← List.filter_append, lowMaster_append_highMaster]
  have hlh := List.pairwise_append.mp (hm_split ▸ inv.sorted)
  constructor
  · refine ⟨?_, ?_, ?_, ?_, ?_, ?_, ?_, ?_, ?_, ?_⟩
    · rw [hLen]; omega
    · rw [hKold 1 hn1]; exact inv.head_key
    · intro id
      rw [hLen]
      constructor
      · intro hid
        rcases List.mem_append.mp hid with h | h
        · have := hbnd id (hmem_low id h)
          omega
        · rcases List.mem_cons.mp h with h | h
          · omega
          · have := hbnd id (hmem_high id h)
            omega
      · rintro ⟨h2, h3⟩
        by_cases hid : id = sl.nodes.length + 1
        · subst hid
          exact List.mem_append_right _ (List.mem_cons_self _ _)
        · have hidm : id ∈ m := (inv.mem id).mpr ⟨h2, by omega⟩
          rw [hm_split] at hidm
          rcases List.mem_append.mp hidm with h | h
          · exact List.mem_append_left _ h
          · exact List.mem_append_right _ (List.mem_cons_of_mem _ h)
    · rw [hLen, List.length_append, List.length_cons]
      have hml := inv.mlen
      have := congrArg List.length hm_split
      rw [List.length_append] at this
      omega
    · intro id h1 h2
      rw [hLen] at h2
      exact hTall id h1 h2
    · intro id hid
      rcases List.mem_append.mp hid with h | h
      · rw [hKold id (hbnd id (hmem_low id h)).2]
        exact inv.klen id (hmem_low id h)
      · rcases List.mem_cons.mp h with h | h
        · rw [h, hKnew]
          exact hkey
        · rw [hKold id (hbnd id (hmem_high id h)).2]
          exact inv.klen id (hmem_high id h)
    · intro id hid
      rw [hHt]
      rcases List.mem_append.mp hid with h | h
      · rw [hHold id (hbnd id (hmem_low id h)).2]
        have := inv.hbound id (hmem_low id h)
        exact ⟨this.1, le_trans this.2 (le_max_left _ _)⟩
      · rcases List.mem_cons.mp h with h | h
        · rw [h, hHnew]
          exact ⟨hR1, le_max_right _ _⟩
        · rw [hHold id (hbnd id (hmem_high id h)).2]
          have := inv.hbound id (hmem_high id h)
          exact ⟨this.1, le_trans this.2 (le_max_left _ _)⟩
    · rw [hHt]
      exact ⟨le_trans inv.lh_bound.1 (le_max_left _ _),
        max_le inv.lh_bound.2 hR2⟩
    · apply List.pairwise_append.mpr
      refine ⟨?_, ?_, ?_⟩
      · refine List.Pairwise.imp_of_mem ?_ hlh.1
        intro a b ha hb hr
        unfold keyLt at hr ⊢
        rw [hKold a (hbnd a (hmem_low a ha)).2,
          hKold b (hbnd b (hmem_low b hb)).2]
        exact hr
      · apply List.pairwise_cons.mpr
        refine ⟨?_, ?_⟩
        · intro b hb
          unfold keyLt
          rw [hKnew, hKold b (hbnd b (hmem_high b hb)).2]
          exact highMaster_all_lt inv.sorted hnoneM b hb
        · refine List.Pairwise.imp_of_mem ?_ hlh.2.1
          intro a b ha hb hr
          unfold keyLt at hr ⊢
          rw [hKold a (hbnd a (hmem_high a ha)).2,
            hKold b (hbnd b (hmem_high b hb)).2]
          exact hr
      · intro a ha b hb
        rcases List.mem_cons.mp hb with hb | hb
        · subst hb
          unfold keyLt
          rw [hKnew, hKold a (hbnd a (hmem_low a ha)).2]
          have h1 := lowMaster_all_gt a ha
          have h2 := compare_keys_swap (keyOf sl a) e.key
          omega
        · unfold keyLt
          rw [hKold a (hbnd a (hmem_low a ha)).2,
            hKold b (hbnd b (hmem_high b hb)).2]
          exact hlh.2.2 a ha b hb
    · intro L hLM
      rw [SubChain_iff_IsChain, hLLfin L]
      by_cases hL : L < hR
      · rw [if_pos hL]
        exact hchN L hL
      · rw [if_neg hL]
        exact hchO L (by omega) hLM
  · show (lowMaster sl e.key m ++
        (sl.nodes.length + 1) :: highMaster sl e.key m).map
          (fun id => (keyOf fin id, valSliceOf fin id)) = _
    rw [List.map_append, List.map_cons]
    have hmap_low : (lowMaster sl e.key m).map
        (fun id => (keyOf fin id, valSliceOf fin id))
        = (lowMaster sl e.key m).map
          (fun id => (keyOf sl id, valSliceOf sl id)) := by
      apply List.map_congr_left
      intro x hx
      rw [hKold x (hbnd x (hmem_low x hx)).2,
        hVold x (hbnd x (hmem_low x hx)).2]
    have hmap_high : (highMaster sl e.key m).map
        (fun id => (keyOf fin id, valSliceOf fin id))
        = (highMaster sl e.key m).map
          (fun id => (keyOf sl id, valSliceOf sl id)) := by
      apply List.map_congr_left
      intro x hx
      rw [hKold x (hbnd x (hmem_high x hx)).2,
        hVold x (hbnd x (hmem_high x hx)).2]
    rw [hmap_low, hmap_high, hKnew, hVnew]
    rw [← assocUpsert_insert e.key (putValueSlice (entryValue e))
      ((lowMaster sl e.key m).map (fun id => (keyOf sl id, valSliceOf sl id)))
      ((highMaster sl e.key m).map (fun id => (keyOf sl id, valSliceOf sl id)))
      ?_ ?_]
    · rw [← List.map_append, lowMaster_append_highMaster]
      rfl
    · intro p hp
      obtain ⟨a, ha, rfl⟩ := List.mem_map.mp hp
      exact lowMaster_all_gt a ha
    · intro p hp
      rw [List.head?_map] at hp
      obtain ⟨a, ha2, rfl⟩ := Option.map_eq_some'.mp hp
      exact highMaster_all_lt inv.sorted hnoneM a (List.mem_of_mem_head? ha2)

/-- `SkipList::add` preserves the invariant and performs exactly the sorted
upsert on the key/value association. -/
theorem add_spec {sl : SkipList} {m : List Nat} (inv : Inv sl m) (e : Entry)
    (hkey : 8 < e.key.length) (hR : Nat) (hR1 : 1 ≤ hR)
    (hR2 : hR ≤ MAX_HEIGHT) :
    ∃ m', Inv (sl.add e hR) m' ∧
      mListOf (sl.add e hR) m' =
        assocUpsert e.key (putValueSlice (entryValue e)) (mListOf sl m) := by
  have hdesc := descendLoop_spec inv (K := e.key) sl.height 1 (le_refl _)
    (Or.inl rfl)
  rcases hdesc with ⟨x, hxm, hxeq, hres⟩ | ⟨hnone, hres⟩
  · have hadd : sl.add e hR
        = setValSlice sl x (putValueSlice (entryValue e)) := by
      simp only [SkipList.add, hres]
      rfl
    refine ⟨m, ?_, ?_⟩
    · rw [hadd]
      exact Inv_congr inv (fun y => keyOf_setValSlice)
        (fun y => heightOf_setValSlice) (fun y L => towerOf_setValSlice)
        (fun y => towerLen_setValSlice) nodesLength_setValSlice
        height_setValSlice
    · rw [hadd]
      exact mListOf_setValSlice inv.sorted
        (fun id hid => ⟨by have := (inv.mem id).mp hid; omega,
          ((inv.mem id).mp hid).2⟩)
        (fun id hid => inv.klen id hid) hkey hxm hxeq
  · have hadd : sl.add e hR = linkLevels e.key (sl.nodes.length + 1) sl.height
        (spliceList sl m e.key sl.height) hR 0
        { (addNode sl e.key (entryValue e) hR).1 with
            height := max (addNode sl e.key (entryValue e) hR).1.height hR } := by
      simp only [SkipList.add, hres]
      rfl
    have hnoneM : ∀ x ∈ m, compare_keys e.key (keyOf sl x) ≠ 0 := by
      intro x hx
      exact hnone 0 inv.lh_bound.1 x (by rw [levelList_zero inv]; exact hx)
    obtain ⟨hinv, hml⟩ := add_insert_spec inv e hkey hnoneM hR hR1 hR2 _ hadd
    exact ⟨_, hinv, hml⟩

/-- The association built by a sequence of adds, as slices. -/
def buildSlices (ops : List (Entry × Nat)) : List (List Nat × List Nat) :=
  ops.foldl (fun md p =>
    assocUpsert p.1.key (putValueSlice (entryValue p.1)) md) []

theorem addEntries_fold {sl : SkipList} {m : List Nat} (inv : Inv sl m) :
    ∀ (ops : List (Entry × Nat)),
      (∀ p ∈ ops, 8 < p.1.key.length ∧ 1 ≤ p.2 ∧ p.2 ≤ MAX_HEIGHT) →
      ∃ m', Inv (addEntries sl ops) m' ∧
        mListOf (addEntries sl ops) m' =
          ops.foldl (fun md p =>
            assocUpsert p.1.key (putValueSlice (entryValue p.1)) md)
            (mListOf sl m) := by
  intro ops
  induction ops generalizing sl m with
  | nil =>
    intro _
    exact ⟨m, inv, rfl⟩
  | cons p t ih =>
    intro hops
    obtain ⟨hk, h1, h2⟩ := hops p (List.mem_cons_self p t)
    obtain ⟨m1, hinv1, hml1⟩ := add_spec inv p.1 hk p.2 h1 h2
    obtain ⟨m', hinv', hml'⟩ := ih hinv1
      (fun q hq => hops q (List.mem_cons_of_mem p hq))
    refine ⟨m', hinv', ?_⟩
    show mListOf (addEntries (sl.add p.1 p.2) t) m' = _
    rw [hml', hml1]
    rfl

theorem addEntries_spec (ops : List (Entry × Nat))
    (hops : ∀ p ∈ ops, 8 < p.1.key.length ∧ 1 ≤ p.2 ∧ p.2 ≤ MAX_HEIGHT) :
    ∃ m, Inv (addEntries newSkipList ops) m ∧
      mListOf (addEntries newSkipList ops) m = buildSlices ops := by
  obtain ⟨m, hinv, hml⟩ := addEntries_fold newSkipList_inv ops hops
  exact ⟨m, hinv, hml⟩

/-! ### `find_near` with `less = false`, `allow_equal = true` -/

/-- One level of the `find_near` loop along a chain `s`: either it returns
the node with an equal key, or it walks to the last chain member below the
key and then descends (level > 0) or answers (level 0). -/
theorem findNearGo_walk (sl : SkipList) (K : List Nat) (L : Nat) :
    ∀ (s : List Nat) (p fuel : Nat), s.length < fuel →
      IsChain sl L p s →
      (∀ a ∈ s, a ≠ 0 ∧ (getNode sl a).isSome) →
      List.Pairwise (keyLt sl) s →
      (∃ a ∈ s, compare_keys K (keyOf sl a) = 0 ∧
        findNearGo sl K false true fuel p L = (some a, true)) ∨
      ((∀ a ∈ s, compare_keys K (keyOf sl a) ≠ 0) ∧
        ∃ f2, f2 + (lowPart sl K s).length + 1 = fuel ∧
          (if 0 < L then
            findNearGo sl K false true fuel p L =
              findNearGo sl K false true f2 ((lowPart sl K s).getLastD p)
                (L - 1)
           else
            findNearGo sl K false true fuel p L =
              (match highPart sl K s with
               | [] => (none, false)
               | b :: _ => (some b, false)))) := by
  intro s
  induction s with
  | nil =>
    intro p fuel hfuel hch hval hpair
    match fuel with
    | f + 1 =>
      have h0 : towerOf sl p L = 0 := hch
      right
      refine ⟨by simp, f, by simp [lowPart], ?_⟩
      have hstep : findNearGo sl K false true (f + 1) p L =
          (if 0 < L then findNearGo sl K false true f p (L - 1)
           else (none, false)) := by
        simp [findNearGo, h0, getNode]
      by_cases hL : 0 < L
      · rw [if_pos hL, hstep, if_pos hL]
        rfl
      · rw [if_neg hL, hstep, if_neg hL]
        rfl
  | cons a s ih =>
    intro p fuel hfuel hch hval hpair
    match fuel with
    | f + 1 =>
      have hnext : towerOf sl p L = a := hch.1
      obtain ⟨ha0, hasome⟩ := hval a (List.mem_cons_self a s)
      obtain ⟨nn, hnn⟩ := Option.isSome_iff_exists.mp hasome
      have hkey : keyOf sl a = nn.key := by
        unfold keyOf
        rw [hnn]
        rfl
      have hstep : findNearGo sl K false true (f + 1) p L =
          (if 0 < compare_keys K nn.key then findNearGo sl K false true f a L
           else if compare_keys K nn.key = 0 then (some a, true)
           else if 0 < L then findNearGo sl K false true f p (L - 1)
                else (some a, false)) := by
        simp [findNearGo, hnext, hnn]
      rcases compare_keys_cases K (keyOf sl a) with hc | hc | hc
      · -- K below a: stop here
        have hc1 : ¬ 0 < compare_keys K nn.key := by rw [← hkey]; omega
        have hc2 : compare_keys K nn.key = 0 → False := by rw [← hkey]; omega
        right
        have hnone : ∀ x ∈ a :: s, compare_keys K (keyOf sl x) ≠ 0 := by
          intro x hx
          rcases List.mem_cons.mp hx with hx | hx
          · rw [hx]; omega
          · have hax : keyLt sl a x := (List.pairwise_cons.mp hpair).1 x hx
            unfold keyLt at hax
            have := compare_keys_trans_lt (show compare_keys K (keyOf sl a) < 0
              by omega) hax
            omega
        have hcond : (fun y => decide (0 < compare_keys K (keyOf sl y))) a
            = false := by
          simp only [decide_eq_false_iff_not]
          omega
        have hlow : lowPart sl K (a :: s) = [] := by
          unfold lowPart
          rw [List.takeWhile_cons, if_neg (by simp [hcond])]
        have hhigh : highPart sl K (a :: s) = a :: s := by
          unfold highPart
          rw [List.dropWhile_cons, if_neg (by simp [hcond])]
        refine ⟨hnone, f, by rw [hlow]; rfl, ?_⟩
        by_cases hL : 0 < L
        · rw [if_pos hL, hstep, if_neg hc1,
            if_neg (fun h => hc2 h), if_pos hL, hlow]
          rfl
        · rw [if_neg hL, hstep, if_neg hc1,
            if_neg (fun h => hc2 h), if_neg hL, hhigh]
      · -- equal key at the front
        left
        have hc1 : ¬ 0 < compare_keys K nn.key := by rw [← hkey]; omega
        have hc2 : compare_keys K nn.key = 0 := by rw [← hkey]; exact hc
        exact ⟨a, List.mem_cons_self a s, hc,
          by rw [hstep, if_neg hc1, if_pos hc2]⟩
      · -- K above a: move right
        have hc1 : 0 < compare_keys K nn.key := by rw [← hkey]; omega
        have hres : findNearGo sl K false true (f + 1) p L =
            findNearGo sl K false true f a L := by
          rw [hstep, if_pos hc1]
        have hcond : (fun y => decide (0 < compare_keys K (keyOf sl y))) a
            = true := by
          simp only [decide_eq_true_eq]
          omega
        have hlow : lowPart sl K (a :: s) = a :: lowPart sl K s := by
          unfold lowPart
          rw [List.takeWhile_cons, if_pos (by simp [hcond])]
        have hhigh : highPart sl K (a :: s) = highPart sl K s := by
          unfold highPart
          rw [List.dropWhile_cons, if_pos (by simp [hcond])]
        rcases ih a f (by simpa using Nat.lt_of_succ_lt_succ hfuel) hch.2
            (fun x hx => hval x (List.mem_cons_of_mem a hx)) hpair.of_cons with
          ⟨x, hxmem, hxeq, hres2⟩ | ⟨hnone2, f2, hf2, hres2⟩
        · left
          exact ⟨x, List.mem_cons_of_mem a hxmem, hxeq, by rw [hres, hres2]⟩
        · right
          refine ⟨?_, f2, ?_, ?_⟩
          · intro x hx
            rcases List.mem_cons.mp hx with hx | hx
            · rw [hx]; omega
            · exact hnone2 x hx
          · rw [hlow]
            simp only [List.length_cons]
            omega
          · rw [hlow]
            by_cases hL : 0 < L
            · rw [if_pos hL, hres]
              rw [if_pos hL] at hres2
              rw [hres2, getLastD_cons_eq]
            · rw [if_neg hL, hres]
              rw [if_neg hL] at hres2
              rw [hres2, hhigh]

/-- The chain hanging off a valid walk position `p` at level `L`: the
remaining suffix of the level list, with the data the walk lemma needs. -/
theorem chain_suffix {sl : SkipList} {m : List Nat} (inv : Inv sl m)
    {K : List Nat} {L p : Nat} (hL : L < MAX_HEIGHT)
    (hp : p = 1 ∨ (p ∈ levelList sl m L ∧ 0 < compare_keys K (keyOf sl p))) :
    ∃ s, IsChain sl L p s ∧
      (∀ a ∈ s, a ≠ 0 ∧ (getNode sl a).isSome) ∧
      List.Pairwise (keyLt sl) s ∧
      s.length ≤ (levelList sl m L).length ∧
      (∀ x ∈ s, x ∈ levelList sl m L) ∧
      (lowPart sl K s).getLastD p = prevAt sl m K L ∧
      highPart sl K s = highPart sl K (levelList sl m L) := by
  have hval : ∀ a ∈ levelList sl m L, a ≠ 0 ∧ (getNode sl a).isSome := by
    intro a ha
    have := (inv.mem a).mp (levelList_mem.mp ha).1
    exact ⟨by omega, getNode_isSome (by omega) this.2⟩
  have hpairL := levelList_pairwise inv.sorted L
  rcases hp with hp | ⟨hpmem, hplt⟩
  · subst hp
    exact ⟨levelList sl m L,
      SubChain_iff_IsChain.mp (inv.chains L hL), hval, hpairL, le_refl _,
      fun x hx => hx, rfl, rfl⟩
  · obtain ⟨l1, l2, hsplit, hbelow, habove⟩ :=
      pairwise_append_split hpairL hpmem
    have hget : (levelList sl m L).get? l1.length = some p := by
      rw [hsplit]
      rw [List.get?_eq_getElem?, List.getElem?_append_right (le_refl _)]
      simp
    have hdrop : (levelList sl m L).drop (l1.length + 1) = l2 := by
      rw [hsplit]
      rw [List.drop_append_eq_append_drop]
      simp
    have hsub2 : IsChain sl L p l2 := by
      have := SubChain_drop (inv.chains L hL) hget
      rw [hdrop] at this
      exact SubChain_iff_IsChain.mp this
    have hval2 : ∀ a ∈ l2, a ≠ 0 ∧ (getNode sl a).isSome := by
      intro a ha
      exact hval a (by rw [hsplit]; simp [ha])
    have hpair2 : List.Pairwise (keyLt sl) l2 := by
      rw [hsplit] at hpairL
      exact (List.pairwise_cons.mp (List.pairwise_append.mp hpairL).2.1).2
    have hlen2 : l2.length ≤ (levelList sl m L).length := by
      rw [hsplit]
      simp
      omega
    have hprefix_pos : ∀ y ∈ l1, (fun a =>
        decide (0 < compare_keys K (keyOf sl a))) y = true := by
      intro y hy
      simp only [decide_eq_true_eq]
      have h1 : keyLt sl y p := hbelow y hy
      unfold keyLt at h1
      have h2 : compare_keys (keyOf sl p) K < 0 := by
        have := compare_keys_swap (keyOf sl p) K
        omega
      have := compare_keys_trans_lt h1 h2
      have hsw := compare_keys_swap K (keyOf sl y)
      omega
    have hp_pos : (fun a => decide (0 < compare_keys K (keyOf sl a))) p
        = true := by
      simp only [decide_eq_true_eq]
      exact hplt
    refine ⟨l2, hsub2, hval2, hpair2, hlen2,
      fun x hx => by rw [hsplit]; simp [hx], ?_, ?_⟩
    · unfold prevAt lowPart
      rw [hsplit, takeWhile_append_cons_pos l1 p l2 hprefix_pos hp_pos,
        getLastD_append_cons]
    · unfold highPart
      rw [hsplit, dropWhile_append_cons_pos l1 p l2 hprefix_pos hp_pos]

/-- A member with an exactly-equal key is the head of the at-or-above part
of the (sorted) master list. -/
theorem highMaster_head_of_eq {sl : SkipList} {m : List Nat} (inv : Inv sl m)
    {K : List Nat} (hK8 : 8 < K.length) {a : Nat} (ha : a ∈ m)
    (heq : compare_keys K (keyOf sl a) = 0) :
    ∃ t, highMaster sl K m = a :: t := by
  have hKa : K = keyOf sl a :=
    (compare_keys_eq_zero_iff hK8 (inv.klen a ha)).mp heq
  have hm_split : m = lowMaster sl K m ++ highMaster sl K m :=
    (lowMaster_append_highMaster sl K m).symm
  have haHigh : a ∈ highMaster sl K m := by
    have ham := ha
    rw [hm_split] at ham
    rcases List.mem_append.mp ham with h | h
    · have := lowMaster_all_gt a h
      omega
    · exact h
  match hh : highMaster sl K m with
  | [] => rw [hh] at haHigh; cases haHigh
  | b :: t =>
    refine ⟨t, ?_⟩
    by_cases hab : b = a
    · rw [hab]
    · exfalso
      rw [hh] at haHigh
      have hat : a ∈ t := by
        rcases List.mem_cons.mp haHigh with h | h
        · exact absurd h.symm hab
        · exact h
      have hpair : List.Pairwise (keyLt sl) (b :: t) := by
        rw [← hh]
        exact inv.sorted.sublist (List.dropWhile_sublist _)
      have hba : keyLt sl b a := (List.pairwise_cons.mp hpair).1 a hat
      unfold keyLt at hba
      rw [← hKa] at hba
      have hb_false := dropWhile_head_false
        (p := fun x => decide (0 < compare_keys K (keyOf sl x))) hh
      simp only [decide_eq_false_iff_not] at hb_false
      have := compare_keys_swap K (keyOf sl b)
      omega

/-- The descent of `find_near(K, false, true)`: from any valid position it
lands on the first at-or-above member of the master list. -/
theorem findNearGo_descend {sl : SkipList} {m : List Nat} (inv : Inv sl m)
    {K : List Nat} (hK8 : 8 < K.length) :
    ∀ (L : Nat), L < sl.height → ∀ (p fuel : Nat),
      (p = 1 ∨ (p ∈ levelList sl m L ∧ 0 < compare_keys K (keyOf sl p))) →
      (L + 1) * (sl.nodes.length + 1) ≤ fuel →
      findNearGo sl K false true fuel p L =
        (match highMaster sl K m with
         | [] => (none, false)
         | b :: _ => (some b, decide (compare_keys K (keyOf sl b) = 0))) := by
  intro L
  induction L using Nat.strong_induction_on with
  | _ L ihL =>
    intro hLh p fuel hp hfuel
    have hLM : L < MAX_HEIGHT := by
      have := inv.lh_bound.2
      omega
    obtain ⟨s, hch, hval, hpair, hslen, hsmem, hlast, hhigh⟩ :=
      chain_suffix inv hLM hp
    have hmlen := inv.mlen
    have hLLlen : (levelList sl m L).length ≤ m.length := levelList_length_le L
    have hexp : (L + 1) * (sl.nodes.length + 1)
        = L * (sl.nodes.length + 1) + (sl.nodes.length + 1) := by ring
    have hfuel2 : s.length < fuel := by omega
    rcases findNearGo_walk sl K L s p fuel hfuel2 hch hval hpair with
      ⟨a, hamem, haeq, hres⟩ | ⟨hnone, f2, hf2, hres⟩
    · rw [hres]
      have haM : a ∈ m := (levelList_mem.mp (hsmem a hamem)).1
      obtain ⟨t, hht⟩ := highMaster_head_of_eq inv hK8 haM haeq
      rw [hht]
      simp [haeq]
    · have hlowlen : (lowPart sl K s).length ≤ s.length := by
        unfold lowPart
        exact (List.takeWhile_sublist _).length_le
      by_cases hL0 : 0 < L
      · rw [if_pos hL0] at hres
        rw [hres, hlast]
        have hLsub : L - 1 + 1 = L := by omega
        refine ihL (L - 1) (by omega) (by omega) (prevAt sl m K L) f2 ?_ ?_
        · have hpi : prevAt sl m K L = 1 ∨ (prevAt sl m K L ∈ levelList sl m L
              ∧ 0 < compare_keys K (keyOf sl (prevAt sl m K L))) := prevAt_inv
          rcases hpi with h | ⟨hmm, hlt⟩
          · exact Or.inl h
          · exact Or.inr ⟨levelList_mono (by omega) hmm, hlt⟩
        · rw [hLsub]
          omega
      · have hL0' : L = 0 := by omega
        rw [if_neg hL0] at hres
        rw [hres]
        subst hL0'
        have hh0 : highPart sl K (levelList sl m 0) = highMaster sl K m := by
          rw [levelList_zero inv]
          rfl
        rw [hhigh, hh0]
        match hhm : highMaster sl K m with
        | [] => rfl
        | b :: t =>
          have hbs : b ∈ s := by
            have : b ∈ highPart sl K s := by
              rw [hhigh, hh0, hhm]
              simp
            unfold highPart at this
            exact (List.dropWhile_sublist _).subset this
          have := hnone b hbs
          simp [this]

theorem find_near_result {sl : SkipList} {m : List Nat} (inv : Inv sl m)
    {K : List Nat} (hK8 : 8 < K.length) :
    sl.find_near K false true =
      (match highMaster sl K m with
       | [] => (none, false)
       | b :: _ => (some b, decide (compare_keys K (keyOf sl b) = 0))) := by
  unfold SkipList.find_near
  have hh1 : sl.height - 1 + 1 = sl.height := by
    have := inv.lh_bound.1
    omega
  apply findNearGo_descend inv hK8 (sl.height - 1)
    (by have := inv.lh_bound.1; omega) 1 _ (Or.inl rfl)
  rw [hh1, Nat.mul_comm]
  apply Nat.mul_le_mul_left
  have := inv.lh_bound.2
  unfold MAX_HEIGHT at this ⊢
  omega

theorem search_spec {sl : SkipList} {m : List Nat} (inv : Inv sl m)
    {K : List Nat} (hK8 : 8 < K.length) :
    sl.search K =
      (match highMaster sl K m with
       | [] => Value.defaultVal
       | b :: _ =>
         if same_key K (keyOf sl b)
         then Value.defaultVal.decode_value (valSliceOf sl b)
         else Value.defaultVal) := by
  unfold SkipList.search
  rw [find_near_result inv hK8]
  cases hM : highMaster sl K m with
  | nil => rfl
  | cons b t =>
    by_cases hsk : same_key K (keyOf sl b) <;> simp [hsk]

/-! ### The sequential model of adds and search -/

/-- The spec-level map the skiplist should implement: a sorted association
from full keys to the most recently added `Value`. -/
def modelUpsert (K : List Nat) (v : Value) :
    List (List Nat × Value) → List (List Nat × Value)
  | [] => [(K, v)]
  | (k, w) :: t =>
    if 0 < compare_keys K k then (k, w) :: modelUpsert K v t
    else if compare_keys K k = 0 then (k, v) :: t
    else (K, v) :: (k, w) :: t

/-- The model after a sequence of adds. -/
def specModel (ops : List (Entry × Nat)) : List (List Nat × Value) :=
  ops.foldl (fun md p => modelUpsert p.1.key (entryValue p.1) md) []

/-- What `search` actually returns, stated over the model: the first model
key at or above `K`, admitted through `same_key` (which ignores the 8-byte
suffix), with the payload carrying one spurious trailing zero byte whenever
`expires_at ≥ 1`, and `version` reset to 0. -/
def specSearch (ops : List (Entry × Nat)) (K : List Nat) : Value :=
  match (specModel ops).dropWhile
      (fun q => decide (0 < compare_keys K q.1)) with
  | [] => Value.defaultVal
  | (k, v) :: _ =>
    if same_key K k then
      { meta := v.meta,
        v := v.v ++ List.replicate (if v.expires_at = 0 then 0 else 1) 0,
        expires_at := v.expires_at, version := 0 }
    else Value.defaultVal

theorem assocUpsert_map (K : List Nat) (v : Value) :
    ∀ (md : List (List Nat × Value)),
      assocUpsert K (putValueSlice v)
        (md.map (fun q => (q.1, putValueSlice q.2)))
      = (modelUpsert K v md).map (fun q => (q.1, putValueSlice q.2)) := by
  intro md
  induction md with
  | nil => rfl
  | cons q t ih =>
    match q with
    | (k, w) =>
      simp only [List.map_cons, assocUpsert, modelUpsert]
      by_cases h1 : 0 < compare_keys K k
      · rw [if_pos h1, if_pos h1]
        simp only [List.map_cons]
        rw [ih]
      · rw [if_neg h1, if_neg h1]
        by_cases h2 : compare_keys K k = 0
        · rw [if_pos h2, if_pos h2]
          simp only [List.map_cons]
        · rw [if_neg h2, if_neg h2]
          simp only [List.map_cons]

theorem buildSlices_model :
    ∀ (ops : List (Entry × Nat)) (md : List (List Nat × Value)),
      ops.foldl (fun md p =>
          assocUpsert p.1.key (putValueSlice (entryValue p.1)) md)
        (md.map (fun q => (q.1, putValueSlice q.2)))
      = (ops.foldl (fun md p => modelUpsert p.1.key (entryValue p.1) md)
          md).map (fun q => (q.1, putValueSlice q.2)) := by
  intro ops
  induction ops with
  | nil => intro md; rfl
  | cons p t ih =>
    intro md
    show t.foldl _ (assocUpsert p.1.key (putValueSlice (entryValue p.1))
        (md.map _)) = _
    rw [assocUpsert_map]
    exact ih (modelUpsert p.1.key (entryValue p.1) md)

theorem buildSlices_eq_model (ops : List (Entry × Nat)) :
    buildSlices ops
      = (specModel ops).map (fun q => (q.1, putValueSlice q.2)) := by
  have := buildSlices_model ops []
  simpa [buildSlices, specModel] using this

theorem modelUpsert_mem (K : List Nat) (v : Value) :
    ∀ (md : List (List Nat × Value)) (q : List Nat × Value),
      q ∈ modelUpsert K v md → q.2 = v ∨ q ∈ md := by
  intro md
  induction md with
  | nil =>
    intro q hq
    simp only [modelUpsert, List.mem_singleton] at hq
    subst hq
    exact Or.inl rfl
  | cons p t ih =>
    intro q hq
    match p with
    | (k, w) =>
      simp only [modelUpsert] at hq
      by_cases h1 : 0 < compare_keys K k
      · rw [if_pos h1] at hq
        rcases List.mem_cons.mp hq with h | h
        · exact Or.inr (by rw [h]; simp)
        · rcases ih q h with h | h
          · exact Or.inl h
          · exact Or.inr (List.mem_cons_of_mem _ h)
      · rw [if_neg h1] at hq
        by_cases h2 : compare_keys K k = 0
        · rw [if_pos h2] at hq
          rcases List.mem_cons.mp hq with h | h
          · rw [h]
            exact Or.inl rfl
          · exact Or.inr (List.mem_cons_of_mem _ h)
        · rw [if_neg h2] at hq
          rcases List.mem_cons.mp hq with h | h
          · rw [h]
            exact Or.inl rfl
          · exact Or.inr h

theorem specModel_expires (ops : List (Entry × Nat))
    (h : ∀ p ∈ ops, p.1.expires_at < 2 ^ 64) :
    ∀ q ∈ specModel ops, q.2.expires_at < 2 ^ 64 := by
  suffices hgen : ∀ (t : List (Entry × Nat)) (md : List (List Nat × Value)),
      (∀ p ∈ t, p.1.expires_at < 2 ^ 64) →
      (∀ q ∈ md, q.2.expires_at < 2 ^ 64) →
      ∀ q ∈ t.foldl (fun md p => modelUpsert p.1.key (entryValue p.1) md) md,
        q.2.expires_at < 2 ^ 64 by
    intro q hq
    exact hgen ops [] h (by intro q hq; cases hq) q hq
  intro t
  induction t with
  | nil =>
    intro md _ hmd q hq
    exact hmd q hq
  | cons p t2 ih =>
    intro md ht hmd q hq
    refine ih (modelUpsert p.1.key (entryValue p.1) md)
      (fun r hr => ht r (List.mem_cons_of_mem _ hr)) ?_ q hq
    intro r hr
    rcases modelUpsert_mem _ _ md r hr with h2 | h2
    · rw [h2]
      exact ht p (List.mem_cons_self _ _)
    · exact hmd r h2

/-- C4, settled against the code: for every sequence of adds (keys longer
than 8 bytes, heights in `[1, MAX_HEIGHT]`, `u64` expirations), `search(K)`
returns exactly what the sorted per-key map model prescribes — the entry of
the first model key at or above `K` when `same_key` accepts it (equality
ignoring the 8-byte suffix, so a never-added `K` can still hit), with the
most recently added value for that key, whose payload gains one spurious
trailing zero byte whenever `expires_at ≥ 1`, and a default `Value`
otherwise.  The claim as frozen (default for never-added keys, the added
value verbatim) is refuted by `search_hits_never_added_key`. -/
theorem skiplist_search_spec (ops : List (Entry × Nat)) (K : List Nat)
    (hops : ∀ p ∈ ops, 8 < p.1.key.length ∧ 1 ≤ p.2 ∧ p.2 ≤ MAX_HEIGHT ∧
      p.1.expires_at < 2 ^ 64)
    (hK : 8 < K.length) :
    (addEntries newSkipList ops).search K = specSearch ops K := by
  obtain ⟨m, hinv, hml⟩ := addEntries_spec ops
    (fun p hp => ⟨(hops p hp).1, (hops p hp).2.1, (hops p hp).2.2.1⟩)
  rw [search_spec hinv hK]
  have hmm : mListOf (addEntries newSkipList ops) m
      = (specModel ops).map (fun q => (q.1, putValueSlice q.2)) := by
    rw [hml, buildSlices_eq_model]
  have h1 : (mListOf (addEntries newSkipList ops) m).dropWhile
      (fun q => decide (0 < compare_keys K q.1))
      = (highMaster (addEntries newSkipList ops) K m).map
          (fun id => (keyOf (addEntries newSkipList ops) id,
            valSliceOf (addEntries newSkipList ops) id)) := by
    unfold mListOf
    rw [List.dropWhile_map]
    rfl
  have h2 : (mListOf (addEntries newSkipList ops) m).dropWhile
      (fun q => decide (0 < compare_keys K q.1))
      = ((specModel ops).dropWhile
          (fun q => decide (0 < compare_keys K q.1))).map
            (fun q => (q.1, putValueSlice q.2)) := by
    rw [hmm, List.dropWhile_map]
    rfl
  have hdw := h2.symm.trans h1
  unfold specSearch
  cases hsm : (specModel ops).dropWhile
      (fun q => decide (0 < compare_keys K q.1)) with
  | nil =>
    rw [hsm] at hdw
    have hhm : highMaster (addEntries newSkipList ops) K m = [] := by
      have := hdw.symm
      simpa using this
    rw [hhm]
  | cons q t =>
    obtain ⟨k, v⟩ := q
    rw [hsm] at hdw
    have hqmem : (k, v) ∈ specModel ops := by
      have : (k, v) ∈ (specModel ops).dropWhile
          (fun q => decide (0 < compare_keys K q.1)) := by
        rw [hsm]
        exact List.mem_cons_self _ _
      exact (List.dropWhile_sublist _).subset this
    cases hhm : highMaster (addEntries newSkipList ops) K m with
    | nil =>
      rw [hhm] at hdw
      simp at hdw
    | cons b t2 =>
      rw [hhm] at hdw
      simp only [List.map_cons, List.cons.injEq, Prod.mk.injEq] at hdw
      obtain ⟨⟨hk1, hv1⟩, _⟩ := hdw
      show (if same_key K (keyOf (addEntries newSkipList ops) b)
            then Value.defaultVal.decode_value
              (valSliceOf (addEntries newSkipList ops) b)
            else Value.defaultVal)
          = (if same_key K k then
              { meta := v.meta,
                v := v.v ++
                  List.replicate (if v.expires_at = 0 then 0 else 1) 0,
                expires_at := v.expires_at, version := 0 }
             else Value.defaultVal)
      rw [← hk1, ← hv1]
      by_cases hsk : same_key K k
      · rw [if_pos hsk, if_pos hsk]
        have hexp : v.expires_at < 2 ^ 64 :=
          specModel_expires ops (fun p hp => (hops p hp).2.2.2) (k, v) hqmem
        rw [decode_putValueSlice v Value.defaultVal hexp]
        rfl
      · rw [if_neg hsk, if_neg hsk]

/-- Two adds for the search-specification witness: key `a????????` (9 bytes,
suffix byte 1) written twice — the second add replaces the value — and an
unrelated key starting with `b`. -/
def c4ops : List (Entry × Nat) :=
  [({ key := [97, 0, 0, 0, 0, 0, 0, 0, 1], value := [7], expires_at := 0,
      meta := 0, version := 0 }, 1),
   ({ key := [98, 0, 0, 0, 0, 0, 0, 0, 1], value := [5], expires_at := 1,
      meta := 2, version := 0 }, 2),
   ({ key := [97, 0, 0, 0, 0, 0, 0, 0, 1], value := [9], expires_at := 0,
      meta := 1, version := 0 }, 1)]

/-- Witness for the amended C4 at a concrete add sequence. -/
theorem skiplist_search_spec_witness :
    ((∀ p ∈ c4ops, 8 < p.1.key.length ∧ 1 ≤ p.2 ∧ p.2 ≤ MAX_HEIGHT ∧
        p.1.expires_at < 2 ^ 64) ∧
     8 < ([97, 0, 0, 0, 0, 0, 0, 0, 1] : List Nat).length) ∧
    (addEntries newSkipList c4ops).search [97, 0, 0, 0, 0, 0, 0, 0, 1]
      = specSearch c4ops [97, 0, 0, 0, 0, 0, 0, 0, 1] :=
  ⟨⟨by decide, by decide⟩,
   skiplist_search_spec c4ops [97, 0, 0, 0, 0, 0, 0, 0, 1]
     (by decide) (by decide)⟩

/-! ### Reachability along a level -/

/-- The ids reachable by following `tower[L]` pointers from `x` (excluding
`x` itself), with fuel. -/
def chainWalk (sl : SkipList) (L : Nat) : Nat → Nat → List Nat
  | 0, _ => []
  | fuel + 1, x =>
    let nx := towerOf sl x L
    if nx = 0 then [] else nx :: chainWalk sl L fuel nx

/-- The nodes reachable at level `L` from the head sentinel. -/
def reachAt (sl : SkipList) (L : Nat) : List Nat :=
  1 :: chainWalk sl L (sl.nodes.length + 1) 1

theorem chainWalk_of_IsChain {sl : SkipList} {L : Nat} :
    ∀ {s : List Nat} {start fuel : Nat}, IsChain sl L start s →
      (∀ a ∈ s, a ≠ 0) → s.length < fuel →
      chainWalk sl L fuel start = s := by
  intro s
  induction s with
  | nil =>
    intro start fuel hch _ hfuel
    match fuel with
    | f + 1 =>
      have h0 : towerOf sl start L = 0 := hch
      simp [chainWalk, h0]
  | cons a s ih =>
    intro start fuel hch hne hfuel
    match fuel with
    | f + 1 =>
      have h0 : towerOf sl start L = a := hch.1
      have ha : a ≠ 0 := hne a (List.mem_cons_self a s)
      simp only [chainWalk, h0, if_neg ha]
      rw [ih hch.2 (fun x hx => hne x (List.mem_cons_of_mem a hx))
        (by simpa using Nat.lt_of_succ_lt_succ hfuel)]

theorem chain_succ_lt {sl : SkipList} {L : Nat} :
    ∀ {s : List Nat} {start : Nat}, IsChain sl L start s →
      List.Pairwise (keyLt sl) (start :: s) →
      ∀ x ∈ start :: s, towerOf sl x L ≠ 0 →
        keyLt sl x (towerOf sl x L) := by
  intro s
  induction s with
  | nil =>
    intro start hch _ x hx hne
    rcases List.mem_cons.mp hx with hx | hx
    · subst hx
      exact absurd hch hne
    · cases hx
  | cons a s ih =>
    intro start hch hpair x hx hne
    rcases List.mem_cons.mp hx with hx | hx
    · subst hx
      rw [hch.1]
      exact (List.pairwise_cons.mp hpair).1 a (List.mem_cons_self a s)
    · exact ih hch.2 (List.pairwise_cons.mp hpair).2 x hx hne

/-- C9: after any sequence of adds (long keys, heights in range), for every
level `L` and every node reachable at level `L` from the head, its key is
strictly below its level-`L` successor's key whenever that successor is
non-null, and every node linked at any level is also linked into level 0. -/
theorem skiplist_level_invariants (ops : List (Entry × Nat))
    (hops : ∀ p ∈ ops, 8 < p.1.key.length ∧ 1 ≤ p.2 ∧ p.2 ≤ MAX_HEIGHT) :
    ∀ L, L < MAX_HEIGHT →
      (∀ x ∈ reachAt (addEntries newSkipList ops) L,
        towerOf (addEntries newSkipList ops) x L ≠ 0 →
        compare_keys (keyOf (addEntries newSkipList ops) x)
          (keyOf (addEntries newSkipList ops)
            (towerOf (addEntries newSkipList ops) x L)) < 0) ∧
      (∀ x ∈ chainWalk (addEntries newSkipList ops) L
          ((addEntries newSkipList ops).nodes.length + 1) 1,
        x ∈ chainWalk (addEntries newSkipList ops) 0
          ((addEntries newSkipList ops).nodes.length + 1) 1) := by
  obtain ⟨m, hinv, _⟩ := addEntries_fold newSkipList_inv ops hops
  intro L hL
  have hwalk : ∀ L', L' < MAX_HEIGHT →
      chainWalk (addEntries newSkipList ops) L'
        ((addEntries newSkipList ops).nodes.length + 1) 1
      = levelList (addEntries newSkipList ops) m L' := by
    intro L' hL'
    apply chainWalk_of_IsChain
      (SubChain_iff_IsChain.mp (hinv.chains L' hL'))
    · intro a ha
      have := (hinv.mem a).mp (levelList_mem.mp ha).1
      omega
    · have h1 : (levelList (addEntries newSkipList ops) m L').length
          ≤ m.length := levelList_length_le L'
      have h2 := hinv.mlen
      omega
  have hpair : List.Pairwise (keyLt (addEntries newSkipList ops))
      (1 :: levelList (addEntries newSkipList ops) m L) := by
    apply List.pairwise_cons.mpr
    refine ⟨?_, levelList_pairwise hinv.sorted L⟩
    intro b hb
    unfold keyLt
    rw [hinv.head_key]
    exact compare_keys_nil_lt
      (hinv.klen b (levelList_mem.mp hb).1)
  constructor
  · intro x hx hne
    unfold reachAt at hx
    rw [hwalk L hL] at hx
    exact chain_succ_lt
      (SubChain_iff_IsChain.mp (hinv.chains L hL)) hpair x hx hne
  · intro x hx
    rw [hwalk L hL] at hx
    rw [hwalk 0 (by unfold MAX_HEIGHT; omega)]
    rw [levelList_zero hinv]
    exact (levelList_mem.mp hx).1

/-- One add for the level-invariant witness. -/
def c9ops : List (Entry × Nat) :=
  [({ key := [99, 1, 2, 3, 4, 5, 6, 7, 8], value := [1], expires_at := 0,
      meta := 0, version := 0 }, 3),
   ({ key := [97, 1, 2, 3, 4, 5, 6, 7, 8], value := [2], expires_at := 0,
      meta := 0, version := 0 }, 2)]

/-- Witness for C9 at a concrete add sequence. -/
theorem skiplist_level_invariants_witness :
    (∀ p ∈ c9ops, 8 < p.1.key.length ∧ 1 ≤ p.2 ∧ p.2 ≤ MAX_HEIGHT) ∧
    (∀ L, L < MAX_HEIGHT →
      (∀ x ∈ reachAt (addEntries newSkipList c9ops) L,
        towerOf (addEntries newSkipList c9ops) x L ≠ 0 →
        compare_keys (keyOf (addEntries newSkipList c9ops) x)
          (keyOf (addEntries newSkipList c9ops)
            (towerOf (addEntries newSkipList c9ops) x L)) < 0) ∧
      (∀ x ∈ chainWalk (addEntries newSkipList c9ops) L
          ((addEntries newSkipList c9ops).nodes.length + 1) 1,
        x ∈ chainWalk (addEntries newSkipList c9ops) 0
          ((addEntries newSkipList c9ops).nodes.length + 1) 1)) :=
  ⟨by decide, skiplist_level_invariants c9ops (by decide)⟩

end StepDB
